import Mathlib

set_option linter.unusedSectionVars false
set_option linter.unusedVariables false

/-!
# Smart Navigation Filter — verification of the navigation graph engine

Shallow embedding of `src/pathfinding.js`, the voice-direction synthesizer of
`src/MapView3D.jsx`, and the static dataset of `src/data/buildingData.js`.

Modelling conventions:

* Node ids, edge endpoints and type tags are `String`s, as in the source.
* Numeric values are taken in an arbitrary `LinearOrderedAddCommGroup` (or
  `LinearOrderedField` where the source divides or squares).  The JavaScript
  engine computes every edge weight as
  `Math.sqrt((n1.x - n2.x) ** 2 + (n1.y - n2.y) ** 2)` — a nonnegative,
  symmetric function of the two endpoint *nodes*.  Every IEEE double is a
  rational number, so the weight function actually used by the program is one
  particular nonnegative symmetric function; the embedding abstracts it as an
  explicit parameter `w : Node α → Node α → α`.  Claims about Euclidean
  distances are stated at `α := ℝ` with `w` pinned to the Euclidean distance
  by the equation `(w a b)^2 = (a.x - b.x)^2 + (a.y - b.y)^2 ∧ 0 ≤ w a b`,
  which characterises `Real.sqrt` of the squared distance.
* The JavaScript `dist` object is a `List (String × Option α)`: keys in
  insertion order, value `none` standing for `Infinity`.  A lookup of an
  absent key yields the outer `none` of `Option (Option α)`, standing for
  JavaScript `undefined` (note `undefined === Infinity` is `false`).
* JavaScript truthiness matters in two places of the source: the loop break
  `if (!minNode || minNode === endId)` treats the empty string as falsy, and
  so does the path-reconstruction loop `while (current)`.  Both are modelled
  exactly.
* The unbounded `while` loops are modelled with explicit fuel that provably
  exceeds the number of iterations the JavaScript loop can perform (each
  iteration of the main loop permanently marks one of the finitely many
  `dist` keys visited; each step of the reconstruction walk follows a `prev`
  link, and the `prev` chains are acyclic).
-/

/-- A navigation node of `buildingData.js`: `{id, x, y, type, accessible, label}`.
The coordinate type is a parameter (see the header comment). -/
structure Node (α : Type) where
  id : String
  x : α
  y : α
  type : String
  accessible : Bool
  label : Option String := none
deriving Repr, DecidableEq

/-- An edge of `buildingData.js`: `{from, to, type, accessible}`. -/
structure Edge where
  «from» : String
  «to» : String
  type : String
  accessible : Bool
deriving Repr, DecidableEq

/-- A blocked-edge marker `{from, to}` as passed in `blockedEdges`. -/
structure BlockedEdge where
  «from» : String
  «to» : String
deriving Repr, DecidableEq

/-- The result object of `dijkstra`: `{ path, distance }`.  `distance = none`
models the JavaScript value `undefined` (which the code can surface when
`endId` is not a key of `dist`); a present number is `some q`. -/
structure RouteResult (α : Type) where
  path : List String
  distance : Option α
deriving Repr, DecidableEq

/-- The result object of `findNearestExit`:
`{ ...result, targetId, isRefuge }`. -/
structure ExitResult (α : Type) where
  path : List String
  distance : Option α
  targetId : String
  isRefuge : Bool
deriving Repr, DecidableEq

/-- One turn-by-turn instruction produced by `generateDirections`
(pathfinding.js): `{text, distance, type}`; `distance` is the string produced
by `.toFixed(0)`. -/
structure DirStep where
  text : String
  distance : String
  type : String
deriving Repr, DecidableEq

section Maps

variable {β : Type}

/-- Lookup in a JavaScript object modelled as an association list:
`none` is JavaScript `undefined`. -/
def getKey (m : List (String × β)) (k : String) : Option β :=
  (m.find? fun kv => kv.1 = k).map (·.2)

/-- Assignment `m[k] = v` on a JavaScript object: updates the value in place
when the key exists (key order is preserved), otherwise appends the new key. -/
def setKey (m : List (String × β)) (k : String) (v : β) : List (String × β) :=
  if m.any (fun kv => kv.1 = k) then
    m.map fun kv => if kv.1 = k then (k, v) else kv
  else m ++ [(k, v)]

end Maps

section JsNumbers

variable {α : Type} [LinearOrder α] [Add α]

/-- JavaScript `<` on numbers-or-`Infinity` (`none` is `Infinity`):
`Infinity < x` is always false, `x < Infinity` is true for finite `x`. -/
def jlt : Option α → Option α → Bool
  | some a, some b => decide (a < b)
  | some _, none => true
  | none, _ => false

/-- JavaScript `<` against a possibly-absent (`undefined`) right operand:
any comparison with `undefined` is false. -/
def jltO (a : Option α) : Option (Option α) → Bool
  | some b => jlt a b
  | none => false

/-- JavaScript `+` of a number-or-`Infinity` and a finite number. -/
def jadd (a : Option α) (q : α) : Option α :=
  a.map (· + q)

/-- JavaScript `<` on two possibly-`undefined` finite numbers, as used in
`findNearestExit` (`result.distance < best.distance`). -/
def jltD : Option α → Option α → Bool
  | some a, some b => decide (a < b)
  | _, _ => false

end JsNumbers

section Dijkstra

variable {α : Type} [LinearOrder α] [Add α] [Zero α]

/-- `nodeMap[i]`: the JavaScript object built by
`nodes.forEach(n => { nodeMap[n.id] = n })` — on duplicate ids the last
assignment wins, hence the lookup scans the reversed list. -/
def nodeMapFind (nodes : List (Node α)) (i : String) : Option (Node α) :=
  nodes.reverse.find? fun n => n.id = i

/-- The blocked-edge test of `dijkstra` (pathfinding.js lines 29–32):
an edge is blocked when some marker matches it in either direction. -/
def edgeBlocked (blockedEdges : List BlockedEdge) (e : Edge) : Bool :=
  blockedEdges.any fun b =>
    (b.from = e.from && b.to = e.to) || (b.from = e.to && b.to = e.from)

/-- The edge filter of the adjacency builder (pathfinding.js lines 24–33):
keep an edge unless wheelchair mode excludes it or it is blocked. -/
def edgeKept (wheelchairMode : Bool) (blockedEdges : List BlockedEdge)
    (e : Edge) : Bool :=
  !(wheelchairMode && !e.accessible) && !(edgeBlocked blockedEdges e)

/-- The adjacency entries a single edge contributes for vertex `v`
(pathfinding.js lines 24–42): a kept edge with both endpoints resolvable
is inserted symmetrically, weighted by `w` on the two endpoint nodes. -/
def adjEdgeEntries (nodes : List (Node α)) (wheelchairMode : Bool)
    (blockedEdges : List BlockedEdge) (w : Node α → Node α → α)
    (v : String) (e : Edge) : List (String × α) :=
  if edgeKept wheelchairMode blockedEdges e then
    match nodeMapFind nodes e.from, nodeMapFind nodes e.to with
    | some n1, some n2 =>
        (if e.from = v then [(e.to, w n1 n2)] else []) ++
        (if e.to = v then [(e.from, w n1 n2)] else [])
    | _, _ => []
  else []

/-- `adj[v]`, the full adjacency list of vertex `v` in edge-list order. -/
def adjOf (nodes : List (Node α)) (edges : List Edge) (wheelchairMode : Bool)
    (blockedEdges : List BlockedEdge) (w : Node α → Node α → α)
    (v : String) : List (String × α) :=
  (edges.map (adjEdgeEntries nodes wheelchairMode blockedEdges w v)).flatten

/-- `nodes.forEach(n => { dist[n.id] = Infinity })`: one key per distinct id,
in order of first occurrence, all values `Infinity`. -/
def initDist (nodes : List (Node α)) : List (String × Option α) :=
  nodes.foldl
    (fun acc n =>
      if acc.any (fun kv => kv.1 = n.id) then acc
      else acc ++ [(n.id, (none : Option α))])
    []

/-- The minimum-selection scan of the main loop (pathfinding.js lines 52–59):
iterate the keys of `dist`, tracking `(minNode, minDist)`; the first strictly
smaller unvisited value wins. -/
def selectMin (m : List (String × Option α)) (visited : List String) :
    Option String × Option α :=
  m.foldl
    (fun acc kv =>
      if !visited.contains kv.1 && jlt kv.2 acc.2 then (some kv.1, kv.2)
      else acc)
    (none, none)

/-- The relaxation loop over the selected node's adjacency list
(pathfinding.js lines 63–70): skip visited neighbours, otherwise update
`dist` and `prev` when the new tentative distance is strictly smaller. -/
def relaxAll (dm : List (String × Option α)) (prev : List (String × String))
    (visited : List String) (minNode : String)
    (entries : List (String × α)) :
    List (String × Option α) × List (String × String) :=
  entries.foldl
    (fun st nb =>
      if visited.contains nb.1 then st
      else
        let newDist := jadd ((getKey st.1 minNode).getD none) nb.2
        if jltO newDist (getKey st.1 nb.1) then
          (setKey st.1 nb.1 newDist, setKey st.2 nb.1 minNode)
        else st)
    (dm, prev)

/-- The main `while (true)` loop of `dijkstra` (pathfinding.js lines 51–71).
The break condition `if (!minNode || minNode === endId)` treats the empty
string as falsy.  The fuel argument strictly exceeds the number of `dist`
keys, which bounds the number of iterations (each iteration adds an unvisited
key to `visited`). -/
def dijkstraLoop (nodes : List (Node α)) (edges : List Edge)
    (wheelchairMode : Bool) (blockedEdges : List BlockedEdge)
    (w : Node α → Node α → α) (endId : String) :
    Nat → List (String × Option α) → List (String × String) → List String →
    List (String × Option α) × List (String × String) × List String
  | 0, dm, prev, visited => (dm, prev, visited)
  | fuel + 1, dm, prev, visited =>
    match (selectMin dm visited).1 with
    | none => (dm, prev, visited)
    | some minNode =>
      if minNode = "" || minNode = endId then (dm, prev, visited)
      else
        let visited' := minNode :: visited
        let st := relaxAll dm prev visited' minNode
          (adjOf nodes edges wheelchairMode blockedEdges w minNode)
        dijkstraLoop nodes edges wheelchairMode blockedEdges w endId
          fuel st.1 st.2 visited'

/-- The path-reconstruction loop (pathfinding.js lines 75–80):
`while (current) { path.unshift(current); current = prev[current]; }`.
The empty string is falsy and stops the walk; a missing `prev` entry yields
`undefined` (`none`) and stops it too. -/
def walkPrev : Nat → List (String × String) → Option String → List String
  | _, _, none => []
  | 0, _, some _ => []
  | fuel + 1, prev, some c =>
    if c = "" then [] else walkPrev fuel prev (getKey prev c) ++ [c]

/-- `dijkstra(startId, endId, nodes, edges, wheelchairMode, blockedEdges)`
(pathfinding.js lines 15–82), with the derived edge weight abstracted as `w`
(see the header comment).  Returns `none` exactly when the source returns
`null` (`dist[endId] === Infinity`). -/
def dijkstra (startId endId : String) (nodes : List (Node α))
    (edges : List Edge) (wheelchairMode : Bool)
    (blockedEdges : List BlockedEdge) (w : Node α → Node α → α) :
    Option (RouteResult α) :=
  let dm0 := setKey (initDist nodes) startId (some 0)
  let st := dijkstraLoop nodes edges wheelchairMode blockedEdges w endId
    (dm0.length + 1) dm0 [] []
  match getKey st.1 endId with
  | some none => none
  | d =>
      some ⟨walkPrev (st.1.length + 1) st.2.1 (some endId),
        match d with
        | some (some q) => some q
        | _ => none⟩

/-- The scan over candidate target nodes in `findNearestExit`
(pathfinding.js lines 91–96 and 101–106): run `dijkstra` to each target and
keep the strictly smaller result (`result.distance < best.distance`). -/
def scanTargets (startId : String) (nodes : List (Node α)) (edges : List Edge)
    (wheelchairMode : Bool) (blockedEdges : List BlockedEdge)
    (w : Node α → Node α → α) (isRef : Bool) (targets : List (Node α))
    (init : Option (ExitResult α)) : Option (ExitResult α) :=
  targets.foldl
    (fun best t =>
      match dijkstra startId t.id nodes edges wheelchairMode blockedEdges w with
      | some result =>
          match best with
          | none => some ⟨result.path, result.distance, t.id, isRef⟩
          | some b =>
              if jltD result.distance b.distance then
                some ⟨result.path, result.distance, t.id, isRef⟩
              else some b
      | none => best)
    init

/-- `findNearestExit(startId, nodes, edges, wheelchairMode, blockedEdges)`
(pathfinding.js lines 87–110): nearest exit, else (wheelchair mode only)
nearest refuge marked `isRefuge`, else `null`. -/
def findNearestExit (startId : String) (nodes : List (Node α))
    (edges : List Edge) (wheelchairMode : Bool)
    (blockedEdges : List BlockedEdge) (w : Node α → Node α → α) :
    Option (ExitResult α) :=
  let best := scanTargets startId nodes edges wheelchairMode blockedEdges w
    false (nodes.filter fun n => n.type = "exit") none
  match best with
  | some b => some b
  | none =>
      if wheelchairMode then
        scanTargets startId nodes edges wheelchairMode blockedEdges w
          true (nodes.filter fun n => n.type = "refuge") none
      else none

end Dijkstra

section Paths

variable {α : Type} [LinearOrder α] [Add α]

/-- A single traversable step of the filtered graph: some edge of the list
survives both filters, has both endpoints resolvable, and joins `a` and `b`
(in either stored direction).  This is exactly the condition under which the
adjacency builder creates an entry from `a` to `b`. -/
def survivingStep (nodes : List (Node α)) (edges : List Edge)
    (wheelchairMode : Bool) (blockedEdges : List BlockedEdge)
    (a b : String) : Bool :=
  edges.any fun e =>
    edgeKept wheelchairMode blockedEdges e &&
    (nodeMapFind nodes e.from).isSome && (nodeMapFind nodes e.to).isSome &&
    ((e.from = a && e.to = b) || (e.from = b && e.to = a))

/-- A path that survives the filters: nonempty, from `s` to `t`, with every
consecutive pair joined by a surviving edge. -/
def ValidPath (nodes : List (Node α)) (edges : List Edge)
    (wheelchairMode : Bool) (blockedEdges : List BlockedEdge)
    (s t : String) (p : List String) : Prop :=
  p ≠ [] ∧ p.head? = some s ∧ p.getLast? = some t ∧
    List.Chain' (fun a b =>
      survivingStep nodes edges wheelchairMode blockedEdges a b = true) p

/-- Boolean chain of surviving steps, for concrete evaluation of
`ValidPath`. -/
def chainB (nodes : List (Node α)) (edges : List Edge)
    (wheelchairMode : Bool) (blockedEdges : List BlockedEdge) :
    List String → Bool
  | a :: b :: rest =>
      survivingStep nodes edges wheelchairMode blockedEdges a b &&
        chainB nodes edges wheelchairMode blockedEdges (b :: rest)
  | _ => true

instance (nodes : List (Node α)) (edges : List Edge)
    (wheelchairMode : Bool) (blockedEdges : List BlockedEdge)
    (s t : String) (p : List String) :
    Decidable (ValidPath nodes edges wheelchairMode blockedEdges s t p) :=
  decidable_of_iff (p ≠ [] ∧ p.head? = some s ∧ p.getLast? = some t ∧
    chainB nodes edges wheelchairMode blockedEdges p = true) (by
      unfold ValidPath
      have hch : ∀ q : List String,
          chainB nodes edges wheelchairMode blockedEdges q = true ↔
          List.Chain' (fun a b =>
            survivingStep nodes edges wheelchairMode blockedEdges a b = true)
            q := by
        intro q
        induction q with
        | nil => simp [chainB]
        | cons a rest ih =>
          cases rest with
          | nil => simp [chainB]
          | cons b rest' =>
            simp [chainB, Bool.and_eq_true, ih, List.chain'_cons]
      rw [hch])

/-- The weight of the step from `a` to `b`, as the adjacency builder derives
it: `w` applied to the two resolved endpoint nodes (`0` when unresolvable;
a surviving step always resolves). -/
def stepW (nodes : List (Node α)) (w : Node α → Node α → α) [Zero α]
    (a b : String) : α :=
  match nodeMapFind nodes a, nodeMapFind nodes b with
  | some na, some nb => w na nb
  | _, _ => 0

/-- Total weight of a path: the sum of the step weights of consecutive
pairs. -/
def pathCost (nodes : List (Node α)) (w : Node α → Node α → α) [Zero α] :
    List String → α
  | a :: b :: rest => stepW nodes w a b + pathCost nodes w (b :: rest)
  | _ => 0

/-- Reachability of `t` from `s` in the filtered graph. -/
def Reach (nodes : List (Node α)) (edges : List Edge)
    (wheelchairMode : Bool) (blockedEdges : List BlockedEdge)
    (s t : String) : Prop :=
  ∃ p, ValidPath nodes edges wheelchairMode blockedEdges s t p

end Paths

/-- One step of the voice synthesizer of `MapView3D.jsx`:
`{text, nodeId, type}`. -/
structure VoiceStep where
  text : String
  nodeId : String
  type : String
deriving Repr, DecidableEq

section Directions

variable {α : Type} [LinearOrderedField α]

/-- JavaScript `String.prototype.includes`: `pat` occurs somewhere in `s`. -/
def jsIncludes (s pat : String) : Bool :=
  s.data.tails.any fun t => pat.data.isPrefixOf t

/-- `some rest` when `pat` is a prefix of `s`, with `rest` what follows. -/
def dropPrefixOpt : List Char → List Char → Option (List Char)
  | [], s => some s
  | _ :: _, [] => none
  | p :: ps, c :: cs => if p = c then dropPrefixOpt ps cs else none

/-- Replace the first (leftmost) occurrence of `pat` by `rep`, scanning left
to right — the `indexOf`-based semantics of JavaScript
`String.prototype.replace` with a string pattern. -/
def replaceFirstL (pat rep : List Char) : List Char → List Char
  | [] => []
  | c :: cs =>
    match dropPrefixOpt pat (c :: cs) with
    | some rest => rep ++ rest
    | none => c :: replaceFirstL pat rep cs

/-- JavaScript `String.prototype.replace` with a *string* pattern replaces
only the first occurrence (used for `.replace('NODE_', '')`). -/
def replaceFirst (s pat rep : String) : String :=
  ⟨replaceFirstL pat.data rep.data s.data⟩

/-- The regex replacement `/_/g → ' '`: every underscore becomes a blank. -/
def replaceUnderscores : List Char → List Char
  | [] => []
  | c :: cs => (if c = '_' then ' ' else c) :: replaceUnderscores cs

/-- `curr.label || curr.id.replace('NODE_', '').replace(/_/g, ' ')`
(pathfinding.js line 157).  JavaScript `||` falls through on the empty
string, and the `/_/g` regex replaces every underscore. -/
def jsLabel (n : Node α) : String :=
  let fallback : String :=
    ⟨replaceUnderscores (replaceFirst n.id "NODE_" "").data⟩
  match n.label with
  | some l => if l = "" then fallback else l
  | none => fallback

/-- Dominant-axis heading (pathfinding.js lines 136–140 and
MapView3D.jsx lines 94–98). -/
def headDirection (dx dy : α) : String :=
  if |dx| > |dy| then (if dx > 0 then "east" else "west")
  else (if dy > 0 then "north" else "south")

/-- The simple synthesizer's turn string (pathfinding.js lines 149–154):
`|cross| > 0.5` splits left/right by sign, otherwise straight. -/
def turnText (cross : α) : String :=
  if |cross| > 1 / 2 then (if cross > 0 then "Turn left" else "Turn right")
  else "Continue straight"

/-- The `type` tag of a simple direction step (pathfinding.js line 169):
`turn.includes('left') ? 'left' : turn.includes('right') ? 'right' :
'straight'`. -/
def classifyType (turn : String) : String :=
  if jsIncludes turn "left" then "left"
  else if jsIncludes turn "right" then "right"
  else "straight"

/-- The voice synthesizer's maneuver classification (MapView3D.jsx
lines 144–173): `|cross| < 0.5 && dot > 0` → straight; `cross > 0.5` → left;
`cross < -0.5` → right; otherwise (near-reversal) straight. -/
def voiceManeuver (cross dot : α) : String :=
  if |cross| < 1 / 2 ∧ dot > 0 then "straight"
  else if cross > 1 / 2 then "left"
  else if cross < -1 / 2 then "right"
  else "straight"

/-- The fixed advisory phrase for special node types (MapView3D.jsx
lines 117–122). -/
def voiceSpecialText (nodeType : String) : Option String :=
  if nodeType = "elevator" then some "Take the elevator."
  else if nodeType = "stairs" then some "Use the stairwell."
  else if nodeType = "ramp" then some "Use the ramp."
  else if nodeType = "refuge" then some "Proceed to the refuge area. Help is on the way."
  else none

/-- The voice step emitted at an interior path node (MapView3D.jsx
lines 139–173): left/right keep their maneuver `type` even when a special
phrase replaces the text; both straight branches emit the special phrase
with type `special` when present. -/
def voiceInteriorStep (cross dot : α) (special : Option String)
    (nodeId : String) : VoiceStep :=
  if voiceManeuver cross dot = "left" then
    ⟨special.getD "Turn left.", nodeId, "left"⟩
  else if voiceManeuver cross dot = "right" then
    ⟨special.getD "Turn right.", nodeId, "right"⟩
  else
    match special with
    | some t => ⟨t, nodeId, "special"⟩
    | none => ⟨"Continue straight.", nodeId, "straight"⟩

/-- The body of the `for (let i = 1; ...)` loop of `generateDirections`
(pathfinding.js lines 123–172), processed as a sliding window.  `fmt`
abstracts `x => Math.sqrt(x).toFixed(0)` applied to `dx*dx + dy*dy` (the
rendering of the rounded Euclidean hop length as a string). -/
def genSteps (nodes : List (Node α)) (fmt : α → String) :
    List String → List DirStep
  | a :: b :: rest =>
    (match nodeMapFind nodes a, nodeMapFind nodes b with
     | some pv, some curr =>
       let dx := curr.x - pv.x
       let dy := curr.y - pv.y
       let dist := fmt (dx * dx + dy * dy)
       let direction := headDirection dx dy
       let turn : String :=
         match rest with
         | c :: _ =>
           match nodeMapFind nodes c with
           | some next =>
               turnText (dx * (next.y - curr.y) - dy * (next.x - curr.x))
           | none => ""
         | [] => ""
       let label := jsLabel curr
       if rest = [] then
         [⟨s!"Arrive at {label}", dist, "arrive"⟩]
       else
         [⟨if turn ≠ "" then s!"{turn} at {label}"
           else s!"Head {direction} — {dist}m", dist, classifyType turn⟩]
     | _, _ => []) ++ genSteps nodes fmt (b :: rest)
  | _ => []

/-- `generateDirections(path, nodes)` (pathfinding.js lines 115–175). -/
def generateDirections (path : List String) (nodes : List (Node α))
    (fmt : α → String) : List DirStep :=
  if path.length < 2 then [] else genSteps nodes fmt path

end Directions

/-- The static node set `NODES` of `buildingData.js` (coordinates read as
exact rationals). -/
def NODES : List (Node ℚ) := [
  ⟨"NODE_EXIT_A", 26, 4.65, "exit", true, some "Exit A"⟩,
  ⟨"NODE_EXIT_B", 18, -20, "exit", true, some "Exit B"⟩,
  ⟨"NODE_EXIT_C", -10, 20, "exit", true, some "Exit C"⟩,
  ⟨"NODE_ELEVATOR", 19, -12.5, "elevator", true, some "Elevator"⟩,
  ⟨"NODE_STAIRS_1", -23, 15.75, "stairs", false, some "Stairs 1"⟩,
  ⟨"NODE_STAIRS_2", 15.5, -11.75, "stairs", false, some "Stairs 2"⟩,
  ⟨"NODE_REFUGE_1", -17, 17, "refuge", true, some "Refuge 1"⟩,
  ⟨"NODE_REFUGE_2", 15.5, -17, "refuge", true, some "Refuge 2"⟩,
  ⟨"NODE_RAMP", 16, -16, "ramp", true, some "Ramp"⟩,
  ⟨"NODE_NC_W", -18, 10, "intersection", true, none⟩,
  ⟨"NODE_NC_1", -14, 10, "intersection", true, none⟩,
  ⟨"NODE_NC_NW", -10, 10, "intersection", true, none⟩,
  ⟨"NODE_NC_2", -5, 10, "intersection", true, none⟩,
  ⟨"NODE_NC_C", -2, 10, "intersection", true, none⟩,
  ⟨"NODE_NC_3", 6, 10, "intersection", true, none⟩,
  ⟨"NODE_NC_E", 14, 10, "intersection", true, none⟩,
  ⟨"NODE_SC_W", -18, -8, "intersection", true, none⟩,
  ⟨"NODE_SC_1", -12, -8, "intersection", true, none⟩,
  ⟨"NODE_SC_2", -7, -8, "intersection", true, none⟩,
  ⟨"NODE_SC_C", -2, -8, "intersection", true, none⟩,
  ⟨"NODE_SC_3", 5, -8, "intersection", true, none⟩,
  ⟨"NODE_SC_4", 6, -8, "intersection", true, none⟩,
  ⟨"NODE_SC_E", 14, -8, "intersection", true, none⟩,
  ⟨"NODE_SC_SE", 18, -8, "intersection", true, none⟩,
  ⟨"NODE_WB_1", -18, 4, "intersection", true, none⟩,
  ⟨"NODE_WB_2", -18, 0, "intersection", true, none⟩,
  ⟨"NODE_EW_MID", 14, 4.65, "intersection", true, none⟩,
  ⟨"NODE_NW_MID", -10, 15, "intersection", true, none⟩,
  ⟨"NODE_SE_MID", 18, -14, "intersection", true, none⟩,
  ⟨"NODE_DEAD_1", -24, -8, "intersection", true, none⟩,
  ⟨"NODE_DEAD_2", -22, -12.5, "intersection", true, none⟩,
  ⟨"NODE_DOOR_STAIRS1", -20, 11.5, "door", true, none⟩,
  ⟨"NODE_DOOR_REFUGE1", -14, 11.5, "door", true, none⟩,
  ⟨"NODE_DOOR_LAB", -5, 11.5, "door", true, none⟩,
  ⟨"NODE_DOOR_OFF4A", 6, 11.5, "door", true, none⟩,
  ⟨"NODE_DOOR_CONF_N", 8, 8.5, "door", true, none⟩,
  ⟨"NODE_DOOR_CONF_S", 5, -6.5, "door", true, none⟩,
  ⟨"NODE_DOOR_OFF1", -16.5, 4, "door", true, none⟩,
  ⟨"NODE_DOOR_OFF2", -16.5, 0, "door", true, none⟩,
  ⟨"NODE_DOOR_OFF3", -12, -6.5, "door", true, none⟩,
  ⟨"NODE_DOOR_BREAK", -12, -9.5, "door", true, none⟩,
  ⟨"NODE_DOOR_BATH", -7, -9.5, "door", true, none⟩,
  ⟨"NODE_DOOR_STORAGE", 6, -9.5, "door", true, none⟩]

/-- The static edge set `EDGES` of `buildingData.js`. -/
def EDGES : List Edge := [
  ⟨"NODE_NC_W", "NODE_NC_1", "corridor", true⟩,
  ⟨"NODE_NC_1", "NODE_NC_NW", "corridor", true⟩,
  ⟨"NODE_NC_NW", "NODE_NC_2", "corridor", true⟩,
  ⟨"NODE_NC_2", "NODE_NC_C", "corridor", true⟩,
  ⟨"NODE_NC_C", "NODE_NC_3", "corridor", true⟩,
  ⟨"NODE_NC_3", "NODE_NC_E", "corridor", true⟩,
  ⟨"NODE_NC_E", "NODE_EXIT_A", "corridor", true⟩,
  ⟨"NODE_DEAD_1", "NODE_SC_W", "corridor", true⟩,
  ⟨"NODE_SC_W", "NODE_SC_1", "corridor", true⟩,
  ⟨"NODE_SC_1", "NODE_SC_2", "corridor", true⟩,
  ⟨"NODE_SC_2", "NODE_SC_C", "corridor", true⟩,
  ⟨"NODE_SC_C", "NODE_SC_3", "corridor", true⟩,
  ⟨"NODE_SC_3", "NODE_SC_4", "corridor", true⟩,
  ⟨"NODE_SC_4", "NODE_SC_E", "corridor", true⟩,
  ⟨"NODE_SC_E", "NODE_SC_SE", "corridor", true⟩,
  ⟨"NODE_NC_W", "NODE_WB_1", "corridor", true⟩,
  ⟨"NODE_WB_1", "NODE_WB_2", "corridor", true⟩,
  ⟨"NODE_WB_2", "NODE_SC_W", "corridor", true⟩,
  ⟨"NODE_NC_C", "NODE_SC_C", "corridor", true⟩,
  ⟨"NODE_NC_E", "NODE_EW_MID", "corridor", true⟩,
  ⟨"NODE_EW_MID", "NODE_SC_E", "corridor", true⟩,
  ⟨"NODE_EW_MID", "NODE_EXIT_A", "corridor", true⟩,
  ⟨"NODE_NC_NW", "NODE_NW_MID", "corridor", true⟩,
  ⟨"NODE_NW_MID", "NODE_EXIT_C", "corridor", true⟩,
  ⟨"NODE_SC_SE", "NODE_SE_MID", "corridor", true⟩,
  ⟨"NODE_SE_MID", "NODE_EXIT_B", "corridor", true⟩,
  ⟨"NODE_SC_W", "NODE_DEAD_1", "corridor", true⟩,
  ⟨"NODE_DEAD_1", "NODE_DEAD_2", "corridor", true⟩,
  ⟨"NODE_NC_3", "NODE_DOOR_CONF_N", "door", true⟩,
  ⟨"NODE_DOOR_CONF_N", "NODE_DOOR_CONF_S", "room", true⟩,
  ⟨"NODE_DOOR_CONF_S", "NODE_SC_3", "door", true⟩,
  ⟨"NODE_NC_W", "NODE_DOOR_STAIRS1", "corridor", true⟩,
  ⟨"NODE_DOOR_STAIRS1", "NODE_STAIRS_1", "stairs", false⟩,
  ⟨"NODE_SE_MID", "NODE_STAIRS_2", "stairs", false⟩,
  ⟨"NODE_SE_MID", "NODE_ELEVATOR", "elevator", true⟩,
  ⟨"NODE_NC_1", "NODE_DOOR_REFUGE1", "door", true⟩,
  ⟨"NODE_DOOR_REFUGE1", "NODE_REFUGE_1", "corridor", true⟩,
  ⟨"NODE_SE_MID", "NODE_REFUGE_2", "corridor", true⟩,
  ⟨"NODE_ELEVATOR", "NODE_RAMP", "ramp", true⟩,
  ⟨"NODE_NC_2", "NODE_DOOR_LAB", "door", true⟩,
  ⟨"NODE_NC_3", "NODE_DOOR_OFF4A", "door", true⟩,
  ⟨"NODE_WB_1", "NODE_DOOR_OFF1", "door", true⟩,
  ⟨"NODE_WB_2", "NODE_DOOR_OFF2", "door", true⟩,
  ⟨"NODE_SC_1", "NODE_DOOR_OFF3", "door", true⟩,
  ⟨"NODE_SC_1", "NODE_DOOR_BREAK", "door", true⟩,
  ⟨"NODE_SC_2", "NODE_DOOR_BATH", "door", true⟩,
  ⟨"NODE_SC_4", "NODE_DOOR_STORAGE", "door", true⟩]

section Invariants

variable {α : Type} [LinearOrder α] [Add α] [Zero α]

/-- The main-loop invariant of the solver, over the state
`(dm, prev, visited)` relative to the initial distance map `dm0`, the start
`s` and the target `e`.  It packages the standard Dijkstra invariants:
settled (visited) vertices carry optimal distances, tentative distances are
witnessed by surviving paths, predecessor links always follow relaxed
surviving edges into earlier-visited vertices, and every edge out of the
visited region has been relaxed. -/
structure DijkInv (nodes : List (Node α)) (edges : List Edge) (wm : Bool)
    (blocked : List BlockedEdge) (w : Node α → Node α → α) (s e : String)
    (dm0 dm : List (String × Option α)) (prev : List (String × String))
    (visited : List String) : Prop where
  keys_eq : dm.map Prod.fst = dm0.map Prod.fst
  vis_keys : ∀ v ∈ visited, v ∈ dm.map Prod.fst
  vis_nodup : visited.Nodup
  e_not_vis : e ∉ visited
  start_dist : getKey dm s = some (some 0)
  start_prev : getKey prev s = none
  fin_sound : ∀ v q, getKey dm v = some (some q) →
    ∃ p, ValidPath nodes edges wm blocked s v p ∧ pathCost nodes w p = q
  prev_chain : ∀ v u, getKey prev v = some u → u ∈ visited ∧
    survivingStep nodes edges wm blocked u v = true ∧
    ∃ qu qv, getKey dm u = some (some qu) ∧ getKey dm v = some (some qv) ∧
      qv = qu + stepW nodes w u v
  prev_keys : ∀ v u, getKey prev v = some u → v ∈ nodes.map Node.id
  fin_prev : ∀ v q, getKey dm v = some (some q) →
    v = s ∨ ∃ u, getKey prev v = some u
  vis_order : ∀ v u, getKey prev v = some u →
    ∀ l1 l2, visited = l1 ++ v :: l2 → u ∈ l2
  vis_fin : ∀ v ∈ visited, ∃ q, getKey dm v = some (some q)
  vis_min : ∀ v ∈ visited, ∀ q, getKey dm v = some (some q) →
    ∀ p, ValidPath nodes edges wm blocked s v p → q ≤ pathCost nodes w p
  frontier : ∀ u ∈ visited, ∀ v, v ∉ visited →
    survivingStep nodes edges wm blocked u v = true →
    ∀ qu, getKey dm u = some (some qu) →
    ∃ qv, getKey dm v = some (some qv) ∧ qv ≤ qu + stepW nodes w u v

/-- A light loop invariant sufficient for the soundness-only claims: keys are
stable, predecessor links follow surviving edges into node ids, and every
finite tentative distance witnesses reachability. -/
structure LightInv (nodes : List (Node α)) (edges : List Edge) (wm : Bool)
    (blocked : List BlockedEdge) (s : String)
    (dm0 dm : List (String × Option α)) (prev : List (String × String))
    (visited : List String) : Prop where
  keys_eq : dm.map Prod.fst = dm0.map Prod.fst
  prev_step : ∀ v u, getKey prev v = some u →
    survivingStep nodes edges wm blocked u v = true
  prev_keys : ∀ v u, getKey prev v = some u → v ∈ nodes.map Node.id
  fin_reach : ∀ v q, getKey dm v = some (some q) →
    Reach nodes edges wm blocked s v

end Invariants

/-! ## Concrete test fixtures

Small graphs used by the witness and counterexample theorems.  Their
coordinates are axis-aligned, so the taxicab function `wTaxi` below agrees
with the Euclidean distance on every pair of fixture nodes (certified by
decidable squared-distance equations inside the relevant theorems). -/

/-- `|Δx| + |Δy|`: on axis-aligned node pairs this *is* the Euclidean
distance (one summand vanishes). -/
def wTaxi {α : Type} [LinearOrderedAddCommGroup α] :
    Node α → Node α → α :=
  fun a b => |a.x - b.x| + |a.y - b.y|

/-- Three collinear nodes; the middle one has the empty string as id, which
the source's `if (!minNode || ...)` break treats as falsy. -/
def cxEmptyNodes : List (Node ℤ) :=
  [⟨"A", 0, 0, "intersection", true, none⟩,
   ⟨"", 1, 0, "intersection", true, none⟩,
   ⟨"B", 2, 0, "intersection", true, none⟩]

/-- The two edges `A — "" — B`. -/
def cxEmptyEdges : List Edge :=
  [⟨"A", "", "corridor", true⟩, ⟨"", "B", "corridor", true⟩]

/-- Exit variant of the empty-id fixture: the only exit sits behind the
empty-id node. -/
def cxExitNodes : List (Node ℤ) :=
  [⟨"S", 0, 0, "intersection", true, none⟩,
   ⟨"", 1, 0, "intersection", true, none⟩,
   ⟨"E", 2, 0, "exit", true, some "Exit E"⟩]

/-- Refuge variant of the empty-id fixture: no exits at all, and the only
refuge sits behind the empty-id node. -/
def cxRefugeNodes : List (Node ℤ) :=
  [⟨"S", 0, 0, "intersection", true, none⟩,
   ⟨"", 1, 0, "intersection", true, none⟩,
   ⟨"R", 2, 0, "refuge", true, some "Refuge R"⟩]

/-- Edges `S — "" — <target>` shared by the exit and refuge fixtures. -/
def cxExitEdges : List Edge :=
  [⟨"S", "", "corridor", true⟩, ⟨"", "R", "corridor", true⟩]

/-- Edges of the exit fixture. -/
def cxExitEdges' : List Edge :=
  [⟨"S", "", "corridor", true⟩, ⟨"", "E", "corridor", true⟩]

/-- A single node whose id is the empty string. -/
def cxEmptySelf : List (Node ℤ) :=
  [⟨"", 0, 0, "intersection", true, none⟩]

/-- A well-behaved two-node line for witnesses. -/
def wtLineNodes : List (Node ℤ) :=
  [⟨"A", 0, 0, "intersection", true, none⟩,
   ⟨"B", 3, 0, "intersection", true, none⟩]

/-- The single edge `A — B`. -/
def wtLineEdges : List Edge := [⟨"A", "B", "corridor", true⟩]

/-- A well-behaved star for the C5 witness: node `I` is joined to `A` only by
a blocked edge, so it is isolated after filtering. -/
def wtIsoNodes : List (Node ℤ) :=
  [⟨"A", 0, 0, "intersection", true, none⟩,
   ⟨"I", 5, 0, "intersection", true, none⟩]

/-- The single (blocked) edge `A — I`. -/
def wtIsoEdges : List Edge := [⟨"A", "I", "corridor", true⟩]

/-- The blocked-edge marker matching `A — I` in reversed order. -/
def wtIsoBlocked : List BlockedEdge := [⟨"I", "A"⟩]

/-- The three collinear nodes of the direction-synthesizer fixture. -/
def cxDirA : Node ℚ := ⟨"A", 0, 0, "intersection", true, none⟩

/-- Second node of the direction-synthesizer fixture. -/
def cxDirB : Node ℚ := ⟨"B", 4, 0, "intersection", true, none⟩

/-- Third node of the direction-synthesizer fixture. -/
def cxDirC : Node ℚ := ⟨"C", 8, 0, "intersection", true, none⟩

/-- Resolvable three-node line for the direction-synthesizer theorems. -/
def cxDirNodes : List (Node ℚ) := [cxDirA, cxDirB, cxDirC]

/-- A formatter fixture: on the only squared length occurring in the
direction fixture (`16`), `Math.sqrt(16).toFixed(0)` is `"4"`. -/
def cxDirFmt : ℚ → String := fun q => if q = 16 then "4" else "?"

/-- Real-coordinate two-node line `A —3— B` for witnesses of the Euclidean
claims. -/
def wtLineNodesR : List (Node ℝ) :=
  [⟨"A", 0, 0, "intersection", true, none⟩,
   ⟨"B", 3, 0, "intersection", true, none⟩]

/-- Real-coordinate line whose second node is an exit. -/
def wtExitNodesR : List (Node ℝ) :=
  [⟨"S", 0, 0, "intersection", true, none⟩,
   ⟨"E", 3, 0, "exit", true, none⟩]

/-- Real-coordinate line whose second node is a refuge (and no exit
exists). -/
def wtRefugeNodesR : List (Node ℝ) :=
  [⟨"S", 0, 0, "intersection", true, none⟩,
   ⟨"R", 3, 0, "refuge", true, none⟩]

/-- The single edge `S — E`. -/
def wtExitEdgesSE : List Edge := [⟨"S", "E", "corridor", true⟩]

/-- The single edge `S — R`. -/
def wtExitEdgesSR : List Edge := [⟨"S", "R", "corridor", true⟩]

/-! ## Lemmas about the JavaScript-object model -/

section MapLemmas

variable {β : Type}

theorem getKey_cons (a : String) (b : β) (m : List (String × β)) (k : String) :
    getKey ((a, b) :: m) k = if a = k then some b else getKey m k := by
  by_cases h : a = k
  · rw [if_pos h]
    unfold getKey
    rw [List.find?_cons_of_pos _ (by simpa using h)]
    all_goals rfl
  · rw [if_neg h]
    unfold getKey
    rw [List.find?_cons_of_neg _ (by simpa using h)]

theorem any_key_iff (m : List (String × β)) (k : String) :
    (m.any fun kv => kv.1 = k) = true ↔ k ∈ m.map Prod.fst := by
  simp only [List.any_eq_true, List.mem_map, decide_eq_true_eq]

theorem getKey_eq_none_iff (m : List (String × β)) (k : String) :
    getKey m k = none ↔ k ∉ m.map Prod.fst := by
  induction m with
  | nil => simp [getKey]
  | cons kv m ih =>
    obtain ⟨a, b⟩ := kv
    rw [getKey_cons]
    by_cases h : a = k
    · simp [h]
    · rw [if_neg h, ih]
      simp only [List.map_cons, List.mem_cons, not_or]
      constructor
      · intro hk
        exact ⟨fun he => h he.symm, hk⟩
      · intro hk
        exact hk.2

theorem getKey_isSome_iff (m : List (String × β)) (k : String) :
    (getKey m k).isSome = true ↔ k ∈ m.map Prod.fst := by
  constructor
  · intro h
    by_contra hm
    rw [(getKey_eq_none_iff m k).mpr hm] at h
    simp at h
  · intro hm
    cases hg : getKey m k with
    | none => exact absurd hm ((getKey_eq_none_iff m k).mp hg)
    | some d => simp

theorem getKey_mem (m : List (String × β)) (k : String) (d : β)
    (h : getKey m k = some d) : (k, d) ∈ m := by
  induction m with
  | nil => simp [getKey] at h
  | cons kv m ih =>
    obtain ⟨a, b⟩ := kv
    rw [getKey_cons] at h
    by_cases hk : a = k
    · rw [if_pos hk] at h
      subst hk
      rw [Option.some_inj] at h
      subst h
      exact List.mem_cons_self _ _
    · rw [if_neg hk] at h
      exact List.mem_cons_of_mem _ (ih h)

theorem getKey_map_update (m : List (String × β)) (k : String) (v : β) :
    getKey (m.map fun kv => if kv.1 = k then (k, v) else kv) k =
      if k ∈ m.map Prod.fst then some v else none := by
  induction m with
  | nil => simp [getKey]
  | cons kv m ih =>
    obtain ⟨a, b⟩ := kv
    by_cases h : a = k
    · subst h
      simp [getKey_cons]
    · simp only [List.map_cons]
      rw [if_neg (show ¬((a, b).1 = k) from h), getKey_cons, if_neg h, ih]
      have h2 : ¬k = a := fun he => h he.symm
      by_cases hm : k ∈ List.map Prod.fst m
      · rw [if_pos hm, if_pos (List.mem_cons_of_mem a hm)]
      · rw [if_neg hm, if_neg fun hc =>
          (List.mem_cons.mp hc).elim (fun he => h2 he) hm]

theorem getKey_map_update_ne (m : List (String × β)) (k k' : String) (v : β)
    (hne : k' ≠ k) :
    getKey (m.map fun kv => if kv.1 = k then (k, v) else kv) k' =
      getKey m k' := by
  induction m with
  | nil => simp [getKey]
  | cons kv m ih =>
    obtain ⟨a, b⟩ := kv
    simp only [List.map_cons]
    by_cases h : a = k
    · rw [if_pos (show ((a, b).1 = k) from h)]
      rw [getKey_cons k v _ k', getKey_cons a b m k']
      rw [if_neg fun he => hne he.symm,
        if_neg fun he => hne (he.symm.trans h)]
      exact ih
    · rw [if_neg (show ¬((a, b).1 = k) from h)]
      rw [getKey_cons a b _ k', getKey_cons a b m k']
      by_cases h2 : a = k' <;> simp [h2, ih]

theorem getKey_append_one (m : List (String × β)) (k : String) (v : β)
    (h : getKey m k = none) : getKey (m ++ [(k, v)]) k = some v := by
  induction m with
  | nil => simp [getKey_cons]
  | cons kv m ih =>
    obtain ⟨a, b⟩ := kv
    rw [getKey_cons] at h
    by_cases hk : a = k
    · rw [if_pos hk] at h
      exact absurd h (by simp)
    · rw [if_neg hk] at h
      rw [List.cons_append, getKey_cons, if_neg hk]
      exact ih h

theorem getKey_append_one_ne (m : List (String × β)) (k k' : String) (v : β)
    (hne : k' ≠ k) : getKey (m ++ [(k, v)]) k' = getKey m k' := by
  induction m with
  | nil =>
    rw [List.nil_append, getKey_cons, if_neg fun he => hne he.symm]
  | cons kv m ih =>
    obtain ⟨a, b⟩ := kv
    rw [List.cons_append, getKey_cons, getKey_cons]
    by_cases hk : a = k' <;> simp [hk, ih]

theorem getKey_setKey_self (m : List (String × β)) (k : String) (v : β) :
    getKey (setKey m k v) k = some v := by
  unfold setKey
  by_cases h : (m.any fun kv => kv.1 = k) = true
  · rw [if_pos h, getKey_map_update, if_pos ((any_key_iff m k).mp h)]
  · rw [if_neg h]
    exact getKey_append_one m k v
      ((getKey_eq_none_iff m k).mpr fun hm => h ((any_key_iff m k).mpr hm))

theorem getKey_setKey_ne (m : List (String × β)) (k k' : String) (v : β)
    (hne : k' ≠ k) : getKey (setKey m k v) k' = getKey m k' := by
  unfold setKey
  by_cases h : (m.any fun kv => kv.1 = k) = true
  · rw [if_pos h, getKey_map_update_ne m k k' v hne]
  · rw [if_neg h, getKey_append_one_ne m k k' v hne]

theorem keys_setKey_of_mem (m : List (String × β)) (k : String) (v : β)
    (h : k ∈ m.map Prod.fst) :
    (setKey m k v).map Prod.fst = m.map Prod.fst := by
  unfold setKey
  rw [if_pos ((any_key_iff m k).mpr h), List.map_map]
  apply List.map_congr_left
  intro kv _
  by_cases hk : kv.1 = k <;> simp [hk]

theorem keys_setKey_append (m : List (String × β)) (k : String) (v : β)
    (h : k ∉ m.map Prod.fst) :
    (setKey m k v).map Prod.fst = m.map Prod.fst ++ [k] := by
  unfold setKey
  rw [if_neg (fun ha => h ((any_key_iff m k).mp ha))]
  simp

end MapLemmas

section InitDistLemmas

variable {α : Type} [LinearOrder α] [Add α] [Zero α]

theorem initDist_aux (nodes : List (Node α))
    (acc : List (String × Option α))
    (h1 : ∀ kv ∈ acc, kv.2 = none)
    (h2 : (acc.map Prod.fst).Nodup) :
    (∀ kv ∈ nodes.foldl
        (fun acc n =>
          if acc.any (fun kv => kv.1 = n.id) then acc
          else acc ++ [(n.id, (none : Option α))]) acc, kv.2 = none) ∧
    ((nodes.foldl
        (fun acc n =>
          if acc.any (fun kv => kv.1 = n.id) then acc
          else acc ++ [(n.id, (none : Option α))]) acc).map Prod.fst).Nodup ∧
    (∀ k, k ∈ (nodes.foldl
        (fun acc n =>
          if acc.any (fun kv => kv.1 = n.id) then acc
          else acc ++ [(n.id, (none : Option α))]) acc).map Prod.fst ↔
      k ∈ acc.map Prod.fst ∨ k ∈ nodes.map Node.id) := by
  induction nodes generalizing acc with
  | nil => exact ⟨h1, h2, by simp⟩
  | cons n nodes ih =>
    by_cases h : (acc.any fun kv => kv.1 = n.id) = true
    · have hmem : n.id ∈ acc.map Prod.fst := (any_key_iff acc n.id).mp h
      rw [List.foldl_cons, if_pos h]
      refine ⟨(ih acc h1 h2).1, (ih acc h1 h2).2.1, fun k => ?_⟩
      rw [(ih acc h1 h2).2.2 k]
      simp only [List.map_cons, List.mem_cons]
      constructor
      · tauto
      · rintro (h' | h' | h')
        · exact Or.inl h'
        · exact Or.inl (h' ▸ hmem)
        · exact Or.inr h'
    · have hmem : n.id ∉ acc.map Prod.fst :=
        fun hm => h ((any_key_iff acc n.id).mpr hm)
      rw [List.foldl_cons, if_neg h]
      have h1' : ∀ kv ∈ acc ++ [(n.id, (none : Option α))], kv.2 = none := by
        intro kv hkv
        rcases List.mem_append.mp hkv with h' | h'
        · exact h1 kv h'
        · simp at h'; simp [h']
      have h2' : ((acc ++ [(n.id, (none : Option α))]).map Prod.fst).Nodup := by
        simp only [List.map_append, List.map_cons, List.map_nil]
        exact List.Nodup.append h2 (by simp) (by simpa using hmem)
      refine ⟨(ih _ h1' h2').1, (ih _ h1' h2').2.1, fun k => ?_⟩
      rw [(ih _ h1' h2').2.2 k]
      simp only [List.map_append, List.map_cons, List.map_nil,
        List.mem_append, List.mem_cons, List.mem_singleton]
      tauto

theorem initDist_values (nodes : List (Node α)) :
    ∀ kv ∈ initDist nodes, kv.2 = none :=
  (initDist_aux nodes [] (by simp) (by simp)).1

theorem initDist_keys_nodup (nodes : List (Node α)) :
    ((initDist nodes).map Prod.fst).Nodup :=
  (initDist_aux nodes [] (by simp) (by simp)).2.1

theorem initDist_keys_mem (nodes : List (Node α)) (k : String) :
    k ∈ (initDist nodes).map Prod.fst ↔ k ∈ nodes.map Node.id := by
  have h := (initDist_aux nodes [] (by simp) (by simp)).2.2 k
  simpa using h

end InitDistLemmas

section JltLemmas

variable {α : Type} [LinearOrder α] [Add α]

theorem jlt_some_some (a b : α) : jlt (some a) (some b) = true ↔ a < b := by
  simp [jlt]

theorem jlt_some_none (a : α) : jlt (some a) none = true := rfl

theorem jlt_none (x : Option α) : jlt none x = false := rfl

theorem jlt_false_none (x : Option α) (h : jlt x none = false) : x = none := by
  cases x with
  | none => rfl
  | some a => simp [jlt] at h

theorem jlt_irrefl (x : Option α) : jlt x x = false := by
  cases x <;> simp [jlt]

/-- `c ≤ b` and `b ≤ a` give `c ≤ a` (contrapositive form on `jlt`). -/
theorem jlt_false_trans {a b c : Option α} (h1 : jlt a b = false)
    (h2 : jlt b c = false) : jlt a c = false := by
  cases a with
  | none => rfl
  | some qa =>
    cases b with
    | none => exact absurd h1 (by simp [jlt])
    | some qb =>
      cases c with
      | none => exact absurd h2 (by simp [jlt])
      | some qc =>
        simp only [jlt, decide_eq_false_iff_not, not_lt] at h1 h2 ⊢
        exact h2.trans h1

/-- `c ≤ b` and `b < a` give `¬ a < c` (no overtaking). -/
theorem jlt_false_of_false_of_true {a b c : Option α}
    (h1 : jlt b c = false) (h2 : jlt b a = true) : jlt a c = false := by
  cases a with
  | none => rfl
  | some qa =>
    cases b with
    | none => exact absurd h2 (by simp [jlt])
    | some qb =>
      cases c with
      | none => exact absurd h1 (by simp [jlt])
      | some qc =>
        simp only [jlt, decide_eq_true_eq, decide_eq_false_iff_not, not_lt]
          at h1 h2 ⊢
        exact h1.trans h2.le

end JltLemmas

section SelectMinLemmas

variable {α : Type} [LinearOrder α] [Add α] [Zero α]

theorem selectMin_aux (visited : List String)
    (m : List (String × Option α)) :
    ∀ acc : Option String × Option α,
    (m.foldl
      (fun acc kv =>
        if !visited.contains kv.1 && jlt kv.2 acc.2 then (some kv.1, kv.2)
        else acc) acc =
      acc ∨
     ∃ kv ∈ m, kv.1 ∉ visited ∧ kv.2 ≠ none ∧
      m.foldl
        (fun acc kv =>
          if !visited.contains kv.1 && jlt kv.2 acc.2 then (some kv.1, kv.2)
          else acc) acc = (some kv.1, kv.2)) ∧
    (∀ kv ∈ m, kv.1 ∉ visited →
      jlt kv.2 (m.foldl
        (fun acc kv =>
          if !visited.contains kv.1 && jlt kv.2 acc.2 then (some kv.1, kv.2)
          else acc) acc).2 = false) ∧
    jlt acc.2 (m.foldl
      (fun acc kv =>
        if !visited.contains kv.1 && jlt kv.2 acc.2 then (some kv.1, kv.2)
        else acc) acc).2 = false := by
  induction m with
  | nil =>
    intro acc
    exact ⟨Or.inl rfl, by simp, jlt_irrefl _⟩
  | cons kv m ih =>
    intro acc
    by_cases hcond :
        (!visited.contains kv.1 && jlt kv.2 acc.2) = true
    · simp only [List.foldl_cons, hcond, if_true]
      obtain ⟨ha, hb, hc⟩ := ih (some kv.1, kv.2)
      have hvis : kv.1 ∉ visited := by
        have h1 := Bool.and_elim_left hcond
        simpa using h1
      have hjlt : jlt kv.2 acc.2 = true := Bool.and_elim_right hcond
      have hfin : kv.2 ≠ none := by
        intro hx
        rw [hx] at hjlt
        exact absurd hjlt (by simp [jlt])
      refine ⟨?_, ?_, ?_⟩
      · rcases ha with ha | ⟨kv', hkv', hvis', hfin', ha'⟩
        · exact Or.inr ⟨kv, List.mem_cons_self _ _, hvis, hfin, ha⟩
        · exact Or.inr ⟨kv', List.mem_cons_of_mem _ hkv', hvis', hfin', ha'⟩
      · intro kv' hkv' hvis'
        rcases List.mem_cons.mp hkv' with h' | h'
        · subst h'
          exact hc
        · exact hb kv' h' hvis'
      · exact jlt_false_of_false_of_true hc hjlt
    · simp only [List.foldl_cons, hcond, if_false]
      obtain ⟨ha, hb, hc⟩ := ih acc
      refine ⟨?_, ?_, hc⟩
      · rcases ha with ha | ⟨kv', hkv', hvis', hfin', ha'⟩
        · exact Or.inl ha
        · exact Or.inr ⟨kv', List.mem_cons_of_mem _ hkv', hvis', hfin', ha'⟩
      · intro kv' hkv' hvis'
        rcases List.mem_cons.mp hkv' with h' | h'
        · subst h'
          have hjlt : jlt kv'.2 acc.2 = false := by
            by_contra hx
            rw [Bool.not_eq_false] at hx
            exact hcond (by simp [hvis', hx])
          exact jlt_false_trans hjlt hc
        · exact hb kv' h' hvis'

theorem selectMin_none (visited : List String)
    (m : List (String × Option α))
    (h : (selectMin m visited).1 = none) :
    ∀ kv ∈ m, kv.1 ∉ visited → kv.2 = none := by
  intro kv hkv hvis
  obtain ⟨ha, hb, _⟩ := selectMin_aux visited m
    ((none, none) : Option String × Option α)
  have hjlt := hb kv hkv hvis
  rcases ha with ha | ⟨kv', hkv', hvis', hfin', ha'⟩
  · rw [ha] at hjlt
    exact jlt_false_none _ hjlt
  · unfold selectMin at h
    rw [ha'] at h
    exact absurd h (by simp)

theorem selectMin_some (visited : List String)
    (m : List (String × Option α)) (v : String)
    (h : (selectMin m visited).1 = some v) :
    ∃ q : α, (selectMin m visited).2 = some q ∧ (v, some q) ∈ m ∧
      v ∉ visited ∧
      ∀ kv ∈ m, kv.1 ∉ visited → jlt kv.2 (some q) = false := by
  obtain ⟨ha, hb, _⟩ := selectMin_aux visited m
    ((none, none) : Option String × Option α)
  rcases ha with ha | ⟨kv', hkv', hvis', hfin', ha'⟩
  · unfold selectMin at h
    rw [ha] at h
    exact absurd h (by simp)
  · unfold selectMin at h ⊢
    rw [ha'] at h ⊢
    have hv : kv'.1 = v := by simpa using h
    cases hq : kv'.2 with
    | none => exact absurd hq hfin'
    | some q =>
      refine ⟨q, by simp [hq], ?_, hv ▸ hvis', ?_⟩
      · have : ((v, some q) : String × Option α) = kv' := by
          rw [← hv, ← hq]
        rw [this]
        exact hkv'
      · intro kv hkv hvis
        have := hb kv hkv hvis
        rw [ha', hq] at this
        exact this

theorem jlt_asymm {β : Type} [LinearOrder β] [Add β] {a b : Option β}
    (h : jlt a b = true) : jlt b a = false := by
  cases a with
  | none => exact absurd h (by simp [jlt])
  | some qa =>
    cases b with
    | none => rfl
    | some qb =>
      simp only [jlt, decide_eq_true_eq] at h
      simp [jlt, le_of_lt h, not_lt]

theorem jlt_true_false_trans {β : Type} [LinearOrder β] [Add β]
    {a b c : Option β} (h1 : jlt a b = true) (h2 : jlt c b = false) :
    jlt a c = true := by
  cases a with
  | none => exact absurd h1 (by simp [jlt])
  | some qa =>
    cases b with
    | none =>
      cases c with
      | none => rfl
      | some qc => exact absurd h2 (by simp [jlt])
    | some qb =>
      cases c with
      | none => rfl
      | some qc =>
        simp only [jlt, decide_eq_true_eq, decide_eq_false_iff_not, not_lt]
          at h1 h2 ⊢
        exact lt_of_lt_of_le h1 h2

theorem getKey_some_of_mem_keys {β : Type} (m : List (String × β))
    (k : String) (h : k ∈ m.map Prod.fst) : ∃ d, getKey m k = some d := by
  have := (getKey_isSome_iff m k).mpr h
  cases hg : getKey m k with
  | none => rw [hg] at this; simp at this
  | some d => exact ⟨d, rfl⟩

theorem keys_setKey_subset {β : Type} (m : List (String × β)) (k v : String)
    (x : β) (h : v ∈ (setKey m k x).map Prod.fst) :
    v ∈ m.map Prod.fst ∨ v = k := by
  by_cases hk : k ∈ m.map Prod.fst
  · rw [keys_setKey_of_mem m k x hk] at h
    exact Or.inl h
  · rw [keys_setKey_append m k x hk] at h
    rcases List.mem_append.mp h with h' | h'
    · exact Or.inl h'
    · simp at h'
      exact Or.inr h'

section RelaxLemmas

variable {α : Type} [LinearOrder α] [Add α] [Zero α]

theorem relaxAll_cons (dm : List (String × Option α))
    (prev : List (String × String)) (visited : List String) (mn : String)
    (nb : String × α) (rest : List (String × α)) :
    relaxAll dm prev visited mn (nb :: rest) =
      if visited.contains nb.1 then relaxAll dm prev visited mn rest
      else if jltO (jadd ((getKey dm mn).getD none) nb.2) (getKey dm nb.1) then
        relaxAll (setKey dm nb.1 (jadd ((getKey dm mn).getD none) nb.2))
          (setKey prev nb.1 mn) visited mn rest
      else relaxAll dm prev visited mn rest := by
  unfold relaxAll
  rw [List.foldl_cons]
  by_cases hm : nb.1 ∈ visited
  · simp [hm]
  · by_cases h2 :
        jltO (jadd ((getKey dm mn).getD none) nb.2) (getKey dm nb.1) = true
    · simp [hm, h2]
    · simp only [Bool.not_eq_true] at h2
      simp [hm, h2]

theorem relaxAll_spec (visited : List String) (mn : String)
    (entries : List (String × α)) :
    ∀ (dm : List (String × Option α)) (prev : List (String × String)),
    mn ∈ visited →
    (∀ nb ∈ entries, nb.1 ∈ dm.map Prod.fst) →
    (relaxAll dm prev visited mn entries).1.map Prod.fst = dm.map Prod.fst ∧
    (∀ v, v ∈ (relaxAll dm prev visited mn entries).2.map Prod.fst →
      v ∈ prev.map Prod.fst ∨ ∃ nb ∈ entries, nb.1 = v) ∧
    (∀ v,
      (getKey (relaxAll dm prev visited mn entries).1 v = getKey dm v ∧
       getKey (relaxAll dm prev visited mn entries).2 v = getKey prev v) ∨
      (v ∉ visited ∧ ∃ q, (v, q) ∈ entries ∧
        getKey (relaxAll dm prev visited mn entries).1 v =
          some (jadd ((getKey dm mn).getD none) q) ∧
        getKey (relaxAll dm prev visited mn entries).2 v = some mn ∧
        jltO (jadd ((getKey dm mn).getD none) q) (getKey dm v) = true)) ∧
    (∀ nb ∈ entries, nb.1 ∉ visited →
      ∃ d, getKey (relaxAll dm prev visited mn entries).1 nb.1 = some d ∧
        jlt (jadd ((getKey dm mn).getD none) nb.2) d = false) := by
  induction entries with
  | nil =>
    intro dm prev _ _
    refine ⟨rfl, fun v hv => Or.inl hv, fun v => Or.inl ⟨rfl, rfl⟩, by simp⟩
  | cons nb rest ih =>
    intro dm prev hmv hkeys
    by_cases hvis : visited.contains nb.1 = true
    · -- the neighbour is visited: it is skipped
      rw [relaxAll_cons, if_pos hvis]
      obtain ⟨r1, r2, r3, r5⟩ := ih dm prev hmv
        (fun nb' h' => hkeys nb' (List.mem_cons_of_mem _ h'))
      refine ⟨r1, ?_, ?_, ?_⟩
      · intro v hv
        rcases r2 v hv with h' | ⟨nb', h', hv'⟩
        · exact Or.inl h'
        · exact Or.inr ⟨nb', List.mem_cons_of_mem _ h', hv'⟩
      · intro v
        rcases r3 v with h' | ⟨hnv, q, hq, h'⟩
        · exact Or.inl h'
        · exact Or.inr ⟨hnv, q, List.mem_cons_of_mem _ hq, h'⟩
      · intro nb' h' hnv
        rcases List.mem_cons.mp h' with h'' | h''
        · subst h''
          exact absurd (by simpa using hvis) hnv
        · exact r5 nb' h'' hnv
    · have hnbv : nb.1 ∉ visited := by simpa using hvis
      have hnbmn : nb.1 ≠ mn := fun he => hnbv (he ▸ hmv)
      by_cases himp :
          jltO (jadd ((getKey dm mn).getD none) nb.2) (getKey dm nb.1) = true
      · -- improvement: dist and prev of the neighbour are updated
        rw [relaxAll_cons, if_neg (by simpa using hvis), if_pos himp]
        set newDist := jadd ((getKey dm mn).getD none) nb.2 with hnew
        set dm1 := setKey dm nb.1 newDist with hdm1
        set prev1 := setKey prev nb.1 mn with hprev1
        have hkey1 : nb.1 ∈ dm.map Prod.fst := hkeys nb (List.mem_cons_self _ _)
        have hkeys1 : dm1.map Prod.fst = dm.map Prod.fst :=
          keys_setKey_of_mem dm nb.1 newDist hkey1
        have hmn1 : getKey dm1 mn = getKey dm mn :=
          getKey_setKey_ne dm nb.1 mn newDist (Ne.symm hnbmn)
        obtain ⟨r1, r2, r3, r5⟩ := ih dm1 prev1 hmv
          (fun nb' h' => by
            rw [hkeys1]
            exact hkeys nb' (List.mem_cons_of_mem _ h'))
        refine ⟨r1.trans hkeys1, ?_, ?_, ?_⟩
        · intro v hv
          rcases r2 v hv with h' | ⟨nb', h', hv'⟩
          · rcases keys_setKey_subset prev nb.1 v mn h' with h'' | h''
            · exact Or.inl h''
            · exact Or.inr ⟨nb, List.mem_cons_self _ _, h''.symm⟩
          · exact Or.inr ⟨nb', List.mem_cons_of_mem _ h', hv'⟩
        · intro v
          rcases r3 v with ⟨h1, h2⟩ | ⟨hnv, q, hq, h1, h2, h3⟩
          · by_cases hv : v = nb.1
            · subst hv
              refine Or.inr ⟨hnbv, nb.2, List.mem_cons_self _ _, ?_, ?_, himp⟩
              · rw [h1, hdm1, getKey_setKey_self]
              · rw [h2, hprev1, getKey_setKey_self]
            · refine Or.inl ⟨?_, ?_⟩
              · rw [h1, hdm1, getKey_setKey_ne dm nb.1 v newDist hv]
              · rw [h2, hprev1, getKey_setKey_ne prev nb.1 v mn hv]
          · rw [hmn1] at h1 h3
            by_cases hv : v = nb.1
            · subst hv
              refine Or.inr ⟨hnv, q, List.mem_cons_of_mem _ hq, h1, h2, ?_⟩
              rw [hdm1, getKey_setKey_self] at h3
              cases hg : getKey dm nb.1 with
              | none => exact absurd himp (by rw [hg, hnew]; simp [jltO])
              | some d0 =>
                rw [hg, hnew] at himp
                simp only [jltO] at himp h3 ⊢
                exact jlt_true_false_trans h3 (jlt_asymm himp)
            · rw [hdm1, getKey_setKey_ne dm nb.1 v newDist hv] at h3
              exact Or.inr ⟨hnv, q, List.mem_cons_of_mem _ hq, h1, h2, h3⟩
        · intro nb' h' hnv
          rcases List.mem_cons.mp h' with h'' | h''
          · subst h''
            rcases r3 nb'.1 with ⟨h1, _⟩ | ⟨_, q, _, h1, _, h3⟩
            · refine ⟨newDist, ?_, jlt_irrefl _⟩
              rw [h1, hdm1, getKey_setKey_self]
            · rw [hmn1] at h1 h3
              rw [hdm1, getKey_setKey_self] at h3
              refine ⟨jadd ((getKey dm mn).getD none) q, h1, ?_⟩
              simp only [jltO] at h3
              exact jlt_asymm h3
          · obtain ⟨d, hd1, hd2⟩ := r5 nb' h'' hnv
            rw [hmn1] at hd2
            exact ⟨d, hd1, hd2⟩
      · -- no improvement: state unchanged for this neighbour
        rw [relaxAll_cons, if_neg (by simpa using hvis), if_neg himp]
        obtain ⟨r1, r2, r3, r5⟩ := ih dm prev hmv
          (fun nb' h' => hkeys nb' (List.mem_cons_of_mem _ h'))
        refine ⟨r1, ?_, ?_, ?_⟩
        · intro v hv
          rcases r2 v hv with h' | ⟨nb', h', hv'⟩
          · exact Or.inl h'
          · exact Or.inr ⟨nb', List.mem_cons_of_mem _ h', hv'⟩
        · intro v
          rcases r3 v with h' | ⟨hnv, q, hq, h'⟩
          · exact Or.inl h'
          · exact Or.inr ⟨hnv, q, List.mem_cons_of_mem _ hq, h'⟩
        · intro nb' h' hnv
          rcases List.mem_cons.mp h' with h'' | h''
          · subst h''
            obtain ⟨d0, hd0⟩ := getKey_some_of_mem_keys dm nb'.1
              (hkeys nb' (List.mem_cons_self _ _))
            have hno : jlt (jadd ((getKey dm mn).getD none) nb'.2) d0 = false := by
              rw [hd0] at himp
              simpa [jltO] using himp
            rcases r3 nb'.1 with ⟨h1, _⟩ | ⟨_, q, _, h1, _, h3⟩
            · exact ⟨d0, h1.trans hd0, hno⟩
            · rw [hd0] at h3
              simp only [jltO] at h3
              refine ⟨jadd ((getKey dm mn).getD none) q, h1, ?_⟩
              exact jlt_asymm (jlt_true_false_trans h3 hno)
          · exact r5 nb' h'' hnv

end RelaxLemmas

section AdjLemmas

variable {α : Type} [LinearOrder α] [Add α] [Zero α]

theorem nodeMapFind_some (nodes : List (Node α)) (i : String) (n : Node α)
    (h : nodeMapFind nodes i = some n) : n ∈ nodes ∧ n.id = i := by
  unfold nodeMapFind at h
  have h1 := List.find?_some h
  have h2 := List.mem_of_find?_eq_some h
  exact ⟨List.mem_reverse.mp h2, by simpa using h1⟩

theorem nodeMapFind_isSome_iff (nodes : List (Node α)) (i : String) :
    (nodeMapFind nodes i).isSome = true ↔ i ∈ nodes.map Node.id := by
  unfold nodeMapFind
  rw [List.find?_isSome]
  constructor
  · rintro ⟨n, hn, hid⟩
    exact List.mem_map.mpr ⟨n, List.mem_reverse.mp hn, by simpa using hid⟩
  · rintro h
    obtain ⟨n, hn, hid⟩ := List.mem_map.mp h
    exact ⟨n, List.mem_reverse.mpr hn, by simpa using hid⟩

theorem adjEdgeEntries_mem (nodes : List (Node α)) (wm : Bool)
    (blocked : List BlockedEdge) (w : Node α → Node α → α) (v : String)
    (e : Edge) (b : String) (q : α) :
    (b, q) ∈ adjEdgeEntries nodes wm blocked w v e ↔
      edgeKept wm blocked e = true ∧
      ∃ n1 n2, nodeMapFind nodes e.from = some n1 ∧
        nodeMapFind nodes e.to = some n2 ∧ q = w n1 n2 ∧
        ((e.from = v ∧ e.to = b) ∨ (e.to = v ∧ e.from = b)) := by
  unfold adjEdgeEntries
  by_cases hk : edgeKept wm blocked e = true
  · rw [if_pos hk]
    cases h1 : nodeMapFind nodes e.from with
    | none => simp [h1, hk]
    | some n1 =>
      cases h2 : nodeMapFind nodes e.to with
      | none => simp [h1, h2, hk]
      | some n2 =>
        simp only [h1, h2, hk, true_and]
        constructor
        · intro hm
          rcases List.mem_append.mp hm with hm | hm
          · by_cases hfv : e.from = v
            · rw [if_pos hfv] at hm
              simp only [List.mem_singleton, Prod.mk.injEq] at hm
              exact ⟨n1, n2, rfl, rfl, hm.2, Or.inl ⟨hfv, hm.1.symm⟩⟩
            · rw [if_neg hfv] at hm
              simp at hm
          · by_cases htv : e.to = v
            · rw [if_pos htv] at hm
              simp only [List.mem_singleton, Prod.mk.injEq] at hm
              exact ⟨n1, n2, rfl, rfl, hm.2, Or.inr ⟨htv, hm.1.symm⟩⟩
            · rw [if_neg htv] at hm
              simp at hm
        · rintro ⟨n1', n2', he1, he2, hq, hend⟩
          rw [Option.some_inj] at he1 he2
          subst he1; subst he2; subst hq
          rcases hend with ⟨hfv, htb⟩ | ⟨htv, hfb⟩
          · apply List.mem_append.mpr
            left
            rw [if_pos hfv, htb]
            simp
          · apply List.mem_append.mpr
            right
            rw [if_pos htv, hfb]
            simp
  · rw [if_neg hk]
    simp only [List.not_mem_nil, false_iff, not_and]
    intro h
    exact absurd h hk

theorem adjOf_mem (nodes : List (Node α)) (edges : List Edge) (wm : Bool)
    (blocked : List BlockedEdge) (w : Node α → Node α → α) (v b : String)
    (q : α) :
    (b, q) ∈ adjOf nodes edges wm blocked w v ↔
      ∃ e ∈ edges, edgeKept wm blocked e = true ∧
      ∃ n1 n2, nodeMapFind nodes e.from = some n1 ∧
        nodeMapFind nodes e.to = some n2 ∧ q = w n1 n2 ∧
        ((e.from = v ∧ e.to = b) ∨ (e.to = v ∧ e.from = b)) := by
  unfold adjOf
  rw [List.mem_flatten]
  constructor
  · rintro ⟨l, hl, hm⟩
    obtain ⟨e, he, rfl⟩ := List.mem_map.mp hl
    exact ⟨e, he, (adjEdgeEntries_mem nodes wm blocked w v e b q).mp hm⟩
  · rintro ⟨e, he, hrest⟩
    exact ⟨adjEdgeEntries nodes wm blocked w v e,
      List.mem_map.mpr ⟨e, he, rfl⟩,
      (adjEdgeEntries_mem nodes wm blocked w v e b q).mpr hrest⟩

theorem survivingStep_iff (nodes : List (Node α)) (edges : List Edge)
    (wm : Bool) (blocked : List BlockedEdge) (a b : String) :
    survivingStep nodes edges wm blocked a b = true ↔
      ∃ e ∈ edges, edgeKept wm blocked e = true ∧
        (nodeMapFind nodes e.from).isSome = true ∧
        (nodeMapFind nodes e.to).isSome = true ∧
        ((e.from = a ∧ e.to = b) ∨ (e.from = b ∧ e.to = a)) := by
  unfold survivingStep
  rw [List.any_eq_true]
  constructor
  · rintro ⟨e, he, hp⟩
    simp only [Bool.and_eq_true, Bool.or_eq_true, decide_eq_true_eq] at hp
    exact ⟨e, he, hp.1.1.1, hp.1.1.2, hp.1.2, hp.2⟩
  · rintro ⟨e, he, h1, h2, h3, h4⟩
    refine ⟨e, he, ?_⟩
    simp only [Bool.and_eq_true, Bool.or_eq_true, decide_eq_true_eq]
    exact ⟨⟨⟨h1, h2⟩, h3⟩, h4⟩

theorem survivingStep_iff_adj (nodes : List (Node α)) (edges : List Edge)
    (wm : Bool) (blocked : List BlockedEdge) (w : Node α → Node α → α)
    (a b : String) :
    survivingStep nodes edges wm blocked a b = true ↔
      ∃ q, (b, q) ∈ adjOf nodes edges wm blocked w a := by
  rw [survivingStep_iff]
  constructor
  · rintro ⟨e, he, hk, h1, h2, hend⟩
    obtain ⟨n1, hn1⟩ := Option.isSome_iff_exists.mp h1
    obtain ⟨n2, hn2⟩ := Option.isSome_iff_exists.mp h2
    refine ⟨w n1 n2, (adjOf_mem nodes edges wm blocked w a b (w n1 n2)).mpr
      ⟨e, he, hk, n1, n2, hn1, hn2, rfl, ?_⟩⟩
    rcases hend with ⟨hf, ht⟩ | ⟨hf, ht⟩
    · exact Or.inl ⟨hf, ht⟩
    · exact Or.inr ⟨ht, hf⟩
  · rintro ⟨q, hq⟩
    obtain ⟨e, he, hk, n1, n2, hn1, hn2, _, hend⟩ :=
      (adjOf_mem nodes edges wm blocked w a b q).mp hq
    refine ⟨e, he, hk, by simp [hn1], by simp [hn2], ?_⟩
    rcases hend with ⟨hf, ht⟩ | ⟨ht, hf⟩
    · exact Or.inl ⟨hf, ht⟩
    · exact Or.inr ⟨hf, ht⟩

theorem survivingStep_symm (nodes : List (Node α)) (edges : List Edge)
    (wm : Bool) (blocked : List BlockedEdge) (a b : String)
    (h : survivingStep nodes edges wm blocked a b = true) :
    survivingStep nodes edges wm blocked b a = true := by
  rw [survivingStep_iff] at h ⊢
  obtain ⟨e, he, hk, h1, h2, hend⟩ := h
  exact ⟨e, he, hk, h1, h2, hend.symm⟩

theorem survivingStep_mem_right (nodes : List (Node α)) (edges : List Edge)
    (wm : Bool) (blocked : List BlockedEdge) (a b : String)
    (h : survivingStep nodes edges wm blocked a b = true) :
    b ∈ nodes.map Node.id := by
  obtain ⟨e, he, hk, h1, h2, hend⟩ := (survivingStep_iff _ _ _ _ _ _).mp h
  rcases hend with ⟨hf, ht⟩ | ⟨hf, ht⟩
  · exact ht ▸ (nodeMapFind_isSome_iff nodes e.to).mp h2
  · exact hf ▸ (nodeMapFind_isSome_iff nodes e.from).mp h1

theorem survivingStep_mem_left (nodes : List (Node α)) (edges : List Edge)
    (wm : Bool) (blocked : List BlockedEdge) (a b : String)
    (h : survivingStep nodes edges wm blocked a b = true) :
    a ∈ nodes.map Node.id :=
  survivingStep_mem_right nodes edges wm blocked b a
    (survivingStep_symm nodes edges wm blocked a b h)

theorem adjOf_weight (nodes : List (Node α)) (edges : List Edge) (wm : Bool)
    (blocked : List BlockedEdge) (w : Node α → Node α → α)
    (hws : ∀ a b, w a b = w b a) (v b : String) (q : α)
    (h : (b, q) ∈ adjOf nodes edges wm blocked w v) :
    q = stepW nodes w v b := by
  obtain ⟨e, _, _, n1, n2, hn1, hn2, hq, hend⟩ :=
    (adjOf_mem nodes edges wm blocked w v b q).mp h
  rcases hend with ⟨hf, ht⟩ | ⟨ht, hf⟩
  · subst hf; subst ht
    unfold stepW
    rw [hn1, hn2]
    exact hq
  · subst hf; subst ht
    unfold stepW
    rw [hn2, hn1]
    rw [hq, hws]

theorem adjOf_weight_nonneg (nodes : List (Node α)) (edges : List Edge)
    (wm : Bool) (blocked : List BlockedEdge) (w : Node α → Node α → α)
    (hw0 : ∀ a b, 0 ≤ w a b) (v b : String) (q : α)
    (h : (b, q) ∈ adjOf nodes edges wm blocked w v) : 0 ≤ q := by
  obtain ⟨e, _, _, n1, n2, _, _, hq, _⟩ :=
    (adjOf_mem nodes edges wm blocked w v b q).mp h
  rw [hq]
  exact hw0 n1 n2

theorem adjOf_mem_keys (nodes : List (Node α)) (edges : List Edge)
    (wm : Bool) (blocked : List BlockedEdge) (w : Node α → Node α → α)
    (v : String) (nb : String × α)
    (h : nb ∈ adjOf nodes edges wm blocked w v) :
    nb.1 ∈ nodes.map Node.id := by
  obtain ⟨b, q⟩ := nb
  obtain ⟨e, _, _, n1, n2, hn1, hn2, _, hend⟩ :=
    (adjOf_mem nodes edges wm blocked w v b q).mp h
  rcases hend with ⟨_, ht⟩ | ⟨_, hf⟩
  · obtain ⟨hmem, hid⟩ := nodeMapFind_some nodes e.to n2 hn2
    exact ht ▸ List.mem_map.mpr ⟨n2, hmem, hid⟩
  · obtain ⟨hmem, hid⟩ := nodeMapFind_some nodes e.from n1 hn1
    exact hf ▸ List.mem_map.mpr ⟨n1, hmem, hid⟩

theorem adjOf_complete (nodes : List (Node α)) (edges : List Edge)
    (wm : Bool) (blocked : List BlockedEdge) (w : Node α → Node α → α)
    (a b : String)
    (h : survivingStep nodes edges wm blocked a b = true) :
    ∃ q, (b, q) ∈ adjOf nodes edges wm blocked w a :=
  (survivingStep_iff_adj nodes edges wm blocked w a b).mp h

end AdjLemmas

section PathLemmas

variable {α : Type} [LinearOrderedAddCommGroup α]

theorem stepW_nonneg (nodes : List (Node α)) (w : Node α → Node α → α)
    (hw0 : ∀ a b, 0 ≤ w a b) (a b : String) : 0 ≤ stepW nodes w a b := by
  unfold stepW
  cases nodeMapFind nodes a with
  | none => simp
  | some na =>
    cases nodeMapFind nodes b with
    | none => simp
    | some nb => exact hw0 na nb

theorem pathCost_nonneg (nodes : List (Node α)) (w : Node α → Node α → α)
    (hw0 : ∀ a b, 0 ≤ w a b) : ∀ p, 0 ≤ pathCost nodes w p := by
  intro p
  induction p with
  | nil => simp [pathCost]
  | cons a rest ih =>
    cases rest with
    | nil => simp [pathCost]
    | cons b rest' =>
      unfold pathCost
      exact add_nonneg (stepW_nonneg nodes w hw0 a b) ih

theorem pathCost_append_one (nodes : List (Node α))
    (w : Node α → Node α → α) :
    ∀ (p : List String) (y z : String), p.getLast? = some y →
    pathCost nodes w (p ++ [z]) = pathCost nodes w p + stepW nodes w y z := by
  intro p
  induction p with
  | nil => intro y z h; simp at h
  | cons a rest ih =>
    intro y z h
    cases rest with
    | nil =>
      simp only [List.getLast?_singleton, Option.some_inj] at h
      subst h
      simp [pathCost]
    | cons b rest' =>
      have h' : (b :: rest').getLast? = some y := by
        rw [List.getLast?_cons_cons] at h
        exact h
      have hrec := ih y z h'
      show stepW nodes w a b + pathCost nodes w (b :: rest' ++ [z]) =
        stepW nodes w a b + pathCost nodes w (b :: rest') + stepW nodes w y z
      rw [hrec]
      exact (add_assoc _ _ _).symm

theorem validPath_single (nodes : List (Node α)) (edges : List Edge)
    (wm : Bool) (blocked : List BlockedEdge) (s : String) :
    ValidPath nodes edges wm blocked s s [s] := by
  exact ⟨by simp, rfl, rfl, by simp⟩

theorem validPath_snoc (nodes : List (Node α)) (edges : List Edge)
    (wm : Bool) (blocked : List BlockedEdge) (s y z : String)
    (p : List String) (hp : ValidPath nodes edges wm blocked s y p)
    (hstep : survivingStep nodes edges wm blocked y z = true) :
    ValidPath nodes edges wm blocked s z (p ++ [z]) := by
  obtain ⟨hne, hhead, hlast, hchain⟩ := hp
  refine ⟨by simp, ?_, by simp, ?_⟩
  · cases p with
    | nil => exact absurd rfl hne
    | cons a rest => simpa using hhead
  · rw [List.chain'_append]
    refine ⟨hchain, by simp, ?_⟩
    intro x hx y' hy'
    rw [hlast, Option.mem_some_iff] at hx
    rw [List.head?_cons, Option.mem_some_iff] at hy'
    subst hx; subst hy'
    exact hstep

theorem validPath_cases (nodes : List (Node α)) (edges : List Edge)
    (wm : Bool) (blocked : List BlockedEdge) (s t : String) (p : List String)
    (hp : ValidPath nodes edges wm blocked s t p) :
    (p = [s] ∧ t = s) ∨
    ∃ p' y, p = p' ++ [t] ∧ ValidPath nodes edges wm blocked s y p' ∧
      survivingStep nodes edges wm blocked y t = true := by
  obtain ⟨hne, hhead, hlast, hchain⟩ := hp
  rcases List.eq_nil_or_concat p with rfl | ⟨p', z, rfl⟩
  · exact absurd rfl hne
  · rw [List.concat_eq_append] at hne hhead hlast hchain ⊢
    have hz : z = t := by
      rw [List.getLast?_concat] at hlast
      simpa using hlast
    subst hz
    cases hp' : p' with
    | nil =>
      subst hp'
      simp only [List.nil_append, List.head?_cons, Option.some_inj] at hhead
      exact Or.inl ⟨by simp [hhead], hhead⟩
    | cons a rest =>
      subst hp'
      right
      rw [List.chain'_append] at hchain
      obtain ⟨hchain1, _, hlink⟩ := hchain
      have hy : (a :: rest).getLast? =
          some ((a :: rest).getLast (by simp)) :=
        List.getLast?_eq_getLast _ (by simp)
      refine ⟨a :: rest, (a :: rest).getLast (by simp), rfl,
        ⟨by simp, by simpa using hhead, hy, hchain1⟩, ?_⟩
      exact hlink _ hy z (by simp)

theorem validPath_start_mem (nodes : List (Node α)) (edges : List Edge)
    (wm : Bool) (blocked : List BlockedEdge) (s t : String) (p : List String)
    (hp : ValidPath nodes edges wm blocked s t p)
    (hst : s ≠ t ∨ t ∈ nodes.map Node.id) : s ∈ nodes.map Node.id := by
  obtain ⟨hne, hhead, hlast, hchain⟩ := hp
  cases p with
  | nil => exact absurd rfl hne
  | cons a rest =>
    have ha : a = s := by simpa using hhead
    subst ha
    cases rest with
    | nil =>
      have hat : a = t := by simpa using hlast
      rcases hst with h' | h'
      · exact absurd hat h'
      · exact hat ▸ h'
    | cons b rest' =>
      rw [List.chain'_cons] at hchain
      exact survivingStep_mem_left nodes edges wm blocked a b hchain.1

end PathLemmas

theorem mem_getKey_of_nodup {β : Type} (m : List (String × β)) (k : String)
    (d : β) (hmem : (k, d) ∈ m) (hnd : (m.map Prod.fst).Nodup) :
    getKey m k = some d := by
  induction m with
  | nil => simp at hmem
  | cons kv m ih =>
    obtain ⟨a, b⟩ := kv
    simp only [List.map_cons, List.nodup_cons] at hnd
    rcases List.mem_cons.mp hmem with h | h
    · rw [Prod.mk.injEq] at h
      rw [getKey_cons, if_pos h.1.symm, h.2]
    · have hak : a ≠ k := by
        intro he
        exact hnd.1 (he ▸ List.mem_map.mpr ⟨(k, d), h, rfl⟩)
      rw [getKey_cons, if_neg hak]
      exact ih h hnd.2

section SelectionMin

variable {α : Type} [LinearOrderedAddCommGroup α]

theorem selection_min (nodes : List (Node α)) (edges : List Edge) (wm : Bool)
    (blocked : List BlockedEdge) (w : Node α → Node α → α) (s e : String)
    (dm0 dm : List (String × Option α)) (prev : List (String × String))
    (visited : List String)
    (hw0 : ∀ a b : Node α, 0 ≤ w a b)
    (hInv : DijkInv nodes edges wm blocked w s e dm0 dm prev visited)
    (qm : α)
    (hmin : ∀ kv ∈ dm, kv.1 ∉ visited → jlt kv.2 (some qm) = false) :
    ∀ (p : List String) (z : String),
      ValidPath nodes edges wm blocked s z p → z ∉ visited →
      qm ≤ pathCost nodes w p := by
  suffices h : ∀ (n : Nat) (p : List String) (z : String), p.length ≤ n →
      ValidPath nodes edges wm blocked s z p → z ∉ visited →
      qm ≤ pathCost nodes w p by
    intro p z hp hz
    exact h p.length p z le_rfl hp hz
  intro n
  induction n with
  | zero =>
    intro p z hlen hp _
    obtain ⟨hne, _, _, _⟩ := hp
    rw [Nat.le_zero, List.length_eq_zero] at hlen
    exact absurd hlen hne
  | succ n ih =>
    intro p z hlen hp hz
    rcases validPath_cases nodes edges wm blocked s z p hp with
      ⟨hps, hzs⟩ | ⟨p', y, hpeq, hp', hstep⟩
    · subst hzs
      subst hps
      have hdm : ((z : String), (some (0 : α) : Option α)) ∈ dm :=
        getKey_mem dm z (some 0) hInv.start_dist
      have hjlt := hmin _ hdm hz
      simp only [jlt, decide_eq_false_iff_not, not_lt] at hjlt
      have hcost : pathCost nodes w [z] = 0 := rfl
      rw [hcost]
      exact hjlt
    · subst hpeq
      by_cases hy : y ∈ visited
      · obtain ⟨qy, hqy⟩ := hInv.vis_fin y hy
        have hle1 : qy ≤ pathCost nodes w p' :=
          hInv.vis_min y hy qy hqy p' hp'
        obtain ⟨qz, hqz, hle2⟩ :=
          hInv.frontier y hy z hz hstep qy hqy
        have hdm : ((z : String), (some qz : Option α)) ∈ dm :=
          getKey_mem dm z (some qz) hqz
        have hjlt := hmin _ hdm hz
        simp only [jlt, decide_eq_false_iff_not, not_lt] at hjlt
        have hcost : pathCost nodes w (p' ++ [z]) =
            pathCost nodes w p' + stepW nodes w y z :=
          pathCost_append_one nodes w p' y z hp'.2.2.1
        rw [hcost]
        calc qm ≤ qz := hjlt
          _ ≤ qy + stepW nodes w y z := hle2
          _ ≤ pathCost nodes w p' + stepW nodes w y z :=
              add_le_add_right hle1 _
      · have hlen' : p'.length ≤ n := by
          rw [List.length_append, List.length_singleton] at hlen
          omega
        have hrec := ih p' y hlen' hp' hy
        have hcost : pathCost nodes w (p' ++ [z]) =
            pathCost nodes w p' + stepW nodes w y z :=
          pathCost_append_one nodes w p' y z hp'.2.2.1
        rw [hcost]
        exact hrec.trans (le_add_of_nonneg_right (stepW_nonneg nodes w hw0 y z))

end SelectionMin

section InvStep

variable {α : Type} [LinearOrderedAddCommGroup α]

theorem dijkInv_step (nodes : List (Node α)) (edges : List Edge) (wm : Bool)
    (blocked : List BlockedEdge) (w : Node α → Node α → α) (s e : String)
    (dm0 dm : List (String × Option α)) (prev : List (String × String))
    (visited : List String)
    (hw0 : ∀ a b : Node α, 0 ≤ w a b)
    (hws : ∀ a b : Node α, w a b = w b a)
    (hnd0 : (dm0.map Prod.fst).Nodup)
    (hids0 : ∀ i ∈ nodes.map Node.id, i ∈ dm0.map Prod.fst)
    (hInv : DijkInv nodes edges wm blocked w s e dm0 dm prev visited)
    (mn : String)
    (hsel : (selectMin dm visited).1 = some mn)
    (hmne : mn ≠ e) :
    DijkInv nodes edges wm blocked w s e dm0
      (relaxAll dm prev (mn :: visited) mn
        (adjOf nodes edges wm blocked w mn)).1
      (relaxAll dm prev (mn :: visited) mn
        (adjOf nodes edges wm blocked w mn)).2
      (mn :: visited) := by
  obtain ⟨qm, hsv, hmem, hmvis, hmin⟩ := selectMin_some visited dm mn hsel
  have hnd : (dm.map Prod.fst).Nodup := by
    rw [hInv.keys_eq]; exact hnd0
  have hqm : getKey dm mn = some (some qm) :=
    mem_getKey_of_nodup dm mn (some qm) hmem hnd
  have hkeys_in : ∀ nb ∈ adjOf nodes edges wm blocked w mn,
      nb.1 ∈ dm.map Prod.fst := fun nb h => by
    rw [hInv.keys_eq]
    exact hids0 _ (adjOf_mem_keys nodes edges wm blocked w mn nb h)
  obtain ⟨r1, r2, r3, r5⟩ := relaxAll_spec (mn :: visited) mn
    (adjOf nodes edges wm blocked w mn) dm prev
    (List.mem_cons_self _ _) hkeys_in
  have hdmv : (getKey dm mn).getD none = some qm := by rw [hqm]; rfl
  obtain ⟨pmn, hpmn, hcmn⟩ := hInv.fin_sound mn qm hqm
  have hqm0 : 0 ≤ qm := hcmn ▸ pathCost_nonneg nodes w hw0 pmn
  have hselmin := selection_min nodes edges wm blocked w s e dm0 dm prev
    visited hw0 hInv qm hmin
  have hfrozen : ∀ v ∈ mn :: visited,
      getKey (relaxAll dm prev (mn :: visited) mn
        (adjOf nodes edges wm blocked w mn)).1 v = getKey dm v ∧
      getKey (relaxAll dm prev (mn :: visited) mn
        (adjOf nodes edges wm blocked w mn)).2 v = getKey prev v := by
    intro v hv
    rcases r3 v with h | ⟨hnv, _⟩
    · exact h
    · exact absurd hv hnv
  have hentry : ∀ (v : String) (q : α),
      ((v, q) : String × α) ∈ adjOf nodes edges wm blocked w mn →
      survivingStep nodes edges wm blocked mn v = true ∧
        q = stepW nodes w mn v ∧ 0 ≤ q := fun v q h =>
    ⟨(survivingStep_iff_adj nodes edges wm blocked w mn v).mpr ⟨q, h⟩,
      adjOf_weight nodes edges wm blocked w hws mn v q h,
      adjOf_weight_nonneg nodes edges wm blocked w hw0 mn v q h⟩
  have hmnkey : mn ∈ dm.map Prod.fst :=
    (getKey_isSome_iff dm mn).mp (by rw [hqm]; rfl)
  constructor
  -- keys_eq
  · rw [r1, hInv.keys_eq]
  -- vis_keys
  · intro v hv
    rw [r1]
    rcases List.mem_cons.mp hv with h | h
    · exact h ▸ hmnkey
    · exact hInv.vis_keys v h
  -- vis_nodup
  · exact List.nodup_cons.mpr ⟨hmvis, hInv.vis_nodup⟩
  -- e_not_vis
  · intro hv
    rcases List.mem_cons.mp hv with h | h
    · exact hmne h.symm
    · exact hInv.e_not_vis h
  -- start_dist
  · rcases r3 s with h | ⟨_, q, hq, _, _, himp⟩
    · rw [h.1, hInv.start_dist]
    · rw [hdmv, hInv.start_dist] at himp
      simp only [jltO, jadd, Option.map_some', jlt, decide_eq_true_eq] at himp
      have := (hentry s q hq).2.2
      exact absurd himp (not_lt.mpr (add_nonneg hqm0 this))
  -- start_prev
  · rcases r3 s with h | ⟨_, q, hq, _, _, himp⟩
    · rw [h.2, hInv.start_prev]
    · rw [hdmv, hInv.start_dist] at himp
      simp only [jltO, jadd, Option.map_some', jlt, decide_eq_true_eq] at himp
      have := (hentry s q hq).2.2
      exact absurd himp (not_lt.mpr (add_nonneg hqm0 this))
  -- fin_sound
  · intro v q hv
    rcases r3 v with h | ⟨hnv, q', hq', hval, _, _⟩
    · rw [h.1] at hv
      exact hInv.fin_sound v q hv
    · rw [hval, hdmv] at hv
      simp only [jadd, Option.map_some', Option.some_inj] at hv
      obtain ⟨hstep, hwq, _⟩ := hentry v q' hq'
      refine ⟨pmn ++ [v],
        validPath_snoc nodes edges wm blocked s mn v pmn hpmn hstep, ?_⟩
      rw [pathCost_append_one nodes w pmn mn v hpmn.2.2.1, hcmn, ← hv, hwq]
  -- prev_chain
  · intro v u hu
    rcases r3 v with h | ⟨hnv, q', hq', hval, hprev, _⟩
    · rw [h.2] at hu
      obtain ⟨huvis, hstep, qu, qv, hqu, hqv, heq⟩ := hInv.prev_chain v u hu
      have hufroz := hfrozen u (List.mem_cons_of_mem _ huvis)
      have hvv : getKey (relaxAll dm prev (mn :: visited) mn
          (adjOf nodes edges wm blocked w mn)).1 v = getKey dm v := h.1
      exact ⟨List.mem_cons_of_mem _ huvis, hstep, qu, qv,
        by rw [hufroz.1, hqu], by rw [hvv, hqv], heq⟩
    · rw [hprev, Option.some_inj] at hu
      subst hu
      obtain ⟨hstep, hwq, _⟩ := hentry v q' hq'
      have hufroz := hfrozen mn (List.mem_cons_self _ _)
      refine ⟨List.mem_cons_self _ _, hstep, qm, qm + q', ?_, ?_, by rw [hwq]⟩
      · rw [hufroz.1, hqm]
      · rw [hval, hdmv]
        rfl
  -- prev_keys
  · intro v u hu
    have hv : v ∈ (relaxAll dm prev (mn :: visited) mn
        (adjOf nodes edges wm blocked w mn)).2.map Prod.fst :=
      (getKey_isSome_iff _ v).mp (by rw [hu]; rfl)
    rcases r2 v hv with h | ⟨nb, hnb, hnbv⟩
    · obtain ⟨u', hu'⟩ := getKey_some_of_mem_keys _ v h
      exact hInv.prev_keys v u' hu'
    · exact hnbv ▸ adjOf_mem_keys nodes edges wm blocked w mn nb hnb
  -- fin_prev
  · intro v q hv
    rcases r3 v with h | ⟨hnv, q', hq', hval, hprev, _⟩
    · rw [h.1] at hv
      rcases hInv.fin_prev v q hv with h' | ⟨u, hu⟩
      · exact Or.inl h'
      · exact Or.inr ⟨u, by rw [h.2]; exact hu⟩
    · exact Or.inr ⟨mn, hprev⟩
  -- vis_order
  · intro v u hu l1 l2 hsplit
    rcases r3 v with h | ⟨hnv, q', hq', hval, hprev, _⟩
    · rw [h.2] at hu
      obtain ⟨huvis, _, _⟩ := hInv.prev_chain v u hu
      cases l1 with
      | nil =>
        rw [List.nil_append] at hsplit
        have hvmn : v = mn := (List.cons.injEq _ _ _ _).mp hsplit |>.1.symm
        have hl2 : l2 = visited := (List.cons.injEq _ _ _ _).mp hsplit |>.2.symm
        rw [hl2]
        exact huvis
      | cons a l1' =>
        rw [List.cons_append] at hsplit
        have ha : a = mn := ((List.cons.injEq _ _ _ _).mp hsplit).1.symm
        have htl : visited = l1' ++ v :: l2 :=
          ((List.cons.injEq _ _ _ _).mp hsplit).2
        exact hInv.vis_order v u hu l1' l2 htl
    · rw [hprev, Option.some_inj] at hu
      exfalso
      apply hnv
      rw [hsplit]
      exact List.mem_append.mpr (Or.inr (List.mem_cons_self _ _))
  -- vis_fin
  · intro v hv
    rcases List.mem_cons.mp hv with h | h
    · subst h
      exact ⟨qm, by rw [(hfrozen v (List.mem_cons_self _ _)).1, hqm]⟩
    · obtain ⟨q, hq⟩ := hInv.vis_fin v h
      exact ⟨q, by rw [(hfrozen v (List.mem_cons_of_mem _ h)).1, hq]⟩
  -- vis_min
  · intro v hv q hq p hp
    rcases List.mem_cons.mp hv with h | h
    · subst h
      rw [(hfrozen v (List.mem_cons_self _ _)).1, hqm,
        Option.some_inj, Option.some_inj] at hq
      subst hq
      exact hselmin p v hp hmvis
    · rw [(hfrozen v (List.mem_cons_of_mem _ h)).1] at hq
      exact hInv.vis_min v h q hq p hp
  -- frontier
  · intro u hu v hv hstep qu hqu
    have hvnv : v ∉ visited := fun h => hv (List.mem_cons_of_mem _ h)
    have hvne : v ≠ mn := fun h => hv (h ▸ List.mem_cons_self _ _)
    rw [(hfrozen u hu).1] at hqu
    rcases List.mem_cons.mp hu with h | h
    · -- u = mn: the edge was just relaxed
      subst h
      rw [hqm, Option.some_inj, Option.some_inj] at hqu
      subst hqu
      obtain ⟨q0, hq0⟩ :=
        adjOf_complete nodes edges wm blocked w u v hstep
      obtain ⟨_, hwq, _⟩ := hentry v q0 hq0
      obtain ⟨d, hd, hdle⟩ := r5 (v, q0) hq0 hv
      rw [hdmv] at hdle
      cases d with
      | none => exact absurd hdle (by simp [jadd, jlt])
      | some qv =>
        refine ⟨qv, hd, ?_⟩
        simp only [jadd, Option.map_some', jlt, decide_eq_false_iff_not,
          not_lt] at hdle
        rw [← hwq]
        exact hdle
    · -- u was already visited: use the old frontier property
      obtain ⟨qv, hqv, hle⟩ := hInv.frontier u h v hvnv hstep qu hqu
      rcases r3 v with h' | ⟨_, q', hq', hval, _, himp⟩
      · exact ⟨qv, by rw [h'.1, hqv], hle⟩
      · rw [hdmv, hqv] at himp
        simp only [jltO, jadd, Option.map_some', jlt, decide_eq_true_eq]
          at himp
        refine ⟨qm + q', by rw [hval, hdmv]; rfl, ?_⟩
        exact le_trans (le_of_lt himp) hle

end InvStep

theorem nodup_subset_length {γ : Type} [DecidableEq γ] (l l' : List γ)
    (h : l.Nodup) (hs : l ⊆ l') : l.length ≤ l'.length := by
  calc l.length = l.toFinset.card := (List.toFinset_card_of_nodup h).symm
    _ ≤ l'.toFinset.card := Finset.card_le_card (fun x hx => by
        rw [List.mem_toFinset] at hx ⊢
        exact hs hx)
    _ ≤ l'.length := l'.toFinset_card_le

section InitLoop

variable {α : Type} [LinearOrderedAddCommGroup α]

theorem dm0_keys_nodup (nodes : List (Node α)) (s : String) :
    ((setKey (initDist nodes) s (some (0 : α))).map Prod.fst).Nodup := by
  by_cases h : s ∈ (initDist nodes).map Prod.fst
  · rw [keys_setKey_of_mem _ _ _ h]
    exact initDist_keys_nodup nodes
  · rw [keys_setKey_append _ _ _ h]
    exact List.Nodup.append (initDist_keys_nodup nodes) (by simp)
      (by simpa using h)

theorem dm0_keys_ids (nodes : List (Node α)) (s : String) :
    ∀ i ∈ nodes.map Node.id,
      i ∈ (setKey (initDist nodes) s (some (0 : α))).map Prod.fst := by
  intro i hi
  have h0 : i ∈ (initDist nodes).map Prod.fst :=
    (initDist_keys_mem nodes i).mpr hi
  by_cases h : s ∈ (initDist nodes).map Prod.fst
  · rw [keys_setKey_of_mem _ _ _ h]
    exact h0
  · rw [keys_setKey_append _ _ _ h]
    exact List.mem_append.mpr (Or.inl h0)

theorem getKey_dm0 (nodes : List (Node α)) (s v : String) :
    getKey (setKey (initDist nodes) s (some (0 : α))) v =
      if v = s then some (some 0)
      else if v ∈ nodes.map Node.id then some none else none := by
  by_cases hv : v = s
  · subst hv
    rw [if_pos rfl, getKey_setKey_self]
  · rw [if_neg hv, getKey_setKey_ne _ _ _ _ hv]
    by_cases hm : v ∈ nodes.map Node.id
    · rw [if_pos hm]
      obtain ⟨d, hd⟩ := getKey_some_of_mem_keys (initDist nodes) v
        ((initDist_keys_mem nodes v).mpr hm)
      have := initDist_values nodes (v, d) (getKey_mem _ _ _ hd)
      simp only at this
      rw [hd, this]
    · rw [if_neg hm]
      exact (getKey_eq_none_iff _ v).mpr
        (fun h => hm ((initDist_keys_mem nodes v).mp h))

theorem dijkInv_init (nodes : List (Node α)) (edges : List Edge) (wm : Bool)
    (blocked : List BlockedEdge) (w : Node α → Node α → α) (s e : String) :
    DijkInv nodes edges wm blocked w s e
      (setKey (initDist nodes) s (some 0))
      (setKey (initDist nodes) s (some 0)) [] [] := by
  constructor
  · rfl
  · simp
  · exact List.nodup_nil
  · simp
  · exact getKey_setKey_self _ _ _
  · simp [getKey]
  · intro v q hv
    rw [getKey_dm0] at hv
    by_cases hs : v = s
    · rw [if_pos hs] at hv
      simp only [Option.some_inj] at hv
      subst hs
      refine ⟨[v], validPath_single nodes edges wm blocked v, ?_⟩
      rw [← hv]
      rfl
    · rw [if_neg hs] at hv
      by_cases hm : v ∈ nodes.map Node.id
      · rw [if_pos hm] at hv
        simp at hv
      · rw [if_neg hm] at hv
        simp at hv
  · intro v u hu
    simp [getKey] at hu
  · intro v u hu
    simp [getKey] at hu
  · intro v q hv
    rw [getKey_dm0] at hv
    by_cases hs : v = s
    · exact Or.inl hs
    · rw [if_neg hs] at hv
      by_cases hm : v ∈ nodes.map Node.id
      · rw [if_pos hm] at hv
        simp at hv
      · rw [if_neg hm] at hv
        simp at hv
  · intro v u hu
    simp [getKey] at hu
  · simp
  · simp
  · simp

theorem lightInv_init (nodes : List (Node α)) (edges : List Edge) (wm : Bool)
    (blocked : List BlockedEdge) (s : String) :
    LightInv nodes edges wm blocked s
      (setKey (initDist nodes) s (some (0 : α)))
      (setKey (initDist nodes) s (some 0)) [] [] := by
  constructor
  · rfl
  · intro v u hu
    simp [getKey] at hu
  · intro v u hu
    simp [getKey] at hu
  · intro v q hv
    rw [getKey_dm0] at hv
    by_cases hs : v = s
    · rw [if_pos hs] at hv
      subst hs
      exact ⟨[v], validPath_single nodes edges wm blocked v⟩
    · rw [if_neg hs] at hv
      by_cases hm : v ∈ nodes.map Node.id
      · rw [if_pos hm] at hv
        simp at hv
      · rw [if_neg hm] at hv
        simp at hv

theorem lightInv_step (nodes : List (Node α)) (edges : List Edge) (wm : Bool)
    (blocked : List BlockedEdge) (w : Node α → Node α → α) (s : String)
    (dm0 dm : List (String × Option α)) (prev : List (String × String))
    (visited : List String)
    (hnd0 : (dm0.map Prod.fst).Nodup)
    (hids0 : ∀ i ∈ nodes.map Node.id, i ∈ dm0.map Prod.fst)
    (hInv : LightInv nodes edges wm blocked s dm0 dm prev visited)
    (mn : String)
    (hsel : (selectMin dm visited).1 = some mn) :
    LightInv nodes edges wm blocked s dm0
      (relaxAll dm prev (mn :: visited) mn
        (adjOf nodes edges wm blocked w mn)).1
      (relaxAll dm prev (mn :: visited) mn
        (adjOf nodes edges wm blocked w mn)).2
      (mn :: visited) := by
  obtain ⟨qm, hsv, hmem, hmvis, hmin⟩ := selectMin_some visited dm mn hsel
  have hnd : (dm.map Prod.fst).Nodup := by
    rw [hInv.keys_eq]; exact hnd0
  have hqm : getKey dm mn = some (some qm) :=
    mem_getKey_of_nodup dm mn (some qm) hmem hnd
  have hkeys_in : ∀ nb ∈ adjOf nodes edges wm blocked w mn,
      nb.1 ∈ dm.map Prod.fst := fun nb h => by
    rw [hInv.keys_eq]
    exact hids0 _ (adjOf_mem_keys nodes edges wm blocked w mn nb h)
  obtain ⟨r1, r2, r3, _⟩ := relaxAll_spec (mn :: visited) mn
    (adjOf nodes edges wm blocked w mn) dm prev
    (List.mem_cons_self _ _) hkeys_in
  have hdmv : (getKey dm mn).getD none = some qm := by rw [hqm]; rfl
  constructor
  · rw [r1, hInv.keys_eq]
  · intro v u hu
    rcases r3 v with h | ⟨_, q', hq', _, hprev, _⟩
    · rw [h.2] at hu
      exact hInv.prev_step v u hu
    · rw [hprev, Option.some_inj] at hu
      subst hu
      exact (survivingStep_iff_adj nodes edges wm blocked w mn v).mpr ⟨q', hq'⟩
  · intro v u hu
    have hv : v ∈ (relaxAll dm prev (mn :: visited) mn
        (adjOf nodes edges wm blocked w mn)).2.map Prod.fst :=
      (getKey_isSome_iff _ v).mp (by rw [hu]; rfl)
    rcases r2 v hv with h | ⟨nb, hnb, hnbv⟩
    · obtain ⟨u', hu'⟩ := getKey_some_of_mem_keys _ v h
      exact hInv.prev_keys v u' hu'
    · exact hnbv ▸ adjOf_mem_keys nodes edges wm blocked w mn nb hnb
  · intro v q hv
    rcases r3 v with h | ⟨_, q', hq', hval, _, _⟩
    · rw [h.1] at hv
      exact hInv.fin_reach v q hv
    · obtain ⟨p, hp⟩ := hInv.fin_reach mn qm hqm
      exact ⟨p ++ [v], validPath_snoc nodes edges wm blocked s mn v p hp
        ((survivingStep_iff_adj nodes edges wm blocked w mn v).mpr ⟨q', hq'⟩)⟩

theorem dijkstraLoop_succ (nodes : List (Node α)) (edges : List Edge)
    (wm : Bool) (blocked : List BlockedEdge) (w : Node α → Node α → α)
    (endId : String) (fuel : Nat) (dm : List (String × Option α))
    (prev : List (String × String)) (visited : List String) :
    dijkstraLoop nodes edges wm blocked w endId (fuel + 1) dm prev visited =
      match (selectMin dm visited).1 with
      | none => (dm, prev, visited)
      | some minNode =>
        if minNode = "" || minNode = endId then (dm, prev, visited)
        else
          dijkstraLoop nodes edges wm blocked w endId fuel
            (relaxAll dm prev (minNode :: visited) minNode
              (adjOf nodes edges wm blocked w minNode)).1
            (relaxAll dm prev (minNode :: visited) minNode
              (adjOf nodes edges wm blocked w minNode)).2
            (minNode :: visited) := rfl

theorem lightInv_loop (nodes : List (Node α)) (edges : List Edge) (wm : Bool)
    (blocked : List BlockedEdge) (w : Node α → Node α → α) (s e : String)
    (dm0 : List (String × Option α))
    (hnd0 : (dm0.map Prod.fst).Nodup)
    (hids0 : ∀ i ∈ nodes.map Node.id, i ∈ dm0.map Prod.fst) :
    ∀ (fuel : Nat) (dm : List (String × Option α))
      (prev : List (String × String)) (visited : List String),
    LightInv nodes edges wm blocked s dm0 dm prev visited →
    LightInv nodes edges wm blocked s dm0
      (dijkstraLoop nodes edges wm blocked w e fuel dm prev visited).1
      (dijkstraLoop nodes edges wm blocked w e fuel dm prev visited).2.1
      (dijkstraLoop nodes edges wm blocked w e fuel dm prev visited).2.2 := by
  intro fuel
  induction fuel with
  | zero => intro dm prev visited h; exact h
  | succ fuel ih =>
    intro dm prev visited h
    rw [dijkstraLoop_succ]
    cases hsel : (selectMin dm visited).1 with
    | none => exact h
    | some mn =>
      by_cases hbr : (mn = "" || mn = e) = true
      · simp only [hbr, if_true]
        exact h
      · simp only [hbr, Bool.false_eq_true, if_false]
        exact ih _ _ _ (lightInv_step nodes edges wm blocked w s dm0 dm prev
          visited hnd0 hids0 h mn hsel)

theorem dijkInv_loop (nodes : List (Node α)) (edges : List Edge) (wm : Bool)
    (blocked : List BlockedEdge) (w : Node α → Node α → α) (s e : String)
    (dm0 : List (String × Option α))
    (hw0 : ∀ a b : Node α, 0 ≤ w a b)
    (hws : ∀ a b : Node α, w a b = w b a)
    (hnd0 : (dm0.map Prod.fst).Nodup)
    (hids0 : ∀ i ∈ nodes.map Node.id, i ∈ dm0.map Prod.fst) :
    ∀ (fuel : Nat) (dm : List (String × Option α))
      (prev : List (String × String)) (visited : List String),
    dm0.length + 1 ≤ visited.length + fuel →
    dm.length = dm0.length →
    DijkInv nodes edges wm blocked w s e dm0 dm prev visited →
    DijkInv nodes edges wm blocked w s e dm0
      (dijkstraLoop nodes edges wm blocked w e fuel dm prev visited).1
      (dijkstraLoop nodes edges wm blocked w e fuel dm prev visited).2.1
      (dijkstraLoop nodes edges wm blocked w e fuel dm prev visited).2.2 ∧
    ((selectMin (dijkstraLoop nodes edges wm blocked w e fuel dm prev
        visited).1
      (dijkstraLoop nodes edges wm blocked w e fuel dm prev visited).2.2).1 =
        none ∨
     ∃ mn, (selectMin (dijkstraLoop nodes edges wm blocked w e fuel dm prev
        visited).1
      (dijkstraLoop nodes edges wm blocked w e fuel dm prev
        visited).2.2).1 = some mn ∧ (mn = "" ∨ mn = e)) := by
  intro fuel
  induction fuel with
  | zero =>
    intro dm prev visited hfuel hlen hInv
    exfalso
    have hsub : visited ⊆ dm.map Prod.fst := fun v hv => hInv.vis_keys v hv
    have := nodup_subset_length visited (dm.map Prod.fst) hInv.vis_nodup hsub
    rw [List.length_map, hlen] at this
    omega
  | succ fuel ih =>
    intro dm prev visited hfuel hlen hInv
    rw [dijkstraLoop_succ]
    cases hsel : (selectMin dm visited).1 with
    | none =>
      refine ⟨hInv, Or.inl ?_⟩
      exact hsel
    | some mn =>
      by_cases hbr : (mn = "" || mn = e) = true
      · simp only [hbr, if_true]
        exact ⟨hInv, Or.inr ⟨mn, hsel, by simpa using hbr⟩⟩
      · simp only [hbr, Bool.false_eq_true, if_false]
        have hne : ¬(mn = "" ∨ mn = e) := by simpa using hbr
        have hInv' := dijkInv_step nodes edges wm blocked w s e dm0 dm prev
          visited hw0 hws hnd0 hids0 hInv mn hsel
          (fun h => hne (Or.inr h))
        have hlen' : (relaxAll dm prev (mn :: visited) mn
            (adjOf nodes edges wm blocked w mn)).1.length = dm0.length := by
          have := hInv'.keys_eq
          have h2 := congrArg List.length this
          rw [List.length_map, List.length_map] at h2
          omega
        exact ih _ _ _ (by simp only [List.length_cons]; omega) hlen' hInv'

section WalkPrev

variable {α : Type} [LinearOrderedAddCommGroup α]

theorem walkPrev_nil_prev (fuel : Nat) (c : String) :
    walkPrev fuel ([] : List (String × String)) (some c) =
      if fuel = 0 then [] else if c = "" then [] else [c] := by
  cases fuel with
  | zero => rfl
  | succ fuel =>
    simp only [Nat.succ_ne_zero, if_false]
    by_cases hc : c = ""
    · simp [walkPrev, hc]
    · simp [walkPrev, hc, getKey]

theorem walkPrev_chain (prev : List (String × String))
    (R : String → String → Prop)
    (hPrev : ∀ v u, getKey prev v = some u → R u v) :
    ∀ (fuel : Nat) (c : String),
      List.Chain' R (walkPrev fuel prev (some c)) ∧
      (∀ z, (walkPrev fuel prev (some c)).getLast? = some z → z = c) := by
  intro fuel
  induction fuel with
  | zero => intro c; exact ⟨by simp [walkPrev], by simp [walkPrev]⟩
  | succ fuel ih =>
    intro c
    by_cases hc : c = ""
    · simp [walkPrev, hc]
    · simp only [walkPrev, hc, if_false]
      cases hp : getKey prev c with
      | none =>
        simp only [walkPrev, List.nil_append]
        refine ⟨by simp, ?_⟩
        intro z hz
        simp only [List.getLast?_singleton, Option.some_inj] at hz
        exact hz.symm
      | some u =>
        obtain ⟨hchain, hlast⟩ := ih u
        constructor
        · rw [List.chain'_append]
          refine ⟨hchain, by simp, ?_⟩
          intro x hx y hy
          rw [List.head?_cons, Option.mem_some_iff] at hy
          subst hy
          have hx' : (walkPrev fuel prev (some u)).getLast? = some x := hx
          rw [hlast x hx']
          exact hPrev c u hp
        · intro z hz
          rw [List.getLast?_concat] at hz
          exact (show c = z by simpa using hz).symm

theorem walkPrev_valid_aux (nodes : List (Node α)) (edges : List Edge)
    (wm : Bool) (blocked : List BlockedEdge) (w : Node α → Node α → α)
    (s e : String) (dm0 dm : List (String × Option α))
    (prev : List (String × String)) (visited : List String)
    (hInv : DijkInv nodes edges wm blocked w s e dm0 dm prev visited)
    (hkeys_ne : ∀ k ∈ dm.map Prod.fst, k ≠ "") :
    ∀ (n : Nat) (t : List String), t.length ≤ n →
      (∃ l1, visited = l1 ++ t) →
      ∀ (v : String) (qv : α) (fuel : Nat), v ∈ t → t.length ≤ fuel →
      getKey dm v = some (some qv) →
      ValidPath nodes edges wm blocked s v (walkPrev fuel prev (some v)) ∧
      pathCost nodes w (walkPrev fuel prev (some v)) = qv := by
  intro n
  induction n with
  | zero =>
    intro t hn _ v qv fuel hv _ _
    rw [Nat.le_zero, List.length_eq_zero] at hn
    subst hn
    simp at hv
  | succ n ih =>
    intro t hn ⟨l1, hsplit⟩ v qv fuel hv hfuel hfin
    obtain ⟨t1, t2, ht⟩ := List.append_of_mem hv
    subst ht
    have hvvis : v ∈ visited := by
      rw [hsplit]
      exact List.mem_append.mpr (Or.inr hv)
    have hvne : v ≠ "" :=
      hkeys_ne v (hInv.vis_keys v hvvis)
    cases fuel with
    | zero =>
      exfalso
      rw [Nat.le_zero, List.length_eq_zero] at hfuel
      simp [hfuel] at hv
    | succ fuel =>
      cases hp : getKey prev v with
      | none =>
        rcases hInv.fin_prev v qv hfin with hvs | ⟨u, hu⟩
        · subst hvs
          have hq0 : qv = 0 := by
            have := hInv.start_dist
            rw [hfin] at this
            simpa using this
          subst hq0
          simp only [walkPrev, hvne, if_false, hp]
          exact ⟨validPath_single nodes edges wm blocked v, rfl⟩
        · rw [hp] at hu
          exact absurd hu (by simp)
      | some u =>
        obtain ⟨huvis, hstep, qu, qv', hqu, hqv', heq⟩ :=
          hInv.prev_chain v u hp
        have hqveq : qv' = qv := by
          rw [hfin] at hqv'
          simpa using hqv'.symm
        subst hqveq
        have hu2 : u ∈ t2 := by
          apply hInv.vis_order v u hp (l1 ++ t1) t2
          rw [hsplit, List.append_assoc]
        have ht2len : t2.length ≤ n := by
          rw [List.length_append, List.length_cons] at hn
          omega
        have ht2suffix : ∃ l1', visited = l1' ++ t2 :=
          ⟨l1 ++ t1 ++ [v], by
            rw [hsplit, List.append_assoc, List.append_assoc]
            simp⟩
        have hfuel2 : t2.length ≤ fuel := by
          rw [List.length_append, List.length_cons] at hfuel
          omega
        obtain ⟨hvalid, hcost⟩ := ih t2 ht2len ht2suffix u qu fuel hu2
          hfuel2 hqu
        simp only [walkPrev, hvne, if_false, hp]
        refine ⟨validPath_snoc nodes edges wm blocked s u v _ hvalid hstep, ?_⟩
        rw [pathCost_append_one nodes w _ u v hvalid.2.2.1, hcost, heq]

theorem walkPrev_valid (nodes : List (Node α)) (edges : List Edge)
    (wm : Bool) (blocked : List BlockedEdge) (w : Node α → Node α → α)
    (s e : String) (dm0 dm : List (String × Option α))
    (prev : List (String × String)) (visited : List String)
    (hInv : DijkInv nodes edges wm blocked w s e dm0 dm prev visited)
    (hkeys_ne : ∀ k ∈ dm.map Prod.fst, k ≠ "")
    (v : String) (qv : α) (fuel : Nat)
    (hvne : v ≠ "") (hfin : getKey dm v = some (some qv))
    (hfuel : visited.length + 1 ≤ fuel) :
    ValidPath nodes edges wm blocked s v (walkPrev fuel prev (some v)) ∧
    pathCost nodes w (walkPrev fuel prev (some v)) = qv := by
  by_cases hvvis : v ∈ visited
  · exact walkPrev_valid_aux nodes edges wm blocked w s e dm0 dm prev
      visited hInv hkeys_ne visited.length visited le_rfl ⟨[], rfl⟩ v qv fuel
      hvvis (by omega) hfin
  · cases fuel with
    | zero => omega
    | succ fuel =>
      cases hp : getKey prev v with
      | none =>
        rcases hInv.fin_prev v qv hfin with hvs | ⟨u, hu⟩
        · subst hvs
          have hq0 : qv = 0 := by
            have := hInv.start_dist
            rw [hfin] at this
            simpa using this
          subst hq0
          simp only [walkPrev, hvne, if_false, hp]
          exact ⟨validPath_single nodes edges wm blocked v, rfl⟩
        · rw [hp] at hu
          exact absurd hu (by simp)
      | some u =>
        obtain ⟨huvis, hstep, qu, qv', hqu, hqv', heq⟩ :=
          hInv.prev_chain v u hp
        have hqveq : qv' = qv := by
          rw [hfin] at hqv'
          simpa using hqv'.symm
        subst hqveq
        obtain ⟨hvalid, hcost⟩ := walkPrev_valid_aux nodes edges wm blocked w
          s e dm0 dm prev visited hInv hkeys_ne visited.length visited le_rfl
          ⟨[], rfl⟩ u qu fuel huvis (by omega) hqu
        simp only [walkPrev, hvne, if_false, hp]
        refine ⟨validPath_snoc nodes edges wm blocked s u v _ hvalid hstep, ?_⟩
        rw [pathCost_append_one nodes w _ u v hvalid.2.2.1, hcost, heq]

theorem reach_visited (nodes : List (Node α)) (edges : List Edge) (wm : Bool)
    (blocked : List BlockedEdge) (w : Node α → Node α → α) (s e : String)
    (dm0 dm : List (String × Option α)) (prev : List (String × String))
    (visited : List String)
    (hInv : DijkInv nodes edges wm blocked w s e dm0 dm prev visited)
    (hnone : (selectMin dm visited).1 = none) :
    ∀ (p : List String) (z : String),
      ValidPath nodes edges wm blocked s z p → z ∈ visited := by
  have hall := selectMin_none visited dm hnone
  suffices h : ∀ (n : Nat) (p : List String) (z : String), p.length ≤ n →
      ValidPath nodes edges wm blocked s z p → z ∈ visited by
    intro p z hp
    exact h p.length p z le_rfl hp
  intro n
  induction n with
  | zero =>
    intro p z hlen hp
    obtain ⟨hne, _, _, _⟩ := hp
    rw [Nat.le_zero, List.length_eq_zero] at hlen
    exact absurd hlen hne
  | succ n ih =>
    intro p z hlen hp
    rcases validPath_cases nodes edges wm blocked s z p hp with
      ⟨hps, hzs⟩ | ⟨p', y, hpeq, hp', hstep⟩
    · subst hzs
      by_contra hz
      have hdm : ((z : String), (some (0 : α) : Option α)) ∈ dm :=
        getKey_mem dm z (some 0) hInv.start_dist
      have := hall _ hdm hz
      simp at this
    · subst hpeq
      have hy : y ∈ visited := by
        apply ih p' y _ hp'
        rw [List.length_append, List.length_singleton] at hlen
        omega
      by_contra hz
      obtain ⟨qy, hqy⟩ := hInv.vis_fin y hy
      obtain ⟨qz, hqz, _⟩ := hInv.frontier y hy z hz hstep qy hqy
      have hdm : ((z : String), (some qz : Option α)) ∈ dm :=
        getKey_mem dm z (some qz) hqz
      have := hall _ hdm hz
      simp at this

end WalkPrev

section DijkstraTop

variable {α : Type} [LinearOrderedAddCommGroup α]

theorem dijkstra_def' (s e : String) (nodes : List (Node α))
    (edges : List Edge) (wm : Bool) (blocked : List BlockedEdge)
    (w : Node α → Node α → α) :
    dijkstra s e nodes edges wm blocked w =
      match getKey (dijkstraLoop nodes edges wm blocked w e
          ((setKey (initDist nodes) s (some 0)).length + 1)
          (setKey (initDist nodes) s (some 0)) [] []).1 e with
      | some none => none
      | d =>
          some ⟨walkPrev ((dijkstraLoop nodes edges wm blocked w e
              ((setKey (initDist nodes) s (some 0)).length + 1)
              (setKey (initDist nodes) s (some 0)) [] []).1.length + 1)
            (dijkstraLoop nodes edges wm blocked w e
              ((setKey (initDist nodes) s (some 0)).length + 1)
              (setKey (initDist nodes) s (some 0)) [] []).2.1 (some e),
            match d with
            | some (some q) => some q
            | _ => none⟩ := rfl

theorem dijkstra_eq_some_of (s e : String) (nodes : List (Node α))
    (edges : List Edge) (wm : Bool) (blocked : List BlockedEdge)
    (w : Node α → Node α → α)
    (st : List (String × Option α) × List (String × String) × List String)
    (hst : dijkstraLoop nodes edges wm blocked w e
      ((setKey (initDist nodes) s (some 0)).length + 1)
      (setKey (initDist nodes) s (some 0)) [] [] = st)
    (qe : α) (hqe : getKey st.1 e = some (some qe)) :
    dijkstra s e nodes edges wm blocked w =
      some ⟨walkPrev (st.1.length + 1) st.2.1 (some e), some qe⟩ := by
  subst hst
  rw [dijkstra_def', hqe]

theorem dijkstra_eq_none_of (s e : String) (nodes : List (Node α))
    (edges : List Edge) (wm : Bool) (blocked : List BlockedEdge)
    (w : Node α → Node α → α)
    (st : List (String × Option α) × List (String × String) × List String)
    (hst : dijkstraLoop nodes edges wm blocked w e
      ((setKey (initDist nodes) s (some 0)).length + 1)
      (setKey (initDist nodes) s (some 0)) [] [] = st)
    (hqe : getKey st.1 e = some none) :
    dijkstra s e nodes edges wm blocked w = none := by
  subst hst
  rw [dijkstra_def', hqe]

theorem dijkstra_eq_undef_of (s e : String) (nodes : List (Node α))
    (edges : List Edge) (wm : Bool) (blocked : List BlockedEdge)
    (w : Node α → Node α → α)
    (st : List (String × Option α) × List (String × String) × List String)
    (hst : dijkstraLoop nodes edges wm blocked w e
      ((setKey (initDist nodes) s (some 0)).length + 1)
      (setKey (initDist nodes) s (some 0)) [] [] = st)
    (hqe : getKey st.1 e = none) :
    dijkstra s e nodes edges wm blocked w =
      some ⟨walkPrev (st.1.length + 1) st.2.1 (some e), none⟩ := by
  subst hst
  rw [dijkstra_def', hqe]

end DijkstraTop

section DijkstraMain

variable {α : Type} [LinearOrderedAddCommGroup α]

theorem dm0_keys_cases (nodes : List (Node α)) (s : String) :
    ∀ k ∈ (setKey (initDist nodes) s (some (0 : α))).map Prod.fst,
      k ∈ nodes.map Node.id ∨ k = s := by
  intro k hk
  by_cases h : s ∈ (initDist nodes).map Prod.fst
  · rw [keys_setKey_of_mem _ _ _ h] at hk
    exact Or.inl ((initDist_keys_mem nodes k).mp hk)
  · rw [keys_setKey_append _ _ _ h] at hk
    rcases List.mem_append.mp hk with h' | h'
    · exact Or.inl ((initDist_keys_mem nodes k).mp h')
    · exact Or.inr (by simpa using h')

theorem ids_ne_empty (nodes : List (Node α))
    (hids : ∀ n ∈ nodes, n.id ≠ "") (i : String)
    (hi : i ∈ nodes.map Node.id) : i ≠ "" := by
  obtain ⟨n, hn, rfl⟩ := List.mem_map.mp hi
  exact hids n hn

/-- Master theorem: on inputs with nonempty node ids, a nonnegative symmetric
weight function, both endpoints present, and the target reachable through the
filtered graph, `dijkstra` returns a surviving path from start to target whose
recorded distance is its cost, and that cost is minimal among all surviving
paths. -/
theorem dijkstra_optimal (s e : String) (nodes : List (Node α))
    (edges : List Edge) (wm : Bool) (blocked : List BlockedEdge)
    (w : Node α → Node α → α)
    (hw0 : ∀ a b : Node α, 0 ≤ w a b)
    (hws : ∀ a b : Node α, w a b = w b a)
    (hids : ∀ n ∈ nodes, n.id ≠ "")
    (hsmem : s ∈ nodes.map Node.id) (hemem : e ∈ nodes.map Node.id)
    (hreach : Reach nodes edges wm blocked s e) :
    ∃ r, dijkstra s e nodes edges wm blocked w = some r ∧
      ValidPath nodes edges wm blocked s e r.path ∧
      ∃ q : α, r.distance = some q ∧ pathCost nodes w r.path = q ∧
      ∀ p, ValidPath nodes edges wm blocked s e p →
        q ≤ pathCost nodes w p := by
  have hnd0 := dm0_keys_nodup (α := α) nodes s
  have hids0 := dm0_keys_ids (α := α) nodes s
  have hsne : s ≠ "" := ids_ne_empty nodes hids s hsmem
  have hene : e ≠ "" := ids_ne_empty nodes hids e hemem
  obtain ⟨hInvF, hbreak⟩ := dijkInv_loop nodes edges wm blocked w s e
    (setKey (initDist nodes) s (some 0)) hw0 hws hnd0 hids0
    ((setKey (initDist nodes) s (some 0)).length + 1)
    (setKey (initDist nodes) s (some 0)) [] [] (by simp) rfl
    (dijkInv_init nodes edges wm blocked w s e)
  generalize hst : dijkstraLoop nodes edges wm blocked w e
      ((setKey (initDist nodes) s (some 0)).length + 1)
      (setKey (initDist nodes) s (some 0)) [] [] = st at hInvF hbreak
  have hkeys_ne : ∀ k ∈ st.1.map Prod.fst, k ≠ "" := by
    intro k hk
    rw [hInvF.keys_eq] at hk
    rcases dm0_keys_cases nodes s k hk with h | h
    · exact ids_ne_empty nodes hids k h
    · exact h ▸ hsne
  have hfin : ∃ qe : α, getKey st.1 e = some (some qe) ∧
      ∀ p, ValidPath nodes edges wm blocked s e p →
        qe ≤ pathCost nodes w p := by
    rcases hbreak with hnone | ⟨mn, hmn, hbr⟩
    · exfalso
      obtain ⟨p0, hp0⟩ := hreach
      exact hInvF.e_not_vis (reach_visited nodes edges wm blocked w s e
        (setKey (initDist nodes) s (some 0)) st.1 st.2.1 st.2.2 hInvF hnone
        p0 e hp0)
    · obtain ⟨qm, hsv, hmem, hmvis, hmin⟩ :=
        selectMin_some st.2.2 st.1 mn hmn
      have hmnkeys : mn ∈ st.1.map Prod.fst :=
        List.mem_map.mpr ⟨(mn, some qm), hmem, rfl⟩
      have hmn_ne : mn ≠ "" := hkeys_ne mn hmnkeys
      have hmne : mn = e := hbr.resolve_left hmn_ne
      subst hmne
      have hnd : (st.1.map Prod.fst).Nodup := by
        rw [hInvF.keys_eq]; exact hnd0
      have hq : getKey st.1 mn = some (some qm) :=
        mem_getKey_of_nodup st.1 mn (some qm) hmem hnd
      exact ⟨qm, hq, fun p hp => selection_min nodes edges wm blocked w s mn
        (setKey (initDist nodes) s (some 0)) st.1 st.2.1 st.2.2 hw0 hInvF qm
        hmin p mn hp hmvis⟩
  obtain ⟨qe, hqe, hminall⟩ := hfin
  have hfuel : st.2.2.length + 1 ≤ st.1.length + 1 := by
    have hsub : st.2.2 ⊆ st.1.map Prod.fst := fun v hv => hInvF.vis_keys v hv
    have := nodup_subset_length st.2.2 (st.1.map Prod.fst) hInvF.vis_nodup hsub
    rw [List.length_map] at this
    omega
  obtain ⟨hvalid, hcost⟩ := walkPrev_valid nodes edges wm blocked w s e
    (setKey (initDist nodes) s (some 0)) st.1 st.2.1 st.2.2 hInvF hkeys_ne
    e qe (st.1.length + 1) hene hqe hfuel
  exact ⟨⟨walkPrev (st.1.length + 1) st.2.1 (some e), some qe⟩,
    dijkstra_eq_some_of s e nodes edges wm blocked w st hst qe hqe,
    hvalid, qe, rfl, hcost, hminall⟩

/-- Soundness of a returned result: whatever `dijkstra` returns (under
nonempty ids, a nonnegative symmetric weight, and a target present in the
node list) is a surviving path from start to target, its distance is its
cost, and it is minimal. -/
theorem dijkstra_some_props (s e : String) (nodes : List (Node α))
    (edges : List Edge) (wm : Bool) (blocked : List BlockedEdge)
    (w : Node α → Node α → α)
    (hw0 : ∀ a b : Node α, 0 ≤ w a b)
    (hws : ∀ a b : Node α, w a b = w b a)
    (hids : ∀ n ∈ nodes, n.id ≠ "")
    (hsne : s ≠ "")
    (hemem : e ∈ nodes.map Node.id) (r : RouteResult α)
    (h : dijkstra s e nodes edges wm blocked w = some r) :
    ValidPath nodes edges wm blocked s e r.path ∧
    ∃ q : α, r.distance = some q ∧ pathCost nodes w r.path = q ∧
    ∀ p, ValidPath nodes edges wm blocked s e p →
      q ≤ pathCost nodes w p := by
  have hnd0 := dm0_keys_nodup (α := α) nodes s
  have hids0 := dm0_keys_ids (α := α) nodes s
  have hene : e ≠ "" := ids_ne_empty nodes hids e hemem
  obtain ⟨hInvF, hbreak⟩ := dijkInv_loop nodes edges wm blocked w s e
    (setKey (initDist nodes) s (some 0)) hw0 hws hnd0 hids0
    ((setKey (initDist nodes) s (some 0)).length + 1)
    (setKey (initDist nodes) s (some 0)) [] [] (by simp) rfl
    (dijkInv_init nodes edges wm blocked w s e)
  generalize hst : dijkstraLoop nodes edges wm blocked w e
      ((setKey (initDist nodes) s (some 0)).length + 1)
      (setKey (initDist nodes) s (some 0)) [] [] = st at hInvF hbreak
  have hkeys_ne : ∀ k ∈ st.1.map Prod.fst, k ≠ "" := by
    intro k hk
    rw [hInvF.keys_eq] at hk
    rcases dm0_keys_cases nodes s k hk with h' | h'
    · exact ids_ne_empty nodes hids k h'
    · exact h' ▸ hsne
  have hekey : e ∈ st.1.map Prod.fst := by
    rw [hInvF.keys_eq]
    exact hids0 e hemem
  obtain ⟨de, hde⟩ := getKey_some_of_mem_keys st.1 e hekey
  rcases de with _ | qe
  · rw [dijkstra_eq_none_of s e nodes edges wm blocked w st hst hde] at h
    exact absurd h (by simp)
  · have hr : r = ⟨walkPrev (st.1.length + 1) st.2.1 (some e), some qe⟩ := by
      rw [dijkstra_eq_some_of s e nodes edges wm blocked w st hst qe hde]
        at h
      simpa using h.symm
    subst hr
    have hfuel : st.2.2.length + 1 ≤ st.1.length + 1 := by
      have hsub : st.2.2 ⊆ st.1.map Prod.fst := fun v hv => hInvF.vis_keys v hv
      have := nodup_subset_length st.2.2 (st.1.map Prod.fst) hInvF.vis_nodup
        hsub
      rw [List.length_map] at this
      omega
    obtain ⟨hvalid, hcost⟩ := walkPrev_valid nodes edges wm blocked w s e
      (setKey (initDist nodes) s (some 0)) st.1 st.2.1 st.2.2 hInvF hkeys_ne
      e qe (st.1.length + 1) hene hde hfuel
    refine ⟨hvalid, qe, rfl, hcost, ?_⟩
    rcases hbreak with hnone | ⟨mn, hmn, hbr⟩
    · exfalso
      have := reach_visited nodes edges wm blocked w s e
        (setKey (initDist nodes) s (some 0)) st.1 st.2.1 st.2.2 hInvF hnone
        _ e hvalid
      exact hInvF.e_not_vis this
    · obtain ⟨qm, hsv, hmem, hmvis, hmin⟩ :=
        selectMin_some st.2.2 st.1 mn hmn
      have hmnkeys : mn ∈ st.1.map Prod.fst :=
        List.mem_map.mpr ⟨(mn, some qm), hmem, rfl⟩
      have hmn_ne : mn ≠ "" := hkeys_ne mn hmnkeys
      have hmne : mn = e := hbr.resolve_left hmn_ne
      subst hmne
      have hnd : (st.1.map Prod.fst).Nodup := by
        rw [hInvF.keys_eq]; exact hnd0
      have hq : getKey st.1 mn = some (some qm) :=
        mem_getKey_of_nodup st.1 mn (some qm) hmem hnd
      have hqm : qm = qe := by
        rw [hde] at hq
        simpa using hq.symm
      subst hqm
      exact fun p hp => selection_min nodes edges wm blocked w s mn
        (setKey (initDist nodes) s (some 0)) st.1 st.2.1 st.2.2 hw0 hInvF qm
        hmin p mn hp hmvis

/-- If the target is a node id and is unreachable through the filtered
graph, `dijkstra` returns `none` — with no assumptions on the weight
function or on the shape of the node ids. -/
theorem dijkstra_unreachable (s e : String) (nodes : List (Node α))
    (edges : List Edge) (wm : Bool) (blocked : List BlockedEdge)
    (w : Node α → Node α → α)
    (hemem : e ∈ nodes.map Node.id)
    (hunreach : ¬ Reach nodes edges wm blocked s e) :
    dijkstra s e nodes edges wm blocked w = none := by
  have hnd0 := dm0_keys_nodup (α := α) nodes s
  have hids0 := dm0_keys_ids (α := α) nodes s
  have hInvF := lightInv_loop nodes edges wm blocked w s e
    (setKey (initDist nodes) s (some 0)) hnd0 hids0
    ((setKey (initDist nodes) s (some 0)).length + 1)
    (setKey (initDist nodes) s (some 0)) [] []
    (lightInv_init nodes edges wm blocked s)
  generalize hst : dijkstraLoop nodes edges wm blocked w e
      ((setKey (initDist nodes) s (some 0)).length + 1)
      (setKey (initDist nodes) s (some 0)) [] [] = st at hInvF
  have hekey : e ∈ st.1.map Prod.fst := by
    rw [hInvF.keys_eq]
    exact hids0 e hemem
  obtain ⟨de, hde⟩ := getKey_some_of_mem_keys st.1 e hekey
  rcases de with _ | qe
  · exact dijkstra_eq_none_of s e nodes edges wm blocked w st hst hde
  · exact absurd (hInvF.fin_reach e qe hde) hunreach

/-- Every result path consists exclusively of surviving steps, with no
assumptions at all on the inputs. -/
theorem dijkstra_chain (s e : String) (nodes : List (Node α))
    (edges : List Edge) (wm : Bool) (blocked : List BlockedEdge)
    (w : Node α → Node α → α) (r : RouteResult α)
    (h : dijkstra s e nodes edges wm blocked w = some r) :
    List.Chain' (fun a b =>
      survivingStep nodes edges wm blocked a b = true) r.path := by
  have hnd0 := dm0_keys_nodup (α := α) nodes s
  have hids0 := dm0_keys_ids (α := α) nodes s
  have hInvF := lightInv_loop nodes edges wm blocked w s e
    (setKey (initDist nodes) s (some 0)) hnd0 hids0
    ((setKey (initDist nodes) s (some 0)).length + 1)
    (setKey (initDist nodes) s (some 0)) [] []
    (lightInv_init nodes edges wm blocked s)
  generalize hst : dijkstraLoop nodes edges wm blocked w e
      ((setKey (initDist nodes) s (some 0)).length + 1)
      (setKey (initDist nodes) s (some 0)) [] [] = st at hInvF
  have hchain := (walkPrev_chain st.2.1
    (fun a b => survivingStep nodes edges wm blocked a b = true)
    (fun v u hu => hInvF.prev_step v u hu) (st.1.length + 1) e).1
  cases hde : getKey st.1 e with
  | none =>
    rw [dijkstra_eq_undef_of s e nodes edges wm blocked w st hst hde] at h
    have : r.path = walkPrev (st.1.length + 1) st.2.1 (some e) := by
      have := h.symm
      simp only [Option.some_inj] at this
      rw [this]
    rw [this]
    exact hchain
  | some de =>
    rcases de with _ | qe
    · rw [dijkstra_eq_none_of s e nodes edges wm blocked w st hst hde] at h
      exact absurd h (by simp)
    · rw [dijkstra_eq_some_of s e nodes edges wm blocked w st hst qe hde]
        at h
      have : r.path = walkPrev (st.1.length + 1) st.2.1 (some e) := by
        have := h.symm
        simp only [Option.some_inj] at this
        rw [this]
      rw [this]
      exact hchain

/-- The out-of-range target behaviour (claim C10): a nonempty `endId` that is
not a node id and differs from `startId` yields `{path: [endId],
distance: undefined}`. -/
theorem dijkstra_invalid_end (s e : String) (nodes : List (Node α))
    (edges : List Edge) (wm : Bool) (blocked : List BlockedEdge)
    (w : Node α → Node α → α)
    (hene : e ≠ "") (hemem : e ∉ nodes.map Node.id) (hes : e ≠ s) :
    dijkstra s e nodes edges wm blocked w = some ⟨[e], none⟩ := by
  have hnd0 := dm0_keys_nodup (α := α) nodes s
  have hids0 := dm0_keys_ids (α := α) nodes s
  have hInvF := lightInv_loop nodes edges wm blocked w s e
    (setKey (initDist nodes) s (some 0)) hnd0 hids0
    ((setKey (initDist nodes) s (some 0)).length + 1)
    (setKey (initDist nodes) s (some 0)) [] []
    (lightInv_init nodes edges wm blocked s)
  generalize hst : dijkstraLoop nodes edges wm blocked w e
      ((setKey (initDist nodes) s (some 0)).length + 1)
      (setKey (initDist nodes) s (some 0)) [] [] = st at hInvF
  have hekey : e ∉ st.1.map Prod.fst := by
    rw [hInvF.keys_eq]
    intro hk
    rcases dm0_keys_cases nodes s e hk with h | h
    · exact hemem h
    · exact hes h
  have hde : getKey st.1 e = none := (getKey_eq_none_iff st.1 e).mpr hekey
  rw [dijkstra_eq_undef_of s e nodes edges wm blocked w st hst hde]
  have hpe : getKey st.2.1 e = none := by
    cases hp : getKey st.2.1 e with
    | none => rfl
    | some u => exact absurd (hInvF.prev_keys e u hp) hemem
  have hwalk : walkPrev (st.1.length + 1) st.2.1 (some e) = [e] := by
    simp only [walkPrev, hene, if_false, hpe]
    rfl
  rw [hwalk]

theorem dm0_entry_finite (nodes : List (Node α)) (s k : String)
    (d : Option α)
    (hmem : (k, d) ∈ setKey (initDist nodes) s (some 0)) (hd : d ≠ none) :
    k = s ∧ d = some 0 := by
  have h := mem_getKey_of_nodup _ k d hmem (dm0_keys_nodup nodes s)
  rw [getKey_dm0] at h
  by_cases hk : k = s
  · rw [if_pos hk] at h
    exact ⟨hk, by simpa using h.symm⟩
  · rw [if_neg hk] at h
    by_cases hm : k ∈ nodes.map Node.id
    · rw [if_pos hm] at h
      exact absurd (show d = none by simpa using h.symm) hd
    · rw [if_neg hm] at h
      simp at h

theorem selectMin_dm0_self (nodes : List (Node α)) (s : String) :
    (selectMin (setKey (initDist nodes) s (some (0 : α))) []).1 = some s := by
  obtain ⟨ha, hb, _⟩ := selectMin_aux ([] : List String)
    (setKey (initDist nodes) s (some (0 : α)))
    ((none, none) : Option String × Option α)
  rcases ha with ha | ⟨kv, hkv, _, hfin, ha'⟩
  · exfalso
    have hs0 : ((s, some (0 : α)) : String × Option α) ∈
        setKey (initDist nodes) s (some 0) :=
      getKey_mem _ _ _ (getKey_setKey_self _ _ _)
    have hjlt := hb _ hs0 (by simp)
    rw [ha] at hjlt
    simp [jlt] at hjlt
  · obtain ⟨hks, _⟩ := dm0_entry_finite nodes s kv.1 kv.2
      (by simpa using hkv) hfin
    unfold selectMin
    rw [ha']
    simp [hks]

/-- `dijkstra(s, s)` on a nonempty node id `s` present in the node list:
single-node path, distance `0` (amended claim C6). -/
theorem dijkstra_self (s : String) (nodes : List (Node α)) (edges : List Edge)
    (wm : Bool) (blocked : List BlockedEdge) (w : Node α → Node α → α)
    (hne : s ≠ "") :
    dijkstra s s nodes edges wm blocked w = some ⟨[s], some 0⟩ := by
  have hsel := selectMin_dm0_self (α := α) nodes s
  have hloop : dijkstraLoop nodes edges wm blocked w s
      ((setKey (initDist nodes) s (some (0 : α))).length + 1)
      (setKey (initDist nodes) s (some 0)) [] [] =
      (setKey (initDist nodes) s (some 0), [], []) := by
    rw [dijkstraLoop_succ]
    simp only [hsel]
    simp
  rw [dijkstra_eq_some_of s s nodes edges wm blocked w _ hloop 0
    (getKey_setKey_self _ _ _)]
  rw [walkPrev_nil_prev]
  simp [hne]

end DijkstraMain

section ScanLemmas

variable {α : Type} [LinearOrderedAddCommGroup α]

theorem scanTargets_cons (s : String) (nodes : List (Node α))
    (edges : List Edge) (wm : Bool) (blocked : List BlockedEdge)
    (w : Node α → Node α → α) (isRef : Bool) (t : Node α)
    (ts : List (Node α)) (init : Option (ExitResult α)) :
    scanTargets s nodes edges wm blocked w isRef (t :: ts) init =
      scanTargets s nodes edges wm blocked w isRef ts
        (match dijkstra s t.id nodes edges wm blocked w with
         | some result =>
             match init with
             | none => some ⟨result.path, result.distance, t.id, isRef⟩
             | some b =>
                 if jltD result.distance b.distance then
                   some ⟨result.path, result.distance, t.id, isRef⟩
                 else some b
         | none => init) := rfl

theorem scanTargets_cons_none (s : String) (nodes : List (Node α))
    (edges : List Edge) (wm : Bool) (blocked : List BlockedEdge)
    (w : Node α → Node α → α) (isRef : Bool) (t : Node α)
    (ts : List (Node α)) (init : Option (ExitResult α))
    (hd : dijkstra s t.id nodes edges wm blocked w = none) :
    scanTargets s nodes edges wm blocked w isRef (t :: ts) init =
      scanTargets s nodes edges wm blocked w isRef ts init := by
  rw [scanTargets_cons, hd]

theorem scanTargets_cons_some_none (s : String) (nodes : List (Node α))
    (edges : List Edge) (wm : Bool) (blocked : List BlockedEdge)
    (w : Node α → Node α → α) (isRef : Bool) (t : Node α)
    (ts : List (Node α)) (r : RouteResult α)
    (hd : dijkstra s t.id nodes edges wm blocked w = some r) :
    scanTargets s nodes edges wm blocked w isRef (t :: ts) none =
      scanTargets s nodes edges wm blocked w isRef ts
        (some ⟨r.path, r.distance, t.id, isRef⟩) := by
  rw [scanTargets_cons, hd]

theorem scanTargets_cons_some_some (s : String) (nodes : List (Node α))
    (edges : List Edge) (wm : Bool) (blocked : List BlockedEdge)
    (w : Node α → Node α → α) (isRef : Bool) (t : Node α)
    (ts : List (Node α)) (r : RouteResult α) (b0 : ExitResult α)
    (hd : dijkstra s t.id nodes edges wm blocked w = some r) :
    scanTargets s nodes edges wm blocked w isRef (t :: ts) (some b0) =
      scanTargets s nodes edges wm blocked w isRef ts
        (if jltD r.distance b0.distance then
          some ⟨r.path, r.distance, t.id, isRef⟩
         else some b0) := by
  rw [scanTargets_cons, hd]

theorem scanTargets_isRef (s : String) (nodes : List (Node α))
    (edges : List Edge) (wm : Bool) (blocked : List BlockedEdge)
    (w : Node α → Node α → α) (isRef : Bool) :
    ∀ (targets : List (Node α)) (init : Option (ExitResult α))
      (b : ExitResult α),
    scanTargets s nodes edges wm blocked w isRef targets init = some b →
    b.isRefuge = isRef ∨ init = some b := by
  intro targets
  induction targets with
  | nil => intro init b h; exact Or.inr h
  | cons t ts ih =>
    intro init b h
    cases hd : dijkstra s t.id nodes edges wm blocked w with
    | none =>
      rw [scanTargets_cons_none s nodes edges wm blocked w isRef t ts init hd]
        at h
      exact ih init b h
    | some r =>
      cases hinit : init with
      | none =>
        rw [hinit, scanTargets_cons_some_none s nodes edges wm blocked w isRef
          t ts r hd] at h
        rcases ih _ b h with h' | h'
        · exact Or.inl h'
        · simp only [Option.some_inj] at h'
          exact Or.inl (by rw [← h'])
      | some b0 =>
        rw [hinit, scanTargets_cons_some_some s nodes edges wm blocked w isRef
          t ts r b0 hd] at h
        by_cases hcmp : jltD r.distance b0.distance = true
        · rw [if_pos hcmp] at h
          rcases ih _ b h with h' | h'
          · exact Or.inl h'
          · simp only [Option.some_inj] at h'
            exact Or.inl (by rw [← h'])
        · rw [if_neg hcmp] at h
          rcases ih _ b h with h' | h'
          · exact Or.inl h'
          · exact Or.inr h'

theorem scanTargets_some_ne_none (s : String) (nodes : List (Node α))
    (edges : List Edge) (wm : Bool) (blocked : List BlockedEdge)
    (w : Node α → Node α → α) (isRef : Bool) :
    ∀ (targets : List (Node α)) (b0 : ExitResult α),
    scanTargets s nodes edges wm blocked w isRef targets (some b0) ≠ none := by
  intro targets
  induction targets with
  | nil => intro b0 h; exact absurd h (by simp [scanTargets])
  | cons t ts ih =>
    intro b0 h
    cases hd : dijkstra s t.id nodes edges wm blocked w with
    | none =>
      rw [scanTargets_cons_none s nodes edges wm blocked w isRef t ts _ hd]
        at h
      exact ih b0 h
    | some r =>
      rw [scanTargets_cons_some_some s nodes edges wm blocked w isRef t ts r
        b0 hd] at h
      by_cases hcmp : jltD r.distance b0.distance = true
      · rw [if_pos hcmp] at h
        exact ih _ h
      · rw [if_neg hcmp] at h
        exact ih _ h

theorem scanTargets_none_iff (s : String) (nodes : List (Node α))
    (edges : List Edge) (wm : Bool) (blocked : List BlockedEdge)
    (w : Node α → Node α → α) (isRef : Bool) :
    ∀ targets : List (Node α),
    scanTargets s nodes edges wm blocked w isRef targets none = none ↔
      ∀ t ∈ targets, dijkstra s t.id nodes edges wm blocked w = none := by
  intro targets
  induction targets with
  | nil => simp [scanTargets]
  | cons t ts ih =>
    cases hd : dijkstra s t.id nodes edges wm blocked w with
    | none =>
      rw [scanTargets_cons_none s nodes edges wm blocked w isRef t ts _ hd, ih]
      constructor
      · intro h t' ht'
        rcases List.mem_cons.mp ht' with h' | h'
        · exact h' ▸ hd
        · exact h t' h'
      · intro h t' ht'
        exact h t' (List.mem_cons_of_mem _ ht')
    | some r =>
      rw [scanTargets_cons_some_none s nodes edges wm blocked w isRef t ts r
        hd]
      constructor
      · intro h
        exact absurd h (scanTargets_some_ne_none s nodes edges wm blocked w
          isRef ts _)
      · intro h
        have := h t (List.mem_cons_self _ _)
        rw [hd] at this
        exact absurd this (by simp)

theorem scanTargets_spec (s : String) (nodes : List (Node α))
    (edges : List Edge) (wm : Bool) (blocked : List BlockedEdge)
    (w : Node α → Node α → α) (isRef : Bool) :
    ∀ (targets : List (Node α)) (init : Option (ExitResult α)),
    (∀ t ∈ targets, ∀ r : RouteResult α,
      dijkstra s t.id nodes edges wm blocked w = some r →
      ∃ q : α, r.distance = some q) →
    (∀ b0, init = some b0 → ∃ q0 : α, b0.distance = some q0) →
    ∀ b : ExitResult α,
    scanTargets s nodes edges wm blocked w isRef targets init = some b →
    ∃ qb : α, b.distance = some qb ∧
      (init = some b ∨ ∃ t ∈ targets, b.targetId = t.id ∧
        b.isRefuge = isRef ∧
        dijkstra s t.id nodes edges wm blocked w =
          some ⟨b.path, b.distance⟩) ∧
      (∀ b0 q0, init = some b0 → b0.distance = some q0 → qb ≤ q0) ∧
      (∀ t' ∈ targets, ∀ (r' : RouteResult α) (q' : α),
        dijkstra s t'.id nodes edges wm blocked w = some r' →
        r'.distance = some q' → qb ≤ q') := by
  intro targets
  induction targets with
  | nil =>
    intro init hsome hinit b h
    have hib : init = some b := h
    obtain ⟨q0, hq0⟩ := hinit b hib
    exact ⟨q0, hq0, Or.inl hib,
      fun b0 q0' hb0 hq0' => by
        rw [hib, Option.some_inj] at hb0
        subst hb0
        rw [hq0] at hq0'
        simp only [Option.some_inj] at hq0'
        rw [hq0'],
      by simp⟩
  | cons t ts ih =>
    intro init hsome hinit b h
    have hsome_ts : ∀ t' ∈ ts, ∀ r : RouteResult α,
        dijkstra s t'.id nodes edges wm blocked w = some r →
        ∃ q : α, r.distance = some q :=
      fun t' ht' => hsome t' (List.mem_cons_of_mem _ ht')
    cases hd : dijkstra s t.id nodes edges wm blocked w with
    | none =>
      rw [scanTargets_cons_none s nodes edges wm blocked w isRef t ts _ hd]
        at h
      obtain ⟨qb, hqb, horig, hinitmin, hts⟩ := ih init hsome_ts hinit b h
      refine ⟨qb, hqb, ?_, hinitmin, ?_⟩
      · rcases horig with h' | ⟨t', ht', h'⟩
        · exact Or.inl h'
        · exact Or.inr ⟨t', List.mem_cons_of_mem _ ht', h'⟩
      · intro t' ht' r' q' hd' hq'
        rcases List.mem_cons.mp ht' with h' | h'
        · rw [h'] at hd'
          rw [hd'] at hd
          exact absurd hd (by simp)
        · exact hts t' h' r' q' hd' hq'
    | some r =>
      obtain ⟨qr, hqr⟩ := hsome t (List.mem_cons_self _ _) r hd
      cases hinit0 : init with
      | none =>
        rw [hinit0, scanTargets_cons_some_none s nodes edges wm blocked w
          isRef t ts r hd] at h
        have hinit' : ∀ b0,
            (some (⟨r.path, r.distance, t.id, isRef⟩ : ExitResult α)) =
              some b0 → ∃ q0 : α, b0.distance = some q0 := by
          intro b0 hb0
          simp only [Option.some_inj] at hb0
          exact ⟨qr, by rw [← hb0]; exact hqr⟩
        obtain ⟨qb, hqb, horig, hinitmin, hts⟩ := ih _ hsome_ts hinit' b h
        refine ⟨qb, hqb, ?_, by simp [hinit0], ?_⟩
        · rcases horig with h' | ⟨t', ht', h'⟩
          · simp only [Option.some_inj] at h'
            refine Or.inr ⟨t, List.mem_cons_self _ _, ?_, ?_, ?_⟩
            · rw [← h']
            · rw [← h']
            · rw [← h', hd]
          · exact Or.inr ⟨t', List.mem_cons_of_mem _ ht', h'⟩
        · intro t' ht' r' q' hd' hq'
          rcases List.mem_cons.mp ht' with h' | h'
          · rw [h'] at hd'
            rw [hd'] at hd
            simp only [Option.some_inj] at hd
            subst hd
            have := hinitmin _ qr rfl hqr
            rw [hqr] at hq'
            simp only [Option.some_inj] at hq'
            rw [← hq']
            exact this
          · exact hts t' h' r' q' hd' hq'
      | some b0 =>
        rw [hinit0, scanTargets_cons_some_some s nodes edges wm blocked w
          isRef t ts r b0 hd] at h
        obtain ⟨q0, hq0⟩ := hinit b0 hinit0
        by_cases hcmp : jltD r.distance b0.distance = true
        · rw [if_pos hcmp] at h
          have hlt : qr < q0 := by
            rw [hqr, hq0] at hcmp
            simpa [jltD] using hcmp
          have hinit' : ∀ b1,
              (some (⟨r.path, r.distance, t.id, isRef⟩ : ExitResult α)) =
                some b1 → ∃ q1 : α, b1.distance = some q1 := by
            intro b1 hb1
            simp only [Option.some_inj] at hb1
            exact ⟨qr, by rw [← hb1]; exact hqr⟩
          obtain ⟨qb, hqb, horig, hinitmin, hts⟩ := ih _ hsome_ts hinit' b h
          have hqbqr : qb ≤ qr := hinitmin _ qr rfl hqr
          refine ⟨qb, hqb, ?_, ?_, ?_⟩
          · rcases horig with h' | ⟨t', ht', h'⟩
            · simp only [Option.some_inj] at h'
              refine Or.inr ⟨t, List.mem_cons_self _ _, ?_, ?_, ?_⟩
              · rw [← h']
              · rw [← h']
              · rw [← h', hd]
            · exact Or.inr ⟨t', List.mem_cons_of_mem _ ht', h'⟩
          · intro b1 q1 hb1 hq1
            simp only [Option.some_inj] at hb1
            subst hb1
            rw [hq0] at hq1
            simp only [Option.some_inj] at hq1
            subst hq1
            exact hqbqr.trans hlt.le
          · intro t' ht' r' q' hd' hq'
            rcases List.mem_cons.mp ht' with h' | h'
            · rw [h'] at hd'
              rw [hd'] at hd
              simp only [Option.some_inj] at hd
              subst hd
              rw [hqr] at hq'
              simp only [Option.some_inj] at hq'
              rw [← hq']
              exact hqbqr
            · exact hts t' h' r' q' hd' hq'
        · rw [if_neg hcmp] at h
          have hge : q0 ≤ qr := by
            rw [hqr, hq0] at hcmp
            simpa [jltD, not_lt] using hcmp
          obtain ⟨qb, hqb, horig, hinitmin, hts⟩ := ih _ hsome_ts
            (fun b1 hb1 => by
              simp only [Option.some_inj] at hb1
              exact ⟨q0, by rw [← hb1]; exact hq0⟩) b h
          have hqbq0 : qb ≤ q0 := hinitmin b0 q0 rfl hq0
          refine ⟨qb, hqb, ?_, ?_, ?_⟩
          · rcases horig with h' | ⟨t', ht', h'⟩
            · exact Or.inl h'
            · exact Or.inr ⟨t', List.mem_cons_of_mem _ ht', h'⟩
          · intro b1 q1 hb1 hq1
            simp only [Option.some_inj] at hb1
            subst hb1
            rw [hq0] at hq1
            simp only [Option.some_inj] at hq1
            subst hq1
            exact hqbq0
          · intro t' ht' r' q' hd' hq'
            rcases List.mem_cons.mp ht' with h' | h'
            · rw [h'] at hd'
              rw [hd'] at hd
              simp only [Option.some_inj] at hd
              subst hd
              rw [hqr] at hq'
              simp only [Option.some_inj] at hq'
              rw [← hq']
              exact hqbq0.trans hge
            · exact hts t' h' r' q' hd' hq'

end ScanLemmas

section ExitLemmas

variable {α : Type} [LinearOrderedAddCommGroup α]

theorem scan_opt (s : String) (nodes : List (Node α)) (edges : List Edge)
    (wm : Bool) (blocked : List BlockedEdge) (w : Node α → Node α → α)
    (isRef : Bool) (ty : String)
    (hw0 : ∀ a b : Node α, 0 ≤ w a b)
    (hws : ∀ a b : Node α, w a b = w b a)
    (hids : ∀ n ∈ nodes, n.id ≠ "")
    (hex : ∃ n ∈ nodes, n.type = ty ∧ Reach nodes edges wm blocked s n.id) :
    ∃ b : ExitResult α,
      scanTargets s nodes edges wm blocked w isRef
        (nodes.filter fun n => n.type = ty) none = some b ∧
      b.isRefuge = isRef ∧
      (∃ n ∈ nodes, n.type = ty ∧ b.targetId = n.id ∧
        dijkstra s n.id nodes edges wm blocked w =
          some ⟨b.path, b.distance⟩) ∧
      ∃ qb : α, b.distance = some qb ∧
        ValidPath nodes edges wm blocked s b.targetId b.path ∧
        pathCost nodes w b.path = qb ∧
        ∀ m ∈ nodes, m.type = ty →
          ∀ p, ValidPath nodes edges wm blocked s m.id p →
            qb ≤ pathCost nodes w p := by
  obtain ⟨n, hn, hnty, hreach⟩ := hex
  have hnmem : n.id ∈ nodes.map Node.id := List.mem_map_of_mem _ hn
  obtain ⟨p0, hp0⟩ := hreach
  have hsmem : s ∈ nodes.map Node.id :=
    validPath_start_mem nodes edges wm blocked s n.id p0 hp0 (Or.inr hnmem)
  have hsne : s ≠ "" := ids_ne_empty nodes hids s hsmem
  have hntarget : n ∈ nodes.filter (fun m => m.type = ty) := by
    rw [List.mem_filter]
    exact ⟨hn, by simp [hnty]⟩
  have hsome : ∀ t ∈ nodes.filter (fun m => m.type = ty),
      ∀ r : RouteResult α,
      dijkstra s t.id nodes edges wm blocked w = some r →
      ∃ q : α, r.distance = some q := by
    intro t ht r hr
    rw [List.mem_filter] at ht
    obtain ⟨q, hq, _⟩ := (dijkstra_some_props s t.id nodes edges wm blocked w
      hw0 hws hids hsne (List.mem_map_of_mem _ ht.1) r hr).2
    exact ⟨q, hq⟩
  obtain ⟨r0, hr0, _⟩ := dijkstra_optimal s n.id nodes edges wm blocked w
    hw0 hws hids hsmem hnmem ⟨p0, hp0⟩
  cases hscan : scanTargets s nodes edges wm blocked w isRef
      (nodes.filter fun m => m.type = ty) none with
  | none =>
    exfalso
    rw [scanTargets_none_iff] at hscan
    have hcontra := hscan n hntarget
    rw [hr0] at hcontra
    exact absurd hcontra (by simp)
  | some b =>
    obtain ⟨qb, hqb, horig, _, hts⟩ := scanTargets_spec s nodes edges wm
      blocked w isRef _ none hsome (fun b0 h => by simp at h) b hscan
    rcases horig with h' | ⟨t, ht, hbt, hbref, hbd⟩
    · simp at h'
    rw [List.mem_filter] at ht
    have htty : t.type = ty := by simpa using ht.2
    obtain ⟨hvalid, q, hq, hcost, _⟩ := dijkstra_some_props s t.id nodes
      edges wm blocked w hw0 hws hids hsne (List.mem_map_of_mem _ ht.1)
      ⟨b.path, b.distance⟩ hbd
    have hq' : b.distance = some q := hq
    rw [hqb] at hq'
    have hqeq : qb = q := Option.some_inj.mp hq'
    refine ⟨b, rfl, hbref, ⟨t, ht.1, htty, hbt, hbd⟩, qb, hqb, ?_, ?_, ?_⟩
    · rw [hbt]
      exact hvalid
    · exact hcost.trans hqeq.symm
    · intro m hm hmty p hp
      have hmmem : m.id ∈ nodes.map Node.id := List.mem_map_of_mem _ hm
      obtain ⟨r', hr', hv', q', hq'', hc', hm'⟩ :=
        dijkstra_optimal s m.id nodes edges wm blocked w hw0 hws hids hsmem
          hmmem ⟨p, hp⟩
      have h1 : qb ≤ q' :=
        hts m (List.mem_filter.mpr ⟨hm, by simp [hmty]⟩) r' q' hr' hq''
      exact h1.trans (hm' p hp)

theorem findNearestExit_eq_match (s : String) (nodes : List (Node α))
    (edges : List Edge) (wm : Bool) (blocked : List BlockedEdge)
    (w : Node α → Node α → α) :
    findNearestExit s nodes edges wm blocked w =
      match scanTargets s nodes edges wm blocked w false
          (nodes.filter fun n => n.type = "exit") none with
      | some b => some b
      | none =>
          if wm then
            scanTargets s nodes edges wm blocked w true
              (nodes.filter fun n => n.type = "refuge") none
          else none := rfl

theorem findNearestExit_of_exit_scan (s : String) (nodes : List (Node α))
    (edges : List Edge) (wm : Bool) (blocked : List BlockedEdge)
    (w : Node α → Node α → α) (b : ExitResult α)
    (h : scanTargets s nodes edges wm blocked w false
        (nodes.filter fun n => n.type = "exit") none = some b) :
    findNearestExit s nodes edges wm blocked w = some b := by
  rw [findNearestExit_eq_match, h]

theorem findNearestExit_of_no_exit_scan (s : String) (nodes : List (Node α))
    (edges : List Edge) (wm : Bool) (blocked : List BlockedEdge)
    (w : Node α → Node α → α)
    (h : scanTargets s nodes edges wm blocked w false
        (nodes.filter fun n => n.type = "exit") none = none) :
    findNearestExit s nodes edges wm blocked w =
      if wm then
        scanTargets s nodes edges wm blocked w true
          (nodes.filter fun n => n.type = "refuge") none
      else none := by
  rw [findNearestExit_eq_match, h]

theorem findNearestExit_exit_opt (s : String) (nodes : List (Node α))
    (edges : List Edge) (wm : Bool) (blocked : List BlockedEdge)
    (w : Node α → Node α → α)
    (hw0 : ∀ a b : Node α, 0 ≤ w a b)
    (hws : ∀ a b : Node α, w a b = w b a)
    (hids : ∀ n ∈ nodes, n.id ≠ "")
    (hex : ∃ n ∈ nodes, n.type = "exit" ∧
      Reach nodes edges wm blocked s n.id) :
    ∃ b : ExitResult α, findNearestExit s nodes edges wm blocked w = some b ∧
      b.isRefuge = false ∧
      (∃ n ∈ nodes, n.type = "exit" ∧ b.targetId = n.id ∧
        dijkstra s n.id nodes edges wm blocked w =
          some ⟨b.path, b.distance⟩) ∧
      ∃ qb : α, b.distance = some qb ∧
        ValidPath nodes edges wm blocked s b.targetId b.path ∧
        pathCost nodes w b.path = qb ∧
        ∀ m ∈ nodes, m.type = "exit" →
          ∀ p, ValidPath nodes edges wm blocked s m.id p →
            qb ≤ pathCost nodes w p := by
  obtain ⟨b, hscan, hrest⟩ := scan_opt s nodes edges wm blocked w false
    "exit" hw0 hws hids hex
  exact ⟨b, findNearestExit_of_exit_scan s nodes edges wm blocked w b hscan,
    hrest⟩

theorem exit_scan_none_of_unreach (s : String) (nodes : List (Node α))
    (edges : List Edge) (wm : Bool) (blocked : List BlockedEdge)
    (w : Node α → Node α → α) (isRef : Bool) (ty : String)
    (hunreach : ∀ n ∈ nodes, n.type = ty →
      ¬ Reach nodes edges wm blocked s n.id) :
    scanTargets s nodes edges wm blocked w isRef
      (nodes.filter fun n => n.type = ty) none = none := by
  rw [scanTargets_none_iff]
  intro t ht
  rw [List.mem_filter] at ht
  have htty : t.type = ty := by simpa using ht.2
  exact dijkstra_unreachable s t.id nodes edges wm blocked w
    (List.mem_map_of_mem _ ht.1) (hunreach t ht.1 htty)

theorem findNearestExit_noexit (s : String) (nodes : List (Node α))
    (edges : List Edge) (wm : Bool) (blocked : List BlockedEdge)
    (w : Node α → Node α → α)
    (hnoexit : ∀ n ∈ nodes, n.type = "exit" →
      ¬ Reach nodes edges wm blocked s n.id) :
    (wm = false → findNearestExit s nodes edges wm blocked w = none) ∧
    ((∀ n ∈ nodes, n.type = "refuge" →
        ¬ Reach nodes edges wm blocked s n.id) →
      findNearestExit s nodes edges wm blocked w = none) ∧
    (wm = true →
      (∀ a b : Node α, 0 ≤ w a b) →
      (∀ a b : Node α, w a b = w b a) →
      (∀ n ∈ nodes, n.id ≠ "") →
      (∃ n ∈ nodes, n.type = "refuge" ∧
        Reach nodes edges wm blocked s n.id) →
      ∃ b : ExitResult α,
        findNearestExit s nodes edges wm blocked w = some b ∧
        b.isRefuge = true ∧
        (∃ n ∈ nodes, n.type = "refuge" ∧ b.targetId = n.id ∧
          dijkstra s n.id nodes edges wm blocked w =
            some ⟨b.path, b.distance⟩) ∧
        ∃ qb : α, b.distance = some qb ∧
          ValidPath nodes edges wm blocked s b.targetId b.path ∧
          pathCost nodes w b.path = qb ∧
          ∀ m ∈ nodes, m.type = "refuge" →
            ∀ p, ValidPath nodes edges wm blocked s m.id p →
              qb ≤ pathCost nodes w p) := by
  have hexitscan := exit_scan_none_of_unreach s nodes edges wm blocked w
    false "exit" hnoexit
  have hmain := findNearestExit_of_no_exit_scan s nodes edges wm blocked w
    hexitscan
  refine ⟨?_, ?_, ?_⟩
  · intro hwm
    subst hwm
    rw [hmain]
    simp
  · intro hnorefuge
    rw [hmain]
    have hrefugescan := exit_scan_none_of_unreach s nodes edges wm blocked w
      true "refuge" hnorefuge
    rw [hrefugescan]
    cases wm <;> simp
  · intro hwm hw0 hws hids hex
    subst hwm
    obtain ⟨b, hscan, hrest⟩ := scan_opt s nodes edges true blocked w true
      "refuge" hw0 hws hids hex
    refine ⟨b, ?_, hrest⟩
    rw [hmain, if_pos rfl, hscan]

theorem findNearestExit_isRefuge_false (s : String) (nodes : List (Node α))
    (edges : List Edge) (blocked : List BlockedEdge)
    (w : Node α → Node α → α) (b : ExitResult α)
    (h : findNearestExit s nodes edges false blocked w = some b) :
    b.isRefuge = false := by
  cases hscan : scanTargets s nodes edges false blocked w false
      (nodes.filter fun n => n.type = "exit") none with
  | none =>
    rw [findNearestExit_of_no_exit_scan s nodes edges false blocked w hscan]
      at h
    simp at h
  | some b' =>
    rw [findNearestExit_of_exit_scan s nodes edges false blocked w b' hscan]
      at h
    simp only [Option.some_inj] at h
    subst h
    rcases scanTargets_isRef s nodes edges false blocked w false _ none b'
      hscan with h' | h'
    · exact h'
    · simp at h'

end ExitLemmas

/-! ## Helper lemmas for the claim theorems -/

section ClaimHelpers

theorem pinned_weight_nonneg (w : Node ℝ → Node ℝ → ℝ)
    (hw : ∀ a b : Node ℝ, 0 ≤ w a b ∧
      w a b ^ 2 = (a.x - b.x) ^ 2 + (a.y - b.y) ^ 2) :
    ∀ a b : Node ℝ, 0 ≤ w a b := fun a b => (hw a b).1

theorem pinned_weight_symm (w : Node ℝ → Node ℝ → ℝ)
    (hw : ∀ a b : Node ℝ, 0 ≤ w a b ∧
      w a b ^ 2 = (a.x - b.x) ^ 2 + (a.y - b.y) ^ 2) :
    ∀ a b : Node ℝ, w a b = w b a := by
  intro a b
  calc w a b = Real.sqrt (w a b ^ 2) := (Real.sqrt_sq (hw a b).1).symm
    _ = Real.sqrt (w b a ^ 2) := by
        rw [(hw a b).2, (hw b a).2]
        congr 1
        ring
    _ = w b a := Real.sqrt_sq (hw b a).1

end ClaimHelpers

section IsoHelpers

variable {α : Type} [LinearOrderedAddCommGroup α]

theorem not_reach_of_isolated_source (nodes : List (Node α))
    (edges : List Edge) (wm : Bool) (blocked : List BlockedEdge)
    (e t : String) (hne : e ≠ t)
    (hiso : ∀ x, survivingStep nodes edges wm blocked e x = false) :
    ¬ Reach nodes edges wm blocked e t := by
  rintro ⟨p, hp0, hhead, hlast, hchain⟩
  cases p with
  | nil => exact hp0 rfl
  | cons a rest =>
    have ha : a = e := by simpa using hhead
    subst ha
    cases rest with
    | nil => exact hne (by simpa using hlast)
    | cons b rest' =>
      have hstep := (List.chain'_cons.mp hchain).1
      rw [hiso b] at hstep
      exact Bool.false_ne_true hstep

theorem not_reach_of_isolated_target (nodes : List (Node α))
    (edges : List Edge) (wm : Bool) (blocked : List BlockedEdge)
    (s e : String) (hne : s ≠ e)
    (hiso : ∀ x, survivingStep nodes edges wm blocked e x = false) :
    ¬ Reach nodes edges wm blocked s e := by
  rintro ⟨p, hp0, hhead, hlast, hchain⟩
  have hchain' : List.Chain' (flip fun a b =>
      survivingStep nodes edges wm blocked a b = true) p.reverse := by
    rw [List.chain'_reverse]
    exact hchain
  cases hq : p.reverse with
  | nil => exact hp0 (List.reverse_eq_nil_iff.mp hq)
  | cons a rest =>
    have hlast' : p.reverse.head? = some e := by
      rw [List.head?_reverse]
      exact hlast
    rw [hq] at hlast'
    have ha : a = e := by simpa using hlast'
    subst ha
    rw [hq] at hchain'
    cases rest with
    | nil =>
      have hpe : p = [a] := by
        have := congrArg List.reverse hq
        rwa [List.reverse_reverse] at this
      rw [hpe] at hhead
      have : a = s := by simpa using hhead
      exact hne (this ▸ rfl)
    | cons b rest' =>
      have hstep := (List.chain'_cons.mp hchain').1
      have hsym := survivingStep_symm nodes edges wm blocked b a hstep
      rw [hiso b] at hsym
      exact Bool.false_ne_true hsym

end IsoHelpers

section ManeuverHelpers

variable {α : Type} [LinearOrderedField α]

theorem maneuver_cases (cross dot : α) :
    (classifyType (turnText cross) = "left" ↔ 1 / 2 < cross) ∧
    (classifyType (turnText cross) = "right" ↔ cross < -1 / 2) ∧
    (¬ 1 / 2 < cross → ¬ cross < -1 / 2 →
      classifyType (turnText cross) = "straight") ∧
    (voiceManeuver cross dot = "left" ↔ 1 / 2 < cross) ∧
    (voiceManeuver cross dot = "right" ↔ cross < -1 / 2) ∧
    (¬ 1 / 2 < cross → ¬ cross < -1 / 2 →
      voiceManeuver cross dot = "straight") ∧
    (|cross| < 1 / 2 → dot ≤ 0 → voiceManeuver cross dot = "straight") := by
  by_cases hL : 1 / 2 < cross
  · have h0 : (0 : α) < cross := lt_trans (by positivity) hL
    have habs : |cross| = cross := abs_of_pos h0
    have hgt : 1 / 2 < |cross| := by
      rw [habs]
      exact hL
    have hnR : ¬ cross < -1 / 2 := by
      intro h
      have h2 : (0 : α) < 1 / 2 := by positivity
      linarith
    have ht : turnText cross = "Turn left" := by
      unfold turnText
      rw [if_pos hgt, if_pos h0]
    have hv : voiceManeuver cross dot = "left" := by
      unfold voiceManeuver
      rw [if_neg, if_pos hL]
      rintro ⟨habs', _⟩
      exact absurd habs' (not_lt.mpr hgt.le)
    rw [ht, hv]
    refine ⟨?_, ?_, ?_, ?_, ?_, ?_, ?_⟩
    · exact iff_of_true (by decide) hL
    · exact iff_of_false (by decide) hnR
    · intro h _
      exact absurd hL h
    · exact iff_of_true rfl hL
    · exact iff_of_false (by decide) hnR
    · intro h _
      exact absurd hL h
    · intro habs' _
      exact absurd hgt (not_lt.mpr habs'.le)
  · by_cases hR : cross < -1 / 2
    · have h0 : cross < 0 := by
        have h2 : (0 : α) < 1 / 2 := by positivity
        linarith
      have habs : |cross| = -cross := abs_of_neg h0
      have hgt : 1 / 2 < |cross| := by
        rw [habs]
        linarith
      have ht : turnText cross = "Turn right" := by
        unfold turnText
        rw [if_pos hgt, if_neg (not_lt.mpr h0.le)]
      have hv : voiceManeuver cross dot = "right" := by
        unfold voiceManeuver
        rw [if_neg, if_neg hL, if_pos hR]
        rintro ⟨habs', _⟩
        exact absurd habs' (not_lt.mpr hgt.le)
      rw [ht, hv]
      refine ⟨?_, ?_, ?_, ?_, ?_, ?_, ?_⟩
      · exact iff_of_false (by decide) hL
      · exact iff_of_true (by decide) hR
      · intro _ h
        exact absurd hR h
      · exact iff_of_false (by decide) hL
      · exact iff_of_true rfl hR
      · intro _ h
        exact absurd hR h
      · intro habs' _
        exact absurd hgt (not_lt.mpr habs'.le)
    · have hle : |cross| ≤ 1 / 2 :=
        abs_le.mpr ⟨by linarith [not_lt.mp hR], not_lt.mp hL⟩
      have hnot : ¬ 1 / 2 < |cross| := not_lt.mpr hle
      have ht : turnText cross = "Continue straight" := by
        unfold turnText
        rw [if_neg hnot]
      have hv : voiceManeuver cross dot = "straight" := by
        unfold voiceManeuver
        by_cases hc : |cross| < 1 / 2 ∧ dot > 0
        · rw [if_pos hc]
        · rw [if_neg hc, if_neg hL, if_neg hR]
      rw [ht, hv]
      refine ⟨?_, ?_, ?_, ?_, ?_, ?_, ?_⟩
      · exact iff_of_false (by decide) hL
      · exact iff_of_false (by decide) hR
      · intro _ _
        decide
      · exact iff_of_false (by decide) hL
      · exact iff_of_false (by decide) hR
      · intro _ _
        rfl
      · intro _ _
        rfl

theorem turnText_ne_empty (cross : α) : turnText cross ≠ "" := by
  unfold turnText
  by_cases h1 : 1 / 2 < |cross|
  · rw [if_pos h1]
    by_cases h2 : 0 < cross
    · rw [if_pos h2]
      decide
    · rw [if_neg h2]
      decide
  · rw [if_neg h1]
    decide

theorem classifyType_empty : classifyType "" = "straight" := by decide

end ManeuverHelpers

section GenStepsHelpers

variable {α : Type} [LinearOrderedField α]

theorem genSteps_two (nodes : List (Node α)) (fmt : α → String)
    (a b : String) (pa pb : Node α)
    (ha : nodeMapFind nodes a = some pa)
    (hb : nodeMapFind nodes b = some pb) :
    genSteps nodes fmt [a, b] =
      [⟨s!"Arrive at {jsLabel pb}",
        fmt ((pb.x - pa.x) * (pb.x - pa.x) + (pb.y - pa.y) * (pb.y - pa.y)),
        "arrive"⟩] := by
  simp only [genSteps, ha, hb, if_true, List.append_nil]

theorem genSteps_interior_some (nodes : List (Node α)) (fmt : α → String)
    (a b c : String) (rest : List String) (pa pb pc : Node α)
    (ha : nodeMapFind nodes a = some pa)
    (hb : nodeMapFind nodes b = some pb)
    (hc : nodeMapFind nodes c = some pc) :
    genSteps nodes fmt (a :: b :: c :: rest) =
      ⟨s!"{turnText ((pb.x - pa.x) * (pc.y - pb.y) - (pb.y - pa.y) * (pc.x - pb.x))} at {jsLabel pb}",
        fmt ((pb.x - pa.x) * (pb.x - pa.x) + (pb.y - pa.y) * (pb.y - pa.y)),
        classifyType (turnText
          ((pb.x - pa.x) * (pc.y - pb.y) - (pb.y - pa.y) * (pc.x - pb.x)))⟩ ::
      genSteps nodes fmt (b :: c :: rest) := by
  have hturn := turnText_ne_empty
    ((pb.x - pa.x) * (pc.y - pb.y) - (pb.y - pa.y) * (pc.x - pb.x))
  simp only [genSteps, ha, hb, hc, if_neg (List.cons_ne_nil c rest),
    if_pos hturn, List.singleton_append]

theorem genSteps_interior_none (nodes : List (Node α)) (fmt : α → String)
    (a b c : String) (rest : List String) (pa pb : Node α)
    (ha : nodeMapFind nodes a = some pa)
    (hb : nodeMapFind nodes b = some pb)
    (hc : nodeMapFind nodes c = none) :
    genSteps nodes fmt (a :: b :: c :: rest) =
      ⟨s!"Head {headDirection (pb.x - pa.x) (pb.y - pa.y)} — {fmt ((pb.x - pa.x) * (pb.x - pa.x) + (pb.y - pa.y) * (pb.y - pa.y))}m",
        fmt ((pb.x - pa.x) * (pb.x - pa.x) + (pb.y - pa.y) * (pb.y - pa.y)),
        "straight"⟩ ::
      genSteps nodes fmt (b :: c :: rest) := by
  simp only [genSteps, ha, hb, hc, if_neg (List.cons_ne_nil c rest),
    List.singleton_append]
  rw [if_neg (fun h => h rfl), classifyType_empty]

end GenStepsHelpers

section GenDirHelpers

variable {α : Type} [LinearOrderedField α]

theorem generateDirections_cons (nodes : List (Node α)) (fmt : α → String)
    (a b : String) (rest : List String) :
    generateDirections (a :: b :: rest) nodes fmt =
      genSteps nodes fmt (a :: b :: rest) := by
  unfold generateDirections
  rw [if_neg (by simp)]

end GenDirHelpers

/-! ## The claim theorems -/

/-- C2: every pair of consecutive nodes in a path returned by `dijkstra` is
joined by an edge of the edge list that survives both filters: it is not
skipped by wheelchair mode (its `accessible` flag holds when the mode is on)
and it matches no blocked-edge entry in either direction — `survivingStep`
states exactly that an edge of the list with `edgeKept` true joins the two
ids. -/
theorem C2_no_filtered_edge {α : Type} [LinearOrderedAddCommGroup α]
    (startId endId : String) (nodes : List (Node α)) (edges : List Edge)
    (wheelchairMode : Bool) (blockedEdges : List BlockedEdge)
    (w : Node α → Node α → α) (r : RouteResult α)
    (h : dijkstra startId endId nodes edges wheelchairMode blockedEdges w =
      some r) :
    List.Chain' (fun a b =>
      survivingStep nodes edges wheelchairMode blockedEdges a b = true)
      r.path :=
  dijkstra_chain startId endId nodes edges wheelchairMode blockedEdges w r h

/-- Witness for C2 at a concrete two-node graph. -/
theorem C2_witness :
    List.Chain' (fun a b =>
      survivingStep wtLineNodes wtLineEdges false [] a b = true)
      (RouteResult.path (α := ℤ) ⟨["A", "B"], some 3⟩) :=
  C2_no_filtered_edge "A" "B" wtLineNodes wtLineEdges false [] wTaxi
    ⟨["A", "B"], some 3⟩ (by decide)

/-- C5: with both endpoints present and distinct, an unreachable target makes
`dijkstra` evaluate to the explicit no-result value `none`; in particular a
node all of whose incident edges are filtered out or blocked (no surviving
step touches it) yields `none` both as target and as start. -/
theorem C5_unreachable_null {α : Type} [LinearOrderedAddCommGroup α]
    (startId endId : String) (nodes : List (Node α)) (edges : List Edge)
    (wheelchairMode : Bool) (blockedEdges : List BlockedEdge)
    (w : Node α → Node α → α)
    (hs : startId ∈ nodes.map Node.id) (he : endId ∈ nodes.map Node.id)
    (hne : startId ≠ endId) :
    (¬ Reach nodes edges wheelchairMode blockedEdges startId endId →
      dijkstra startId endId nodes edges wheelchairMode blockedEdges w =
        none) ∧
    ((∀ x, survivingStep nodes edges wheelchairMode blockedEdges endId x =
        false) →
      dijkstra startId endId nodes edges wheelchairMode blockedEdges w =
        none ∧
      dijkstra endId startId nodes edges wheelchairMode blockedEdges w =
        none) := by
  refine ⟨fun hunreach => dijkstra_unreachable startId endId nodes edges
    wheelchairMode blockedEdges w he hunreach, fun hiso => ⟨?_, ?_⟩⟩
  · exact dijkstra_unreachable startId endId nodes edges wheelchairMode
      blockedEdges w he
      (not_reach_of_isolated_target nodes edges wheelchairMode blockedEdges
        startId endId hne hiso)
  · exact dijkstra_unreachable endId startId nodes edges wheelchairMode
      blockedEdges w hs
      (not_reach_of_isolated_source nodes edges wheelchairMode blockedEdges
        endId startId (fun hh => hne hh.symm) hiso)

/-- Witness for C5: node `I` is joined to `A` only by a blocked edge. -/
theorem C5_witness :
    (¬ Reach wtIsoNodes wtIsoEdges false wtIsoBlocked "A" "I" →
      dijkstra "A" "I" wtIsoNodes wtIsoEdges false wtIsoBlocked wTaxi =
        none) ∧
    ((∀ x, survivingStep wtIsoNodes wtIsoEdges false wtIsoBlocked "I" x =
        false) →
      dijkstra "A" "I" wtIsoNodes wtIsoEdges false wtIsoBlocked wTaxi =
        none ∧
      dijkstra "I" "A" wtIsoNodes wtIsoEdges false wtIsoBlocked wTaxi =
        none) :=
  C5_unreachable_null "A" "I" wtIsoNodes wtIsoEdges false wtIsoBlocked wTaxi
    (by decide) (by decide) (by decide)

/-- C6 (amended: the start id must also be a nonempty string, because the
source's `while (current)` walk stops on the falsy empty string and drops it
from the path): a query from a node to itself returns the single-node path
with distance `0`. -/
theorem C6_self_route {α : Type} [LinearOrderedAddCommGroup α]
    (s : String) (nodes : List (Node α)) (edges : List Edge)
    (wheelchairMode : Bool) (blockedEdges : List BlockedEdge)
    (w : Node α → Node α → α)
    (hmem : s ∈ nodes.map Node.id) (hne : s ≠ "") :
    dijkstra s s nodes edges wheelchairMode blockedEdges w =
      some ⟨[s], some 0⟩ :=
  dijkstra_self s nodes edges wheelchairMode blockedEdges w hne

/-- Witness for C6 at a concrete two-node graph. -/
theorem C6_witness :
    dijkstra "A" "A" wtLineNodes wtLineEdges false [] wTaxi =
      some ⟨["A"], some 0⟩ :=
  C6_self_route "A" wtLineNodes wtLineEdges false [] wTaxi (by decide)
    (by decide)

/-- C6 counterexample to the unamended claim: a node whose id is the empty
string is in the node list, yet the self-query returns the empty path, not
the single-node path. -/
theorem C6_counterexample :
    "" ∈ cxEmptySelf.map Node.id ∧
    dijkstra "" "" cxEmptySelf [] false [] wTaxi = some ⟨[], some 0⟩ ∧
    dijkstra "" "" cxEmptySelf [] false [] wTaxi ≠ some ⟨[""], some 0⟩ := by
  decide

/-- C9: the static building dataset has pairwise-distinct node ids, and
every edge endpoint references an id of the node list. -/
theorem C9_data_integrity :
    (NODES.map Node.id).Nodup ∧
    ∀ e ∈ EDGES, e.from ∈ NODES.map Node.id ∧ e.to ∈ NODES.map Node.id := by
  decide

/-- C10: an `endId` that is a nonempty string absent from the node list and
different from `startId` does not produce the no-result value: the missing
distance entry (JavaScript `undefined`) is not `Infinity`, so the result is
the one-element path `[endId]` with an undefined distance. -/
theorem C10_invalid_end_result {α : Type} [LinearOrderedAddCommGroup α]
    (startId endId : String) (nodes : List (Node α)) (edges : List Edge)
    (wheelchairMode : Bool) (blockedEdges : List BlockedEdge)
    (w : Node α → Node α → α)
    (hne : endId ≠ "") (habsent : endId ∉ nodes.map Node.id)
    (hdiff : endId ≠ startId) :
    dijkstra startId endId nodes edges wheelchairMode blockedEdges w =
      some ⟨[endId], none⟩ :=
  dijkstra_invalid_end startId endId nodes edges wheelchairMode blockedEdges
    w hne habsent hdiff

/-- Witness for C10: querying the absent id `Z`. -/
theorem C10_witness :
    dijkstra "A" "Z" wtLineNodes wtLineEdges false [] wTaxi =
      some ⟨["Z"], none⟩ :=
  C10_invalid_end_result "A" "Z" wtLineNodes wtLineEdges false [] wTaxi
    (by decide) (by decide) (by decide)

/-- C1 (amended: node ids must be nonempty strings, because the source's
`if (!minNode ...)` break treats the empty-string id as the "no node" value):
with the edge weight pinned to the Euclidean distance of the endpoints'
coordinates, both endpoints present and the target reachable through the
accessibility and blocked-edge filters, `dijkstra` returns a result whose
path runs from start to target along surviving edges and whose distance is
the minimal total weight over all surviving paths. -/
theorem C1_dijkstra_euclid_optimal (startId endId : String)
    (nodes : List (Node ℝ)) (edges : List Edge) (wheelchairMode : Bool)
    (blockedEdges : List BlockedEdge) (w : Node ℝ → Node ℝ → ℝ)
    (hw : ∀ a b : Node ℝ, 0 ≤ w a b ∧
      w a b ^ 2 = (a.x - b.x) ^ 2 + (a.y - b.y) ^ 2)
    (hids : ∀ n ∈ nodes, n.id ≠ "")
    (hs : startId ∈ nodes.map Node.id) (he : endId ∈ nodes.map Node.id)
    (hreach : Reach nodes edges wheelchairMode blockedEdges startId endId) :
    ∃ r : RouteResult ℝ,
      dijkstra startId endId nodes edges wheelchairMode blockedEdges w =
        some r ∧
      ValidPath nodes edges wheelchairMode blockedEdges startId endId
        r.path ∧
      ∃ q : ℝ, r.distance = some q ∧ pathCost nodes w r.path = q ∧
        ∀ p, ValidPath nodes edges wheelchairMode blockedEdges startId endId
          p → q ≤ pathCost nodes w p :=
  dijkstra_optimal startId endId nodes edges wheelchairMode blockedEdges w
    (pinned_weight_nonneg w hw) (pinned_weight_symm w hw) hids hs he hreach

/-- Witness for C1: the Euclidean weight on a concrete two-node line. -/
theorem C1_witness :
    ∃ r : RouteResult ℝ,
      dijkstra "A" "B" wtLineNodesR wtLineEdges false []
        (fun a b => Real.sqrt ((a.x - b.x) ^ 2 + (a.y - b.y) ^ 2)) =
        some r ∧
      ValidPath wtLineNodesR wtLineEdges false [] "A" "B" r.path ∧
      ∃ q : ℝ, r.distance = some q ∧
        pathCost wtLineNodesR
          (fun a b => Real.sqrt ((a.x - b.x) ^ 2 + (a.y - b.y) ^ 2))
          r.path = q ∧
        ∀ p, ValidPath wtLineNodesR wtLineEdges false [] "A" "B" p →
          q ≤ pathCost wtLineNodesR
            (fun a b => Real.sqrt ((a.x - b.x) ^ 2 + (a.y - b.y) ^ 2)) p :=
  C1_dijkstra_euclid_optimal "A" "B" wtLineNodesR wtLineEdges false [] _
    (fun a b => ⟨Real.sqrt_nonneg _, Real.sq_sqrt (by positivity)⟩)
    (by decide) (by decide) (by decide) ⟨["A", "B"], by decide⟩

/-- C1 counterexample to the unamended claim: both endpoints are present and
a surviving path exists, yet `dijkstra` returns no result, because the
intermediate node's id is the empty string (axis-aligned coordinates make
`wTaxi` the Euclidean distance here). -/
theorem C1_counterexample :
    "A" ∈ cxEmptyNodes.map Node.id ∧ "B" ∈ cxEmptyNodes.map Node.id ∧
    ValidPath cxEmptyNodes cxEmptyEdges false [] "A" "B" ["A", "", "B"] ∧
    dijkstra "A" "B" cxEmptyNodes cxEmptyEdges false [] wTaxi = none := by
  decide

/-- C3 (amended: node ids must be nonempty strings): when an exit is
reachable, `findNearestExit` returns a non-refuge result naming an exit,
with path and distance exactly dijkstra's result for that exit, and its
distance is minimal among the surviving-path costs to every exit. -/
theorem C3_nearest_exit_optimal (startId : String) (nodes : List (Node ℝ))
    (edges : List Edge) (wheelchairMode : Bool)
    (blockedEdges : List BlockedEdge) (w : Node ℝ → Node ℝ → ℝ)
    (hw : ∀ a b : Node ℝ, 0 ≤ w a b ∧
      w a b ^ 2 = (a.x - b.x) ^ 2 + (a.y - b.y) ^ 2)
    (hids : ∀ n ∈ nodes, n.id ≠ "")
    (hex : ∃ n ∈ nodes, n.type = "exit" ∧
      Reach nodes edges wheelchairMode blockedEdges startId n.id) :
    ∃ b : ExitResult ℝ,
      findNearestExit startId nodes edges wheelchairMode blockedEdges w =
        some b ∧
      b.isRefuge = false ∧
      (∃ n ∈ nodes, n.type = "exit" ∧ b.targetId = n.id ∧
        dijkstra startId n.id nodes edges wheelchairMode blockedEdges w =
          some ⟨b.path, b.distance⟩) ∧
      ∃ qb : ℝ, b.distance = some qb ∧
        ValidPath nodes edges wheelchairMode blockedEdges startId
          b.targetId b.path ∧
        pathCost nodes w b.path = qb ∧
        ∀ m ∈ nodes, m.type = "exit" →
          ∀ p, ValidPath nodes edges wheelchairMode blockedEdges startId
            m.id p → qb ≤ pathCost nodes w p :=
  findNearestExit_exit_opt startId nodes edges wheelchairMode blockedEdges w
    (pinned_weight_nonneg w hw) (pinned_weight_symm w hw) hids hex

/-- Witness for C3: a single exit at Euclidean distance 3. -/
theorem C3_witness :
    ∃ b : ExitResult ℝ,
      findNearestExit "S" wtExitNodesR wtExitEdgesSE false []
        (fun a b => Real.sqrt ((a.x - b.x) ^ 2 + (a.y - b.y) ^ 2)) =
        some b ∧
      b.isRefuge = false ∧
      (∃ n ∈ wtExitNodesR, n.type = "exit" ∧ b.targetId = n.id ∧
        dijkstra "S" n.id wtExitNodesR wtExitEdgesSE false []
          (fun a b => Real.sqrt ((a.x - b.x) ^ 2 + (a.y - b.y) ^ 2)) =
          some ⟨b.path, b.distance⟩) ∧
      ∃ qb : ℝ, b.distance = some qb ∧
        ValidPath wtExitNodesR wtExitEdgesSE false [] "S" b.targetId
          b.path ∧
        pathCost wtExitNodesR
          (fun a b => Real.sqrt ((a.x - b.x) ^ 2 + (a.y - b.y) ^ 2))
          b.path = qb ∧
        ∀ m ∈ wtExitNodesR, m.type = "exit" →
          ∀ p, ValidPath wtExitNodesR wtExitEdgesSE false [] "S" m.id p →
            qb ≤ pathCost wtExitNodesR
              (fun a b => Real.sqrt ((a.x - b.x) ^ 2 + (a.y - b.y) ^ 2))
              p :=
  C3_nearest_exit_optimal "S" wtExitNodesR wtExitEdgesSE false [] _
    (fun a b => ⟨Real.sqrt_nonneg _, Real.sq_sqrt (by positivity)⟩)
    (by decide)
    ⟨⟨"E", 3, 0, "exit", true, none⟩,
      List.mem_cons_of_mem _ (List.mem_cons_self _ _), rfl,
      ⟨["S", "E"], by decide⟩⟩

/-- C3 counterexample to the unamended claim: the only exit is reachable
through an intermediate node whose id is the empty string, yet
`findNearestExit` returns no result. -/
theorem C3_counterexample :
    (∃ n ∈ cxExitNodes, n.type = "exit" ∧
      ValidPath cxExitNodes cxExitEdges' false [] "S" n.id
        ["S", "", n.id]) ∧
    findNearestExit "S" cxExitNodes cxExitEdges' false [] wTaxi = none := by
  decide

/-- C4 (amended: only the refuge-positive clause needs the extra
assumptions, stated as antecedents of that clause alone): unconditionally,
in non-wheelchair mode `findNearestExit` never returns a refuge result, and
when no exit is reachable it returns `none` in non-wheelchair mode and
`none` when no refuge is reachable either; in wheelchair mode, with the
weight pinned to the Euclidean distance and nonempty node ids, it returns
the minimum-distance reachable refuge marked `isRefuge = true`. -/
theorem C4_refuge_fallback (startId : String) (nodes : List (Node ℝ))
    (edges : List Edge) (wheelchairMode : Bool)
    (blockedEdges : List BlockedEdge) (w : Node ℝ → Node ℝ → ℝ) :
    (∀ b : ExitResult ℝ,
      findNearestExit startId nodes edges false blockedEdges w = some b →
      b.isRefuge = false) ∧
    ((∀ n ∈ nodes, n.type = "exit" →
        ¬ Reach nodes edges wheelchairMode blockedEdges startId n.id) →
      (wheelchairMode = false →
        findNearestExit startId nodes edges wheelchairMode blockedEdges w =
          none) ∧
      ((∀ n ∈ nodes, n.type = "refuge" →
          ¬ Reach nodes edges wheelchairMode blockedEdges startId n.id) →
        findNearestExit startId nodes edges wheelchairMode blockedEdges w =
          none) ∧
      (wheelchairMode = true →
        (∀ a b : Node ℝ, 0 ≤ w a b ∧
          w a b ^ 2 = (a.x - b.x) ^ 2 + (a.y - b.y) ^ 2) →
        (∀ n ∈ nodes, n.id ≠ "") →
        (∃ n ∈ nodes, n.type = "refuge" ∧
          Reach nodes edges wheelchairMode blockedEdges startId n.id) →
        ∃ b : ExitResult ℝ,
          findNearestExit startId nodes edges wheelchairMode blockedEdges
            w = some b ∧
          b.isRefuge = true ∧
          (∃ n ∈ nodes, n.type = "refuge" ∧ b.targetId = n.id ∧
            dijkstra startId n.id nodes edges wheelchairMode blockedEdges
              w = some ⟨b.path, b.distance⟩) ∧
          ∃ qb : ℝ, b.distance = some qb ∧
            ValidPath nodes edges wheelchairMode blockedEdges startId
              b.targetId b.path ∧
            pathCost nodes w b.path = qb ∧
            ∀ m ∈ nodes, m.type = "refuge" →
              ∀ p, ValidPath nodes edges wheelchairMode blockedEdges
                startId m.id p → qb ≤ pathCost nodes w p)) := by
  refine ⟨fun b h => findNearestExit_isRefuge_false startId nodes edges
    blockedEdges w b h, fun hnoexit => ?_⟩
  obtain ⟨h1, h2, h3⟩ := findNearestExit_noexit startId nodes edges
    wheelchairMode blockedEdges w hnoexit
  exact ⟨h1, h2, fun hwm hw hids hex => h3 hwm (pinned_weight_nonneg w hw)
    (pinned_weight_symm w hw) hids hex⟩

/-- C4 counterexample to the unamended claim: in wheelchair mode with no
exit anywhere, the only refuge is reachable through an intermediate node
whose id is the empty string, yet `findNearestExit` returns `none` rather
than that refuge. -/
theorem C4_counterexample :
    (∀ n ∈ cxRefugeNodes, n.type ≠ "exit") ∧
    (∃ n ∈ cxRefugeNodes, n.type = "refuge" ∧
      ValidPath cxRefugeNodes cxExitEdges true [] "S" n.id
        ["S", "", n.id]) ∧
    findNearestExit "S" cxRefugeNodes cxExitEdges true [] wTaxi = none := by
  decide

/-- C7: at an interior node both synthesizers classify the maneuver from the
incoming vector `d1` and outgoing vector `d2`: left exactly when the cross
product exceeds one half, right exactly when it is below minus one half, and
straight in every other case, including a small cross product with
non-positive dot product (near-reversal). -/
theorem C7_maneuver_classification {α : Type} [LinearOrderedField α]
    (d1x d1y d2x d2y : α) :
    (classifyType (turnText (d1x * d2y - d1y * d2x)) = "left" ↔
      1 / 2 < d1x * d2y - d1y * d2x) ∧
    (classifyType (turnText (d1x * d2y - d1y * d2x)) = "right" ↔
      d1x * d2y - d1y * d2x < -1 / 2) ∧
    (¬ 1 / 2 < d1x * d2y - d1y * d2x → ¬ d1x * d2y - d1y * d2x < -1 / 2 →
      classifyType (turnText (d1x * d2y - d1y * d2x)) = "straight") ∧
    (voiceManeuver (d1x * d2y - d1y * d2x) (d1x * d2x + d1y * d2y) =
        "left" ↔ 1 / 2 < d1x * d2y - d1y * d2x) ∧
    (voiceManeuver (d1x * d2y - d1y * d2x) (d1x * d2x + d1y * d2y) =
        "right" ↔ d1x * d2y - d1y * d2x < -1 / 2) ∧
    (¬ 1 / 2 < d1x * d2y - d1y * d2x → ¬ d1x * d2y - d1y * d2x < -1 / 2 →
      voiceManeuver (d1x * d2y - d1y * d2x) (d1x * d2x + d1y * d2y) =
        "straight") ∧
    (|d1x * d2y - d1y * d2x| < 1 / 2 → d1x * d2x + d1y * d2y ≤ 0 →
      voiceManeuver (d1x * d2y - d1y * d2x) (d1x * d2x + d1y * d2y) =
        "straight") :=
  maneuver_cases (d1x * d2y - d1y * d2x) (d1x * d2x + d1y * d2y)

/-- C8 (amended: `generateDirections` phrases the first hop of a length-2
path as an arrival, and of a longer path as "<turn> at <label>" whenever the
third node id resolves — the "Head <direction> — <distance>m" phrasing, with
dominant-axis direction and the rounded Euclidean hop length rendered by the
formatter, appears exactly when the third node id does not resolve. -/
theorem C8_first_hop {α : Type} [LinearOrderedField α]
    (nodes : List (Node α)) (fmt : α → String) (a b c : String)
    (rest : List String) (pa pb pc : Node α)
    (ha : nodeMapFind nodes a = some pa)
    (hb : nodeMapFind nodes b = some pb) :
    (nodeMapFind nodes c = some pc →
      generateDirections (a :: b :: c :: rest) nodes fmt =
        ⟨s!"{turnText ((pb.x - pa.x) * (pc.y - pb.y) - (pb.y - pa.y) * (pc.x - pb.x))} at {jsLabel pb}",
          fmt ((pb.x - pa.x) * (pb.x - pa.x) + (pb.y - pa.y) * (pb.y - pa.y)),
          classifyType (turnText ((pb.x - pa.x) * (pc.y - pb.y) - (pb.y - pa.y) * (pc.x - pb.x)))⟩ ::
        genSteps nodes fmt (b :: c :: rest)) ∧
    (∀ cr : α, turnText cr ≠ "") ∧
    (generateDirections [a, b] nodes fmt =
      [⟨s!"Arrive at {jsLabel pb}",
        fmt ((pb.x - pa.x) * (pb.x - pa.x) + (pb.y - pa.y) * (pb.y - pa.y)),
        "arrive"⟩]) ∧
    (nodeMapFind nodes c = none →
      generateDirections (a :: b :: c :: rest) nodes fmt =
        ⟨s!"Head {headDirection (pb.x - pa.x) (pb.y - pa.y)} — {fmt ((pb.x - pa.x) * (pb.x - pa.x) + (pb.y - pa.y) * (pb.y - pa.y))}m",
          fmt ((pb.x - pa.x) * (pb.x - pa.x) + (pb.y - pa.y) * (pb.y - pa.y)),
          "straight"⟩ ::
        genSteps nodes fmt (b :: c :: rest)) := by
  refine ⟨fun hc => ?_, turnText_ne_empty, ?_, fun hc => ?_⟩
  · rw [generateDirections_cons,
      genSteps_interior_some nodes fmt a b c rest pa pb pc ha hb hc]
  · rw [generateDirections_cons, genSteps_two nodes fmt a b pa pb ha hb]
  · rw [generateDirections_cons,
      genSteps_interior_none nodes fmt a b c rest pa pb ha hb hc]

/-- Witness for C8 on the concrete collinear three-node line. -/
theorem C8_witness :
    (nodeMapFind cxDirNodes "C" = some cxDirC →
      generateDirections ["A", "B", "C"] cxDirNodes cxDirFmt =
        ⟨s!"{turnText ((cxDirB.x - cxDirA.x) * (cxDirC.y - cxDirB.y) - (cxDirB.y - cxDirA.y) * (cxDirC.x - cxDirB.x))} at {jsLabel cxDirB}",
          cxDirFmt ((cxDirB.x - cxDirA.x) * (cxDirB.x - cxDirA.x) +
            (cxDirB.y - cxDirA.y) * (cxDirB.y - cxDirA.y)),
          classifyType (turnText ((cxDirB.x - cxDirA.x) *
            (cxDirC.y - cxDirB.y) - (cxDirB.y - cxDirA.y) *
            (cxDirC.x - cxDirB.x)))⟩ ::
        genSteps cxDirNodes cxDirFmt ["B", "C"]) ∧
    (∀ cr : ℚ, turnText cr ≠ "") ∧
    (generateDirections ["A", "B"] cxDirNodes cxDirFmt =
      [⟨s!"Arrive at {jsLabel cxDirB}",
        cxDirFmt ((cxDirB.x - cxDirA.x) * (cxDirB.x - cxDirA.x) +
          (cxDirB.y - cxDirA.y) * (cxDirB.y - cxDirA.y)),
        "arrive"⟩]) ∧
    (nodeMapFind cxDirNodes "C" = none →
      generateDirections ["A", "B", "C"] cxDirNodes cxDirFmt =
        ⟨s!"Head {headDirection (cxDirB.x - cxDirA.x) (cxDirB.y - cxDirA.y)} — {cxDirFmt ((cxDirB.x - cxDirA.x) * (cxDirB.x - cxDirA.x) + (cxDirB.y - cxDirA.y) * (cxDirB.y - cxDirA.y))}m",
          cxDirFmt ((cxDirB.x - cxDirA.x) * (cxDirB.x - cxDirA.x) +
            (cxDirB.y - cxDirA.y) * (cxDirB.y - cxDirA.y)),
          "straight"⟩ ::
        genSteps cxDirNodes cxDirFmt ["B", "C"]) :=
  C8_first_hop cxDirNodes cxDirFmt "A" "B" "C" [] cxDirA cxDirB cxDirC
    rfl rfl

/-- C8 counterexample to the unamended claim: a length-3 path whose node ids
all resolve; the first hop's instruction reads "Continue straight at B", not
"Head <direction> — <distance>m". -/
theorem C8_counterexample :
    (nodeMapFind cxDirNodes "A").isSome = true ∧
    (nodeMapFind cxDirNodes "B").isSome = true ∧
    (nodeMapFind cxDirNodes "C").isSome = true ∧
    generateDirections ["A", "B", "C"] cxDirNodes cxDirFmt =
      [⟨"Continue straight at B", "4", "straight"⟩,
       ⟨"Arrive at C", "4", "arrive"⟩] ∧
    jsIncludes "Continue straight at B" "Head" = false := by
  refine ⟨rfl, rfl, rfl, ?_, by decide⟩
  rw [generateDirections_cons,
    genSteps_interior_some cxDirNodes cxDirFmt "A" "B" "C" []
      ⟨"A", 0, 0, "intersection", true, none⟩
      ⟨"B", 4, 0, "intersection", true, none⟩
      ⟨"C", 8, 0, "intersection", true, none⟩ rfl rfl rfl,
    genSteps_two cxDirNodes cxDirFmt "B" "C"
      ⟨"B", 4, 0, "intersection", true, none⟩
      ⟨"C", 8, 0, "intersection", true, none⟩ rfl rfl]
  dsimp only
  have h0 : ((4 : ℚ) - 0) * (0 - 0) - (0 - 0) * (8 - 4) = 0 := by norm_num
  have h16 : ((4 : ℚ) - 0) * ((4 : ℚ) - 0) + (0 - 0) * (0 - 0) = 16 := by
    norm_num
  have h16' : ((8 : ℚ) - 4) * ((8 : ℚ) - 4) + (0 - 0) * (0 - 0) = 16 := by
    norm_num
  rw [h0, h16, h16']
  have ht : turnText (0 : ℚ) = "Continue straight" := by
    unfold turnText
    rw [if_neg]
    rw [abs_zero]
    norm_num
  have hf : cxDirFmt 16 = "4" := by
    unfold cxDirFmt
    rw [if_pos rfl]
  rw [ht, hf]
  decide
